import Mathlib

/-! # tf_device.launch to device attribute: a verification development

Shallow embedding of
`tensorflow/compiler/mlir/tensorflow/transforms/launch_to_device_attribute.cc`.

The pass walks a module, and for every `tf_device.launch` it
* collects the functions reachable from the launch body through symbol
  references (`GetReachableFunctionsFromRegion`),
* forwards the results of the launch to the operands of the terminator of its
  body,
* assigns the launch device to the operations of the launch body and of the
  reachable functions (`AssignDevicesInRegion`),
* moves the body (without its terminator) in front of the launch and erases
  the launch (`HoistOpsAndAnnotateWithDevice`).

The IR itself belongs to MLIR.  It is modelled as a tree: an operation carries
its own data (`OpData`) and a list of regions, a region holds one block, a
block is a list of operations.  Pointer identity of an operation is the `id`
field of its data; a well-formed module has pairwise distinct ids
(`NodupIds`).  In-place mutation is explicit state passing: every function
that mutates the module returns the new module.
-/

namespace mlir

/-! ## Data model -/

/-- A dialect, known by its namespace. -/
abbrev Dialect := String

/-- The context: the namespaces of the dialects loaded in it.  The builtin
dialect (empty namespace, home of `func` and `module`) is always loaded. -/
structure MLIRContext where
  loadedDialects : List String

/-- Mirror of `MLIRContext::getLoadedDialect`. -/
def MLIRContext.getLoadedDialect (ctx : MLIRContext) (ns : String) : Option Dialect :=
  if ns = "" ∨ ns ∈ ctx.loadedDialects then some ns else none

/-- Attribute values.  Only the distinctions the pass makes are kept: a string
attribute, a symbol reference (known by its root reference), and any other
kind of attribute, which carries its printed form. -/
inductive Attribute where
  | StringAttr (value : String)
  | SymbolRefAttr (root : String)
  | other (printed : String)
deriving DecidableEq, Repr

/-- Printed form of an attribute, as streamed into a diagnostic. -/
def Attribute.print : Attribute → String
  | .StringAttr value => "\"" ++ value ++ "\""
  | .SymbolRefAttr root => "@" ++ root
  | .other printed => printed

/-- An SSA value: a result of an operation (named by the id of its owner) or a
block argument. -/
inductive Value where
  | OpResult (owner : Nat) (index : Nat)
  | BlockArgument (owner : Nat) (index : Nat)
deriving DecidableEq, Repr

/-- The name of an operation: dialect namespace and mnemonic. -/
structure OperationName where
  dialect : String
  mnemonic : String
deriving DecidableEq, Repr

/-- The data an operation owns itself: identity, name, attribute dictionary,
operands and number of results. -/
structure OpData where
  id : Nat
  name : OperationName
  attrs : List (String × Attribute)
  operands : List Value
  numResults : Nat
deriving DecidableEq, Repr

/-- An operation with its regions; each region holds one block. -/
inductive Operation where
  | mk (data : OpData) (regions : List (List Operation))

abbrev Block := List Operation
abbrev Region := List Operation

/-- A module, given by the block of its body. -/
abbrev ModuleOp := List Operation

def Operation.data : Operation → OpData
  | .mk data _ => data

def Operation.regions : Operation → List Region
  | .mk _ regions => regions

/-- The first region of an operation: `launch.body()`, `func.getBody()`. -/
def Operation.body : Operation → Region
  | .mk _ [] => []
  | .mk _ (r :: _) => r

/-- Replace the first region of an operation. -/
def Operation.setBody : Operation → Region → Operation
  | .mk data [], _ => .mk data []
  | .mk data (_ :: rs), r => .mk data (r :: rs)

/-- Mirror of `Operation::getAttr` on the attribute dictionary. -/
def getAttr : List (String × Attribute) → String → Option Attribute
  | [], _ => none
  | (k, v) :: rest, name => if k = name then some v else getAttr rest name

/-- Mirror of `Operation::setAttr` on the attribute dictionary: the entry is
replaced when present and added otherwise. -/
def setAttr : List (String × Attribute) → String → Attribute → List (String × Attribute)
  | [], name, value => [(name, value)]
  | (k, v) :: rest, name, value =>
    if k = name then (k, value) :: rest else (k, v) :: setAttr rest name value

def OpData.getAttr (op : OpData) (name : String) : Option Attribute :=
  mlir.getAttr op.attrs name

def OpData.setAttr (op : OpData) (name : String) (value : Attribute) : OpData :=
  { op with attrs := mlir.setAttr op.attrs name value }

/-- Mirror of `Operation::getDialect`: the loaded dialect of the namespace of
the operation name, if any. -/
def OpData.getDialect (ctx : MLIRContext) (op : OpData) : Option Dialect :=
  ctx.getLoadedDialect op.name.dialect

/-- A diagnostic: the operation it is attached to (`none` for the module) and
its message. -/
structure Diagnostic where
  location : Option Nat
  message : String
deriving DecidableEq, Repr

/-- Result of a walk callback.  An interrupt carries the diagnostic that was
emitted when it was produced. -/
inductive WalkResult where
  | advance
  | interrupt (emitted : Diagnostic)
deriving DecidableEq, Repr

def WalkResult.wasInterrupted : WalkResult → Bool
  | .advance => false
  | .interrupt _ => true

/-- Success or failure; a failure carries the diagnostic emitted on the way. -/
inductive LogicalResult where
  | success
  | failure (emitted : Diagnostic)
deriving DecidableEq, Repr

def failed : LogicalResult → Bool
  | .success => false
  | .failure _ => true

def succeeded (r : LogicalResult) : Bool := !failed r

/-- The expression `failure(result.wasInterrupted())`. -/
def WalkResult.toLogicalResult : WalkResult → LogicalResult
  | .advance => .success
  | .interrupt d => .failure d

/-! ## Traversals of the IR tree -/

mutual
/-- The operations under and including an operation, in the order
`Operation::walk` reaches them: the nested operations first, region by region,
then the operation itself. -/
def Operation.allOps : Operation → List Operation
  | .mk data regions => allOpsRegions regions ++ [.mk data regions]
def allOpsRegions : List (List Operation) → List Operation
  | [] => []
  | r :: rs => allOpsBlock r ++ allOpsRegions rs
def allOpsBlock : List Operation → List Operation
  | [] => []
  | op :: rest => op.allOps ++ allOpsBlock rest
end

/-- The data of every operation of a block, at any nesting depth, in walk
order. -/
def nodes (b : Block) : List OpData := (allOpsBlock b).map Operation.data

/-- The ids of every operation of a block, at any nesting depth. -/
def ids (b : Block) : List Nat := (nodes b).map OpData.id

/-- Operations are told apart by identity: no id occurs twice. -/
def NodupIds (b : Block) : Prop := (ids b).Nodup

instance (b : Block) : Decidable (NodupIds b) := by
  unfold NodupIds; infer_instance

/-- The operation behind a handle. -/
def findOp (b : Block) (id : Nat) : Option Operation :=
  (allOpsBlock b).find? (fun op => op.data.id == id)

mutual
/-- Mirror of `Region::walk` with an interruptible callback (of
`detail::walkOperations`): nested operations are visited before the operation
that holds them, and the walk stops at the first interrupt.  The callback may
change the data of the operation it is called on. -/
def walkOperation (callback : OpData → OpData × WalkResult) :
    Operation → Operation × WalkResult
  | .mk data regions =>
    let r := walkRegions callback regions
    if r.2.wasInterrupted then (.mk data r.1, r.2)
    else
      let c := callback data
      (.mk c.1 r.1, c.2)
def walkRegions (callback : OpData → OpData × WalkResult) :
    List (List Operation) → List (List Operation) × WalkResult
  | [] => ([], .advance)
  | r :: rs =>
    let w := walkBlock callback r
    if w.2.wasInterrupted then (w.1 :: rs, w.2)
    else
      let ws := walkRegions callback rs
      (w.1 :: ws.1, ws.2)
def walkBlock (callback : OpData → OpData × WalkResult) :
    List Operation → List Operation × WalkResult
  | [] => ([], .advance)
  | op :: rest =>
    let w := walkOperation callback op
    if w.2.wasInterrupted then (w.1 :: rest, w.2)
    else
      let ws := walkBlock callback rest
      (w.1 :: ws.1, ws.2)
end

mutual
/-- Apply a change to the data of every operation, at any nesting depth. -/
def mapDataOp (g : OpData → OpData) : Operation → Operation
  | .mk data regions => .mk (g data) (mapDataRegions g regions)
def mapDataRegions (g : OpData → OpData) : List (List Operation) → List (List Operation)
  | [] => []
  | r :: rs => mapDataBlock g r :: mapDataRegions g rs
def mapDataBlock (g : OpData → OpData) : List Operation → List Operation
  | [] => []
  | op :: rest => mapDataOp g op :: mapDataBlock g rest
end

mutual
/-- Replace, in the block that holds it, the operation with the given id by a
list of operations computed from it. -/
def rewriteOp (id : Nat) (f : Operation → List Operation) : Operation → List Operation
  | .mk data regions =>
    if data.id = id then f (.mk data regions)
    else [.mk data (rewriteRegions id f regions)]
def rewriteRegions (id : Nat) (f : Operation → List Operation) :
    List (List Operation) → List (List Operation)
  | [] => []
  | r :: rs => rewriteBlock id f r :: rewriteRegions id f rs
def rewriteBlock (id : Nat) (f : Operation → List Operation) : List Operation → List Operation
  | [] => []
  | op :: rest => rewriteOp id f op ++ rewriteBlock id f rest
end

/-- The structure of a module without the contents the pass mutates in place:
every operation keeps its id, name, number of results and regions, and loses
its attributes and operands. -/
def skeletonData (op : OpData) : OpData :=
  { op with attrs := [], operands := [] }

def skeleton (b : Block) : Block := mapDataBlock skeletonData b

/-! ## The pass -/

def kDeviceAttr : String := "device"

def LaunchOpName : OperationName := ⟨"tf_device", "launch"⟩
def FuncOpName : OperationName := ⟨"", "func"⟩
def ModuleOpName : OperationName := ⟨"", "module"⟩

/-- The expression `isa<tf_device::LaunchOp>(op)`. -/
def isLaunchOp (op : OpData) : Bool := op.name == LaunchOpName

/-- The expression `isa<FuncOp>(op)`. -/
def isFuncOp (op : OpData) : Bool := op.name == FuncOpName

/-- Mirror of `launch.device()`: the value of the `device` string attribute of
the launch (a required attribute of a verified `tf_device.launch`). -/
def LaunchOp.device (launch : OpData) : String :=
  match launch.getAttr kDeviceAttr with
  | some (.StringAttr value) => value
  | _ => ""

/-- Mirror of `launch.deviceAttr()`. -/
def LaunchOp.deviceAttr (launch : OpData) : Attribute :=
  .StringAttr (LaunchOp.device launch)

/-- Mirror of `launch.emitOpError()`: an error attached to the launch. -/
def LaunchOp.emitOpError (launch : OpData) (message : String) : Diagnostic :=
  ⟨some launch.id, "'tf_device.launch' op " ++ message⟩

/-- Names of the `tf_executor` operations listed in
`IsSupportedExecutorDialectOp`. -/
def supportedExecutorOps : List OperationName :=
  [⟨"tf_executor", "ControlTrigger"⟩, ⟨"tf_executor", "Enter"⟩,
   ⟨"tf_executor", "Exit"⟩, ⟨"tf_executor", "LoopCond"⟩,
   ⟨"tf_executor", "Merge"⟩, ⟨"tf_executor", "NextIteration.Sink"⟩,
   ⟨"tf_executor", "NextIteration.Source"⟩, ⟨"tf_executor", "Switch"⟩,
   ⟨"tf_executor", "SwitchN"⟩]

def IsSupportedExecutorDialectOp (op : OpData) : Bool :=
  supportedExecutorOps.contains op.name

/-- The operations the pass assigns a device to: those of the TensorFlow
dialect and the listed `tf_executor` ones (the negation of the first test of
the callback of `AssignDevicesInRegion`). -/
def inFamily (ctx : MLIRContext) (tf_dialect : Dialect) (op : OpData) : Bool :=
  !(op.getDialect ctx != some tf_dialect && !IsSupportedExecutorDialectOp op)

/-- The callback of the walk in `AssignDevicesInRegion`. -/
def assignDevice (ctx : MLIRContext) (tf_dialect : Dialect) (launch : OpData)
    (op : OpData) : OpData × WalkResult :=
  if op.getDialect ctx != some tf_dialect && !IsSupportedExecutorDialectOp op then
    (op, .advance)
  else
    match op.getAttr kDeviceAttr with
    | none => (op.setAttr kDeviceAttr (LaunchOp.deviceAttr launch), .advance)
    | some (.StringAttr value) =>
      if value = "" then
        (op.setAttr kDeviceAttr (LaunchOp.deviceAttr launch), .advance)
      else if value ≠ LaunchOp.device launch then
        (op, .interrupt (LaunchOp.emitOpError launch
          ("inner op has conflicting 'device' attribute, got '" ++ value ++
            "' but expected '" ++ LaunchOp.device launch ++ "'")))
      else (op, .advance)
    | some device_attr =>
      (op, .interrupt (LaunchOp.emitOpError launch
        ("inner op has bad 'device' attribute, got " ++ device_attr.print)))

/-- Assign all ops in region with specified device from launch.  Returns the
region as the walk leaves it, and the result. -/
def AssignDevicesInRegion (ctx : MLIRContext) (tf_dialect : Dialect) (launch : OpData)
    (region : Region) : Region × LogicalResult :=
  let result := walkBlock (assignDevice ctx tf_dialect launch) region
  (result.1, result.2.toLogicalResult)

/-! ### Symbol uses and the symbol table -/

/-- The root references of the symbol references held by the attributes of an
operation. -/
def symbolRefs (op : OpData) : List String :=
  op.attrs.filterMap (fun kv =>
    match kv.2 with
    | .SymbolRefAttr root => some root
    | _ => none)

/-- The expression `op->hasTrait<OpTrait::SymbolTable>()`: among the
operations modelled, a nested module. -/
def definesSymbolTable (op : OpData) : Bool := op.name == ModuleOpName

mutual
/-- Mirror of `SymbolTable::getSymbolUses` below an operation.  The uses are
unknown (`none`) as soon as an operation of an unloaded dialect with exactly
one region is met, since it may define a symbol table of its own; the regions
of an operation that does define a symbol table are not entered. -/
def symbolUsesOp (ctx : MLIRContext) : Operation → Option (List String)
  | .mk data regions =>
    if (data.getDialect ctx).isNone && regions.length == 1 then none
    else if definesSymbolTable data then some (symbolRefs data)
    else
      match symbolUsesRegions ctx regions with
      | none => none
      | some nested => some (symbolRefs data ++ nested)
def symbolUsesRegions (ctx : MLIRContext) : List (List Operation) → Option (List String)
  | [] => some []
  | r :: rs =>
    match symbolUsesBlock ctx r with
    | none => none
    | some here =>
      match symbolUsesRegions ctx rs with
      | none => none
      | some later => some (here ++ later)
def symbolUsesBlock (ctx : MLIRContext) : List Operation → Option (List String)
  | [] => some []
  | op :: rest =>
    match symbolUsesOp ctx op with
    | none => none
    | some here =>
      match symbolUsesBlock ctx rest with
      | none => none
      | some later => some (here ++ later)
end

/-- Mirror of `symbol_table.getSymbolUses(&region)`. -/
def SymbolTable.getSymbolUses (ctx : MLIRContext) (region : Region) : Option (List String) :=
  symbolUsesBlock ctx region

/-- Mirror of `symbol_table.lookup(name)`, for the symbol table of the module:
the operation of the module body whose `sym_name` is the name. -/
def SymbolTable.lookup (module : ModuleOp) (name : String) : Option Operation :=
  module.find? (fun op => op.data.getAttr "sym_name" == some (.StringAttr name))

/-- Mirror of `symbol_table.lookup<FuncOp>(name)`. -/
def SymbolTable.lookupFuncOp (module : ModuleOp) (name : String) : Option Operation :=
  match SymbolTable.lookup module name with
  | some op => if isFuncOp op.data then some op else none
  | none => none

/-! ### GetReachableFunctionsFromRegion -/

/-- Membership in `visited_functions`, a set of operation handles, kept here in
the order of insertion. -/
def visitedContains (visited : List Operation) (func : Operation) : Bool :=
  visited.any (fun f => f.data.id == func.data.id)

/-- The first loop: every function named by a use enters `visited_functions`. -/
def seedFunctions (module : ModuleOp) : List String → List Operation → List Operation
  | [], visited => visited
  | use :: uses, visited =>
    match SymbolTable.lookupFuncOp module use with
    | some func =>
      if visitedContains visited func then seedFunctions module uses visited
      else seedFunctions module uses (visited ++ [func])
    | none => seedFunctions module uses visited

/-- The innermost loop: a function named by a use and not visited yet enters
`visited_functions` and `new_functions_to_visit`.  The state is the pair of
the two. -/
def visitUses (module : ModuleOp) :
    List String → List Operation × List Operation → List Operation × List Operation
  | [], st => st
  | use :: uses, st =>
    match SymbolTable.lookupFuncOp module use with
    | some func =>
      if visitedContains st.1 func then visitUses module uses st
      else visitUses module uses (st.1 ++ [func], st.2 ++ [func])
    | none => visitUses module uses st

/-- The loop over `functions_to_visit`; a function whose uses are unknown is
passed over.  The callable region of a function is its body (a function
without a body is taken to have an empty one). -/
def visitFunctions (ctx : MLIRContext) (module : ModuleOp) :
    List Operation → List Operation × List Operation → List Operation × List Operation
  | [], st => st
  | function_to_visit :: rest, st =>
    match SymbolTable.getSymbolUses ctx function_to_visit.body with
    | none => visitFunctions ctx module rest st
    | some func_symbol_uses =>
      visitFunctions ctx module rest (visitUses module func_symbol_uses st)

/-- The `while (!functions_to_visit.empty())` loop, with fuel. -/
def visitLoop (ctx : MLIRContext) (module : ModuleOp) :
    Nat → List Operation → List Operation → List Operation
  | 0, visited_functions, _ => visited_functions
  | fuel + 1, visited_functions, functions_to_visit =>
    if functions_to_visit.isEmpty then visited_functions
    else
      let st := visitFunctions ctx module functions_to_visit (visited_functions, [])
      visitLoop ctx module fuel st.1 st.2

/-- Collects all functions reachable from a region, including transitive ones.
The fuel, one more than the number of operations in the module body, is never
used up (`visitLoop_spec`). -/
def GetReachableFunctionsFromRegion (ctx : MLIRContext) (module : ModuleOp)
    (region : Region) : List Operation :=
  match SymbolTable.getSymbolUses ctx region with
  | none => []
  | some symbol_uses =>
    let visited_functions := seedFunctions module symbol_uses []
    visitLoop ctx module (module.length + 1) visited_functions visited_functions

/-! ### HoistOpsAndAnnotateWithDevice -/

/-- Mirror of `launch.GetBody().getTerminator()->getOperands()`. -/
def terminatorOperands (body : Block) : List Value :=
  match body.getLast? with
  | some terminator => terminator.data.operands
  | none => []

/-- Where a use of a value goes when the results of `launch` are replaced by
`values`: result `index` of the launch becomes `values[index]`. -/
def forwardValue (launch : Nat) (numResults : Nat) (values : List Value) : Value → Value
  | .OpResult owner index =>
    if owner = launch ∧ index < numResults then values.getD index (.OpResult owner index)
    else .OpResult owner index
  | .BlockArgument owner index => .BlockArgument owner index

def forwardOperands (launch : Nat) (numResults : Nat) (values : List Value)
    (op : OpData) : OpData :=
  { op with operands := op.operands.map (forwardValue launch numResults values) }

/-- Mirror of `launch.replaceAllUsesWith(values)`: every use, anywhere in the
module, of a result of the launch is replaced by the value of the same index.
MLIR replaces the uses result by result; the replacements do not interfere
with each other as long as no replacement value is itself a result of the
launch, which holds in verified IR, where the results of an operation are not
visible inside its own regions. -/
def replaceAllUsesWith (launch : Nat) (numResults : Nat) (values : List Value)
    (module : ModuleOp) : ModuleOp :=
  mapDataBlock (forwardOperands launch numResults values) module

/-- The call `AssignDevicesInRegion(tf_dialect, launch, owner.body())` on the
module: the body of the operation `owner` is replaced by what the walk leaves,
and the result is the result of the walk.  The operation is found by its id,
which names one operation in a module with distinct ids. -/
def assignInBodyOf (ctx : MLIRContext) (tf_dialect : Dialect) (launch : OpData)
    (owner : Nat) (module : ModuleOp) : ModuleOp × LogicalResult :=
  (rewriteBlock owner
      (fun op => [op.setBody (AssignDevicesInRegion ctx tf_dialect launch op.body).1]) module,
    match findOp module owner with
    | some op => (AssignDevicesInRegion ctx tf_dialect launch op.body).2
    | none => .success)

/-- The loop `for (FuncOp func : reachable_functions)`. -/
def assignInFunctions (ctx : MLIRContext) (tf_dialect : Dialect) (launch : OpData) :
    List Operation → ModuleOp → ModuleOp × LogicalResult
  | [], module => (module, .success)
  | func :: rest, module =>
    let r := assignInBodyOf ctx tf_dialect launch func.data.id module
    if failed r.2 then r
    else assignInFunctions ctx tf_dialect launch rest r.1

/-- The splice of `launch.GetBody().without_terminator()` in front of the
launch, followed by `launch.erase()`. -/
def spliceBody (launch : Nat) (module : ModuleOp) : ModuleOp :=
  rewriteBlock launch (fun op => op.body.dropLast) module

/-- The function `HoistOpsAndAnnotateWithDevice`.  The launch is passed as it
stands in the module; its id is its handle. -/
def HoistOpsAndAnnotateWithDevice (ctx : MLIRContext) (tf_dialect : Dialect)
    (module : ModuleOp) (launch : Operation) : ModuleOp × LogicalResult :=
  let reachable_functions := GetReachableFunctionsFromRegion ctx module launch.body
  let forwarded :=
    replaceAllUsesWith launch.data.id launch.data.numResults
      (terminatorOperands launch.body) module
  let inner := assignInBodyOf ctx tf_dialect launch.data launch.data.id forwarded
  if failed inner.2 then inner
  else
    let outer := assignInFunctions ctx tf_dialect launch.data reachable_functions inner.1
    if failed outer.2 then outer
    else (spliceBody launch.data.id outer.1, .success)

/-! ### runOnOperation -/

/-- The launches of a module in the order `module.walk` reaches them. -/
def launchOps (module : ModuleOp) : List Nat :=
  ((nodes module).filter isLaunchOp).map OpData.id

/-- The walk of `runOnOperation` over the launches.  `module.walk` reaches the
operations in post-order and reads the next operation of a block before it
calls the callback, so that hoisting a launch (which only inserts operations
already walked in front of it and erases it) leaves the rest of the traversal
as it was: the callback runs on the launches of the incoming module, in
post-order, each as it stands when it is reached.  A handle whose operation
is no longer in the module is passed over. -/
def walkLaunchOps (ctx : MLIRContext) (tf_dialect : Dialect) :
    List Nat → ModuleOp → ModuleOp × WalkResult
  | [], module => (module, .advance)
  | id :: rest, module =>
    match findOp module id with
    | none => walkLaunchOps ctx tf_dialect rest module
    | some launch =>
      let r := HoistOpsAndAnnotateWithDevice ctx tf_dialect module launch
      match r.2 with
      | .failure d => (r.1, .interrupt d)
      | .success => walkLaunchOps ctx tf_dialect rest r.1

/-- The method `LaunchToDeviceAttributePass::runOnOperation`; a failure result
stands for `signalPassFailure()`. -/
def runOnOperation (ctx : MLIRContext) (module : ModuleOp) : ModuleOp × LogicalResult :=
  match ctx.getLoadedDialect "tf" with
  | none => (module, .failure ⟨none, "'tf' dialect is not registered"⟩)
  | some tf_dialect =>
    let result := walkLaunchOps ctx tf_dialect (launchOps module) module
    (result.1, result.2.toLogicalResult)

/-! ## Blocks inside a module -/

/-- The block reached from a block by a path: each step names an operation of
the current block by its position and one of its regions by its index. -/
def blockAt : Block → List (Nat × Nat) → Option Block
  | b, [] => some b
  | b, (i, r) :: path =>
    match b[i]? with
    | none => none
    | some op =>
      match op.regions[r]? with
      | none => none
      | some inner => blockAt inner path

/-- One level of nesting around a block: the operation that holds the block in
one of its regions, with the operations before and after it in its own block. -/
structure Frame where
  before : Block
  data : OpData
  regionsBefore : List Region
  regionsAfter : List Region
  after : Block

/-- The block obtained by putting a block in the hole of a context (a list of
frames, outermost first). -/
def plug : List Frame → Block → Block
  | [], x => x
  | fr :: rest, x =>
    fr.before ++ [.mk fr.data (fr.regionsBefore ++ [plug rest x] ++ fr.regionsAfter)] ++ fr.after

/-! ## The example of the file header -/

def tfOp (id : Nat) (mnemonic : String) (attrs : List (String × Attribute))
    (operands : List Value) (numResults : Nat) : Operation :=
  .mk ⟨id, ⟨"tf", mnemonic⟩, attrs, operands, numResults⟩ []

def exampleLaunch : Operation :=
  .mk ⟨2, LaunchOpName, [("device", .StringAttr "CPU:0")], [], 2⟩
    [[tfOp 3 "opB" [] [] 1, tfOp 4 "opC" [("device", .StringAttr "")] [] 1,
      .mk ⟨5, ⟨"tf_device", "return"⟩, [], [.OpResult 4 0, .OpResult 3 0], 0⟩ []]]

def exampleYield : Operation :=
  .mk ⟨7, ⟨"tf_executor", "yield"⟩, [],
    [.OpResult 1 0, .OpResult 2 0, .OpResult 2 1, .OpResult 6 0], 0⟩ []

/-- The island of the file header, inside a function `main`. -/
def exampleModule : ModuleOp :=
  [.mk ⟨9, FuncOpName, [("sym_name", .StringAttr "main")], [], 0⟩
    [[.mk ⟨8, ⟨"tf_executor", "island"⟩, [], [], 5⟩
      [[tfOp 1 "opA" [] [] 1, exampleLaunch, tfOp 6 "opD" [] [] 1, exampleYield]]]]]

def exampleContext : MLIRContext := ⟨["tf", "tf_device", "tf_executor"]⟩

/-- The ids of every operation of a list of regions, at any nesting depth. -/
def idsRegions (rs : List Region) : List Nat := (allOpsRegions rs).map (fun op => op.data.id)

def walkList (callback : OpData → OpData × WalkResult) : List OpData → List OpData × WalkResult
  | [] => ([], .advance)
  | d :: ds =>
    let c := callback d
    if c.2.wasInterrupted then (c.1 :: ds, c.2)
    else
      let r := walkList callback ds
      (c.1 :: r.1, r.2)

/-- The `device` attribute of an operation stands against device `d`: it is
not a string, or it is a non-empty string other than `d`. -/
def conflictsWith (d : String) (op : OpData) : Bool :=
  match op.getAttr kDeviceAttr with
  | none => false
  | some (.StringAttr value) => value != "" && value != d
  | some _ => true

/-- Apply a change to the data of the operations whose id is in a list, and
leave the others as they are. -/
def onIds (S : List Nat) (f : OpData → OpData) (n : OpData) : OpData :=
  if n.id ∈ S then f n else n

/-- The ids of the operations in the bodies of a list of functions. -/
def bodyIds : List Operation → List Nat
  | [] => []
  | func :: rest => ids func.body ++ bodyIds rest

/-- What the steps of a hoist that have succeeded so far make of the data of
an operation, as a function `G` of the data before the hoist; `S` lists the
ids of the operations of the regions walked so far.  The operands are the
forwarded ones; the attributes are the same, or the operation is one of the
family, in a walked region, with no device yet, and it got the launch device;
every operation of the family in a walked region now has the launch device. -/
def Evolves (ctx : MLIRContext) (tf_dialect : Dialect) (launch : Operation)
    (module : ModuleOp) (S : List Nat) (G : OpData → OpData) : Prop :=
  (∀ n : OpData, (G n).id = n.id ∧ (G n).name = n.name ∧ (G n).numResults = n.numResults ∧
    (G n).operands = n.operands.map
      (forwardValue launch.data.id launch.data.numResults (terminatorOperands launch.body))) ∧
  (∀ n : OpData, (G n).attrs = n.attrs ∨
    (inFamily ctx tf_dialect n = true ∧
      (n.getAttr kDeviceAttr = none ∨ n.getAttr kDeviceAttr = some (.StringAttr "")) ∧
      n.id ∈ S ∧
      (G n).attrs = setAttr n.attrs kDeviceAttr (.StringAttr (LaunchOp.device launch.data)))) ∧
  (∀ n ∈ nodes module, n.id ∈ S → inFamily ctx tf_dialect n = true →
    (G n).getAttr kDeviceAttr = some (.StringAttr (LaunchOp.device launch.data)))

/-- The body of the launch of the file header, with a device on `opC` that
differs from the device of the launch. -/
def conflictLaunch : Operation :=
  .mk ⟨2, LaunchOpName, [("device", .StringAttr "CPU:0")], [], 2⟩
    [[tfOp 3 "opB" [] [] 1, tfOp 4 "opC" [("device", .StringAttr "GPU:0")] [] 1,
      .mk ⟨5, ⟨"tf_device", "return"⟩, [], [.OpResult 4 0, .OpResult 3 0], 0⟩ []]]

def conflictModule : ModuleOp :=
  [.mk ⟨9, FuncOpName, [("sym_name", .StringAttr "main")], [], 0⟩
    [[.mk ⟨8, ⟨"tf_executor", "island"⟩, [], [], 5⟩
      [[tfOp 1 "opA" [] [] 1, conflictLaunch, tfOp 6 "opD" [] [] 1, exampleYield]]]]]

/-- A launch nested in the body of another launch, inside a function; `inner`
is the device of the inner launch and the outer launch is on `CPU:0`. -/
def nestedModule (inner : String) : ModuleOp :=
  [.mk ⟨1, FuncOpName, [("sym_name", .StringAttr "main")], [], 0⟩
    [[.mk ⟨2, LaunchOpName, [("device", .StringAttr "CPU:0")], [], 0⟩
        [[tfOp 3 "opA" [] [] 1,
          .mk ⟨4, LaunchOpName, [("device", .StringAttr inner)], [], 0⟩
            [[tfOp 5 "opB" [] [] 1,
              .mk ⟨6, ⟨"tf_device", "return"⟩, [], [], 0⟩ []]],
          .mk ⟨7, ⟨"tf_device", "return"⟩, [], [], 0⟩ []]],
      .mk ⟨8, ⟨"", "return"⟩, [], [], 0⟩ []]]]

/-- An operation of the region, at any nesting depth, holds a symbol reference
that the symbol table of the module resolves to the function `f`. -/
def refersTo (module : ModuleOp) (region : Region) (f : Operation) : Prop :=
  ∃ n ∈ nodes region, ∃ name ∈ symbolRefs n, SymbolTable.lookupFuncOp module name = some f

/-- There is a chain of one or more symbol references, each resolving in the
symbol table of the module to a function, from an operation of the region to
the function. -/
inductive ReachableFrom (module : ModuleOp) (region : Region) : Operation → Prop where
  | direct {f : Operation} : refersTo module region f → ReachableFrom module region f
  | step {g f : Operation} : ReachableFrom module region g → refersTo module g.body f →
      ReachableFrom module region f

/-- The operation is neither one whose symbol uses are unknown (an operation
of an unloaded dialect with exactly one region) nor a nested symbol table. -/
def plainOp (ctx : MLIRContext) (op : Operation) : Bool :=
  !((op.data.getDialect ctx).isNone && op.regions.length == 1) && !definesSymbolTable op.data

/-- Every operation of the block, at any nesting depth, is plain: the symbol
uses of the block are known and are the references of all its operations. -/
def usesKnown (ctx : MLIRContext) (b : Block) : Prop :=
  ∀ op ∈ allOpsBlock b, plainOp ctx op = true

instance (ctx : MLIRContext) (b : Block) : Decidable (usesKnown ctx b) := by
  unfold usesKnown; infer_instance

/-- A function `A` alone in a module. -/
def loneFunction : Operation :=
  .mk ⟨10, FuncOpName, [("sym_name", .StringAttr "A")], [], 0⟩
    [[.mk ⟨11, ⟨"", "return"⟩, [], [], 0⟩ []]]

/-- A region whose one operation, of a dialect that is not loaded and with one
region, names the function `A`. -/
def unknownRegion : Region :=
  [.mk ⟨1, ⟨"foo", "call"⟩, [("callee", .SymbolRefAttr "A")], [], 0⟩ [[]]]

/-- The functions `A` and `B` that call each other. -/
def cycleA : Operation :=
  .mk ⟨10, FuncOpName, [("sym_name", .StringAttr "A")], [], 0⟩
    [[tfOp 11 "call" [("f", .SymbolRefAttr "B")] [] 0]]

def cycleB : Operation :=
  .mk ⟨20, FuncOpName, [("sym_name", .StringAttr "B")], [], 0⟩
    [[tfOp 21 "call" [("f", .SymbolRefAttr "A")] [] 0]]

def cycleModule : ModuleOp := [cycleA, cycleB]

/-- A region that names `A` and a symbol that is no function of the module. -/
def cycleRegion : Region :=
  [tfOp 1 "call" [("f", .SymbolRefAttr "A")] [] 0,
   tfOp 2 "call" [("f", .SymbolRefAttr "missing")] [] 0]

/-- The ids of a list of operation handles. -/
def handleIds (l : List Operation) : List Nat := l.map (fun f => f.data.id)

/-- Every function named, with known uses, in the body of `g` is among the
handles `V`. -/
def ClosedUnder (ctx : MLIRContext) (module : ModuleOp) (V : List Operation)
    (g : Operation) : Prop :=
  ∀ l, SymbolTable.getSymbolUses ctx g.body = some l → ∀ name ∈ l, ∀ f,
    SymbolTable.lookupFuncOp module name = some f → f.data.id ∈ handleIds V

def ReturnOpName : OperationName := ⟨"tf_device", "return"⟩

/-- What the verifier guarantees of a `tf_device.launch`: it has one region,
whose block ends with a `tf_device.return`, an operation without regions. -/
def launchWellFormed (op : Operation) : Bool :=
  match op.regions with
  | [body] =>
    match body.getLast? with
    | some terminator => terminator.data.name == ReturnOpName && terminator.regions.isEmpty
    | none => false
  | _ => false

/-- Every launch of the block, at any nesting depth, is well formed. -/
def LaunchesWellFormed (b : Block) : Prop :=
  ∀ op ∈ allOpsBlock b, isLaunchOp op.data = true → launchWellFormed op = true

instance (b : Block) : Decidable (LaunchesWellFormed b) := by
  unfold LaunchesWellFormed; infer_instance

/-- The launch `t`, with device `d`, holds in its body the operation `xid`,
an operation of the family. -/
def Holds (ctx : MLIRContext) (m : ModuleOp) (t : Nat) (d : String) (xid : Nat) : Prop :=
  ∃ (T : Operation) (xn : OpData), findOp m t = some T ∧ isLaunchOp T.data = true ∧
    LaunchOp.device T.data = d ∧ xn ∈ nodes m ∧ xn.id = xid ∧
    inFamily ctx "tf" xn = true ∧ xid ∈ ids T.body

/-- The operation `xid`, an operation of the family, has device `d`. -/
def Assigned (ctx : MLIRContext) (m : ModuleOp) (xid : Nat) (d : String) : Prop :=
  ∃ xn ∈ nodes m, xn.id = xid ∧ inFamily ctx "tf" xn = true ∧
    xn.getAttr kDeviceAttr = some (.StringAttr d)

/-- A context in which the `tf` dialect is not loaded. -/
def bareContext : MLIRContext := ⟨["tf_device", "tf_executor"]⟩

/-- The body of the launch of the file header, with the device `GPU:0` on
`opB` instead of `opC`. -/
def conflictBodyB : Region :=
  [tfOp 3 "opB" [("device", .StringAttr "GPU:0")] [] 1, tfOp 4 "opC" [] [] 1,
    .mk ⟨5, ⟨"tf_device", "return"⟩, [], [.OpResult 4 0, .OpResult 3 0], 0⟩ []]

mutual
/-- The data of the operations under and including an operation in pre-order:
the operation first, then the operations of its regions. -/
def preOrderOp : Operation → List OpData
  | .mk data regions => data :: preOrderRegions regions
def preOrderRegions : List (List Operation) → List OpData
  | [] => []
  | r :: rs => preOrderBlock r ++ preOrderRegions rs
def preOrderBlock : List Operation → List OpData
  | [] => []
  | op :: rest => preOrderOp op ++ preOrderBlock rest
end

/-- The state in which a failed run of `AssignDevicesInRegion` leaves a region,
read along a traversal `order` of the operations: the run fails on `X`, the
first operation in that order that is of the family and stands against the
launch device; the operations before `X` keep their place and identity, and
those of the family whose device was absent or empty now have the launch
device; `X` and the operations after it are unchanged. -/
def AbortFollows (order : Block → List OpData) (ctx : MLIRContext) (tf_dialect : Dialect)
    (launch : OpData) (region result : Region) : Prop :=
  ∃ (pre : List OpData) (X : OpData) (post pre' : List OpData),
    order region = pre ++ X :: post ∧
    (inFamily ctx tf_dialect X = true ∧ conflictsWith (LaunchOp.device launch) X = true) ∧
    (∀ n ∈ pre, ¬ (inFamily ctx tf_dialect n = true ∧
      conflictsWith (LaunchOp.device launch) n = true)) ∧
    order result = pre' ++ X :: post ∧
    List.Forall₂ (fun n n' => n'.id = n.id ∧
      (inFamily ctx tf_dialect n = true →
        (n.getAttr kDeviceAttr = none ∨ n.getAttr kDeviceAttr = some (.StringAttr "")) →
        n'.getAttr kDeviceAttr = some (.StringAttr (LaunchOp.device launch)))) pre pre'

/-- A region with an operation of the TensorFlow dialect that holds, in a
region of its own, an operation with the device `GPU:0`. -/
def enclosingRegion : Region :=
  [.mk ⟨1, ⟨"tf", "IfRegion"⟩, [], [], 0⟩
    [[tfOp 2 "opX" [("device", .StringAttr "GPU:0")] [] 1]]]

/-- One round of the `while` loop of `GetReachableFunctionsFromRegion`: from
`visited_functions` and `functions_to_visit` to `visited_functions` and the
`new_functions_to_visit` that is swapped in. -/
def visitRound (ctx : MLIRContext) (module : ModuleOp)
    (st : List Operation × List Operation) : List Operation × List Operation :=
  visitFunctions ctx module st.2 (st.1, [])

/-- The state of the loop after a number of rounds. -/
def visitRounds (ctx : MLIRContext) (module : ModuleOp) :
    Nat → List Operation × List Operation → List Operation × List Operation
  | 0, st => st
  | n + 1, st => visitRounds ctx module n (visitRound ctx module st)

/-- The frontiers (`functions_to_visit`) of the rounds up to a given one, one
after the other. -/
def frontiers (ctx : MLIRContext) (module : ModuleOp) :
    Nat → List Operation × List Operation → List Operation
  | 0, st => st.2
  | n + 1, st => st.2 ++ frontiers ctx module n (visitRound ctx module st)

/-- The functions of a module. -/
def functionsOf (module : ModuleOp) : List Operation :=
  module.filter (fun op => isFuncOp op.data)

/-- The state of the loop is sound: the frontier is the end of the visited
list, no handle is visited twice, and what is visited is a function of the
module. -/
def LoopState (module : ModuleOp) (P T : List Operation) : Prop :=
  (handleIds (P ++ T)).Nodup ∧ ∀ f ∈ P ++ T, f ∈ functionsOf module

/-- The data of an operation without its attributes: what `AssignDevicesInRegion`
never changes. -/
def eraseAttrs (op : OpData) : OpData := { op with attrs := [] }

/-- A launch whose body calls the function `main` that holds it. -/
def selfLaunch : Operation :=
  .mk ⟨3, LaunchOpName, [("device", .StringAttr "CPU:0")], [], 0⟩
    [[tfOp 4 "call" [("f", .SymbolRefAttr "main")] [] 0,
      .mk ⟨5, ⟨"tf_device", "return"⟩, [], [], 0⟩ []]]

/-- The function `main`: an operation `opE` with the given attributes outside
the launch, the launch that calls `main`, and a terminator. -/
def selfMain (attrs : List (String × Attribute)) : Operation :=
  .mk ⟨1, FuncOpName, [("sym_name", .StringAttr "main")], [], 0⟩
    [[tfOp 2 "opE" attrs [] 1, selfLaunch, .mk ⟨6, ⟨"", "return"⟩, [], [], 0⟩ []]]

/-! # Properties -/

theorem allOpsBlock_append (a b : Block) : allOpsBlock (a ++ b) = allOpsBlock a ++ allOpsBlock b := by
  induction a with
  | nil => simp [allOpsBlock]
  | cons op rest ih => simp [allOpsBlock, ih]

theorem allOpsRegions_append (a b : List Region) :
    allOpsRegions (a ++ b) = allOpsRegions a ++ allOpsRegions b := by
  induction a with
  | nil => simp [allOpsRegions]
  | cons r rest ih => simp [allOpsRegions, ih]

theorem nodes_append (a b : Block) : nodes (a ++ b) = nodes a ++ nodes b := by
  simp [nodes, allOpsBlock_append]

theorem ids_append (a b : Block) : ids (a ++ b) = ids a ++ ids b := by
  simp [ids, nodes_append]

theorem ids_eq (b : Block) : ids b = (allOpsBlock b).map (fun op => op.data.id) := by
  simp [ids, nodes, List.map_map, Function.comp_def]

theorem ids_cons (data : OpData) (regions : List Region) (rest : Block) :
    ids (.mk data regions :: rest) = idsRegions regions ++ data.id :: ids rest := by
  simp [ids_eq, idsRegions, allOpsBlock, Operation.allOps, Operation.data]

theorem idsRegions_cons (r : Region) (rs : List Region) :
    idsRegions (r :: rs) = ids r ++ idsRegions rs := by
  simp [ids_eq, idsRegions, allOpsRegions]

theorem idsRegions_append (a b : List Region) :
    idsRegions (a ++ b) = idsRegions a ++ idsRegions b := by
  simp [idsRegions, allOpsRegions_append]

theorem mapDataBlock_eq_map (g : OpData → OpData) (b : Block) :
    mapDataBlock g b = b.map (mapDataOp g) := by
  induction b with
  | nil => simp [mapDataBlock]
  | cons op rest ih => simp [mapDataBlock, ih]

theorem mapDataRegions_eq_map (g : OpData → OpData) (rs : List Region) :
    mapDataRegions g rs = rs.map (mapDataBlock g) := by
  induction rs with
  | nil => simp [mapDataRegions]
  | cons r rest ih => simp [mapDataRegions, ih]

theorem mapDataBlock_append (g : OpData → OpData) (a b : Block) :
    mapDataBlock g (a ++ b) = mapDataBlock g a ++ mapDataBlock g b := by
  simp [mapDataBlock_eq_map]

mutual
theorem allOps_mapDataOp (g : OpData → OpData) :
    ∀ op : Operation, (mapDataOp g op).allOps = op.allOps.map (mapDataOp g)
  | .mk data regions => by
    simp [mapDataOp, Operation.allOps, allOpsRegions_mapData g regions]
theorem allOpsRegions_mapData (g : OpData → OpData) :
    ∀ rs : List (List Operation),
      allOpsRegions (mapDataRegions g rs) = (allOpsRegions rs).map (mapDataOp g)
  | [] => by simp [mapDataRegions, allOpsRegions]
  | r :: rs => by
    simp [mapDataRegions, allOpsRegions, allOpsBlock_mapData g r, allOpsRegions_mapData g rs]
theorem allOpsBlock_mapData (g : OpData → OpData) :
    ∀ b : List Operation, allOpsBlock (mapDataBlock g b) = (allOpsBlock b).map (mapDataOp g)
  | [] => by simp [mapDataBlock, allOpsBlock]
  | op :: rest => by
    simp [mapDataBlock, allOpsBlock, allOps_mapDataOp g op, allOpsBlock_mapData g rest]
end

theorem data_mapDataOp (g : OpData → OpData) (op : Operation) :
    (mapDataOp g op).data = g op.data := by
  cases op; simp [mapDataOp, Operation.data]

theorem nodes_mapData (g : OpData → OpData) (b : Block) :
    nodes (mapDataBlock g b) = (nodes b).map g := by
  simp [nodes, allOpsBlock_mapData, List.map_map, Function.comp_def, data_mapDataOp]

theorem ids_mapData (g : OpData → OpData) (hg : ∀ d, (g d).id = d.id) (b : Block) :
    ids (mapDataBlock g b) = ids b := by
  simp [ids, nodes_mapData, List.map_map, Function.comp_def, hg]

mutual
theorem mapDataOp_comp (g h : OpData → OpData) :
    ∀ op : Operation, mapDataOp g (mapDataOp h op) = mapDataOp (fun d => g (h d)) op
  | .mk data regions => by
    simp [mapDataOp, mapDataRegions_comp g h regions]
theorem mapDataRegions_comp (g h : OpData → OpData) :
    ∀ rs : List (List Operation),
      mapDataRegions g (mapDataRegions h rs) = mapDataRegions (fun d => g (h d)) rs
  | [] => by simp [mapDataRegions]
  | r :: rs => by
    simp [mapDataRegions, mapDataBlock_comp g h r, mapDataRegions_comp g h rs]
theorem mapDataBlock_comp (g h : OpData → OpData) :
    ∀ b : List Operation,
      mapDataBlock g (mapDataBlock h b) = mapDataBlock (fun d => g (h d)) b
  | [] => by simp [mapDataBlock]
  | op :: rest => by
    simp [mapDataBlock, mapDataOp_comp g h op, mapDataBlock_comp g h rest]
end

mutual
theorem walkOperation_mapData (cb : OpData → OpData × WalkResult) (g : OpData → OpData)
    (hg : ∀ d, g (cb d).1 = g d) :
    ∀ op : Operation, mapDataOp g (walkOperation cb op).1 = mapDataOp g op
  | .mk data regions => by
    have ih := walkRegions_mapData cb g hg regions
    simp only [walkOperation]
    by_cases h : (walkRegions cb regions).2.wasInterrupted = true
    · simp [h, mapDataOp, ih]
    · simp [h, mapDataOp, ih, hg]
theorem walkRegions_mapData (cb : OpData → OpData × WalkResult) (g : OpData → OpData)
    (hg : ∀ d, g (cb d).1 = g d) :
    ∀ rs : List (List Operation), mapDataRegions g (walkRegions cb rs).1 = mapDataRegions g rs
  | [] => by simp [walkRegions]
  | r :: rs => by
    have ih1 := walkBlock_mapData cb g hg r
    have ih2 := walkRegions_mapData cb g hg rs
    simp only [walkRegions]
    by_cases h : (walkBlock cb r).2.wasInterrupted = true
    · simp [h, mapDataRegions, ih1]
    · simp [h, mapDataRegions, ih1, ih2]
theorem walkBlock_mapData (cb : OpData → OpData × WalkResult) (g : OpData → OpData)
    (hg : ∀ d, g (cb d).1 = g d) :
    ∀ b : List Operation, mapDataBlock g (walkBlock cb b).1 = mapDataBlock g b
  | [] => by simp [walkBlock]
  | op :: rest => by
    have ih1 := walkOperation_mapData cb g hg op
    have ih2 := walkBlock_mapData cb g hg rest
    simp only [walkBlock]
    by_cases h : (walkOperation cb op).2.wasInterrupted = true
    · simp [h, mapDataBlock, ih1]
    · simp [h, mapDataBlock, ih1, ih2]
end

theorem rewriteBlock_append (id : Nat) (f : Operation → List Operation) (a b : Block) :
    rewriteBlock id f (a ++ b) = rewriteBlock id f a ++ rewriteBlock id f b := by
  induction a with
  | nil => simp [rewriteBlock]
  | cons op rest ih => simp [rewriteBlock, ih]

theorem rewriteRegions_eq_map (id : Nat) (f : Operation → List Operation) (rs : List Region) :
    rewriteRegions id f rs = rs.map (rewriteBlock id f) := by
  induction rs with
  | nil => simp [rewriteRegions]
  | cons r rest ih => simp [rewriteRegions, ih]

mutual
theorem rewriteOp_not_mem (id : Nat) (f : Operation → List Operation) :
    ∀ op : Operation, id ∉ ids [op] → rewriteOp id f op = [op]
  | .mk data regions => by
    intro h
    rw [ids_cons] at h
    simp [ids, nodes, allOpsBlock] at h
    have ih := rewriteRegions_not_mem id f regions h.1
    have hne : ¬ data.id = id := fun e => h.2 e.symm
    simp [rewriteOp, hne, ih]
theorem rewriteRegions_not_mem (id : Nat) (f : Operation → List Operation) :
    ∀ rs : List (List Operation), id ∉ idsRegions rs → rewriteRegions id f rs = rs
  | [] => by simp [rewriteRegions]
  | r :: rs => by
    intro h
    rw [idsRegions_cons] at h
    simp at h
    simp [rewriteRegions, rewriteBlock_not_mem id f r h.1, rewriteRegions_not_mem id f rs h.2]
theorem rewriteBlock_not_mem (id : Nat) (f : Operation → List Operation) :
    ∀ b : List Operation, id ∉ ids b → rewriteBlock id f b = b
  | [] => by simp [rewriteBlock]
  | op :: rest => by
    intro h
    have h' : id ∉ ids ([op] ++ rest) := by simpa using h
    rw [ids_append] at h'
    simp at h'
    simp [rewriteBlock, rewriteOp_not_mem id f op h'.1, rewriteBlock_not_mem id f rest h'.2]
end

mutual
theorem rewriteOp_mapData (id : Nat) (f f' : Operation → List Operation) (g : OpData → OpData)
    (hg : ∀ d, (g d).id = d.id) (hf : ∀ op, mapDataBlock g (f op) = f' (mapDataOp g op)) :
    ∀ op : Operation, mapDataBlock g (rewriteOp id f op) = rewriteOp id f' (mapDataOp g op)
  | .mk data regions => by
    have ih := rewriteRegions_mapData id f f' g hg hf regions
    by_cases h : data.id = id
    · have := hf (.mk data regions)
      simp [rewriteOp, h, hg, mapDataOp] at this ⊢
      exact this
    · simp [rewriteOp, h, hg, mapDataOp, mapDataBlock, ih]
theorem rewriteRegions_mapData (id : Nat) (f f' : Operation → List Operation) (g : OpData → OpData)
    (hg : ∀ d, (g d).id = d.id) (hf : ∀ op, mapDataBlock g (f op) = f' (mapDataOp g op)) :
    ∀ rs : List (List Operation),
      mapDataRegions g (rewriteRegions id f rs) = rewriteRegions id f' (mapDataRegions g rs)
  | [] => by simp [rewriteRegions, mapDataRegions]
  | r :: rs => by
    simp [rewriteRegions, mapDataRegions, rewriteBlock_mapData id f f' g hg hf r,
      rewriteRegions_mapData id f f' g hg hf rs]
theorem rewriteBlock_mapData (id : Nat) (f f' : Operation → List Operation) (g : OpData → OpData)
    (hg : ∀ d, (g d).id = d.id) (hf : ∀ op, mapDataBlock g (f op) = f' (mapDataOp g op)) :
    ∀ b : List Operation,
      mapDataBlock g (rewriteBlock id f b) = rewriteBlock id f' (mapDataBlock g b)
  | [] => by simp [rewriteBlock, mapDataBlock]
  | op :: rest => by
    simp [rewriteBlock, mapDataBlock, mapDataBlock_append, rewriteOp_mapData id f f' g hg hf op,
      rewriteBlock_mapData id f f' g hg hf rest]
end

mutual
theorem rewriteOp_self (id : Nat) :
    ∀ op : Operation, rewriteOp id (fun o => [o]) op = [op]
  | .mk data regions => by
    by_cases h : data.id = id
    · simp [rewriteOp, h]
    · simp [rewriteOp, h, rewriteRegions_self id regions]
theorem rewriteRegions_self (id : Nat) :
    ∀ rs : List (List Operation), rewriteRegions id (fun o => [o]) rs = rs
  | [] => by simp [rewriteRegions]
  | r :: rs => by
    simp [rewriteRegions, rewriteBlock_self id r, rewriteRegions_self id rs]
theorem rewriteBlock_self (id : Nat) :
    ∀ b : List Operation, rewriteBlock id (fun o => [o]) b = b
  | [] => by simp [rewriteBlock]
  | op :: rest => by
    simp [rewriteBlock, rewriteOp_self id op, rewriteBlock_self id rest]
end

theorem nodes_nil : nodes [] = [] := by simp [nodes, allOpsBlock]

theorem nodes_cons (data : OpData) (regions : List Region) (rest : Block) :
    nodes (.mk data regions :: rest)
      = (allOpsRegions regions).map Operation.data ++ data :: nodes rest := by
  simp [nodes, allOpsBlock, Operation.allOps, Operation.data]

theorem allOpsRegions_eq (rs : List Region) : allOpsRegions rs = (rs.map allOpsBlock).flatten := by
  induction rs with
  | nil => simp [allOpsRegions]
  | cons r rs ih => simp [allOpsRegions, ih]

theorem WalkResult.eq_advance {r : WalkResult} (h : ¬ r.wasInterrupted = true) :
    r = .advance := by
  cases r <;> simp_all [WalkResult.wasInterrupted]

theorem walkList_cons (cb : OpData → OpData × WalkResult) (d : OpData) (ds : List OpData) :
    walkList cb (d :: ds) =
      if (cb d).2.wasInterrupted then ((cb d).1 :: ds, (cb d).2)
      else ((cb d).1 :: (walkList cb ds).1, (walkList cb ds).2) := rfl

theorem walkList_append (cb : OpData → OpData × WalkResult) (l1 l2 : List OpData) :
    walkList cb (l1 ++ l2) =
      if (walkList cb l1).2.wasInterrupted then ((walkList cb l1).1 ++ l2, (walkList cb l1).2)
      else ((walkList cb l1).1 ++ (walkList cb l2).1, (walkList cb l2).2) := by
  induction l1 with
  | nil => simp [walkList, WalkResult.wasInterrupted]
  | cons d ds ih =>
    rw [List.cons_append, walkList_cons, walkList_cons, ih]
    by_cases h : (cb d).2.wasInterrupted = true
    · simp [h]
    · by_cases h2 : (walkList cb ds).2.wasInterrupted = true
      · simp [h, h2]
      · simp [h, h2]

mutual
theorem walkOperation_nodes (cb : OpData → OpData × WalkResult) :
    ∀ op : Operation,
      ((walkOperation cb op).1.allOps.map Operation.data, (walkOperation cb op).2)
        = walkList cb (op.allOps.map Operation.data)
  | .mk data regions => by
    have ih := walkRegions_nodes cb regions
    simp only [walkOperation, Operation.allOps, List.map_append, walkList_append, ← ih]
    by_cases h : (walkRegions cb regions).2.wasInterrupted = true
    · simp [h, Operation.allOps, Operation.data]
    · simp [h, Operation.allOps, Operation.data, walkList]
      by_cases h2 : (cb data).2.wasInterrupted = true
      · simp [h2]
      · simp [h2, WalkResult.eq_advance h2]
theorem walkRegions_nodes (cb : OpData → OpData × WalkResult) :
    ∀ rs : List (List Operation),
      ((allOpsRegions (walkRegions cb rs).1).map Operation.data, (walkRegions cb rs).2)
        = walkList cb ((allOpsRegions rs).map Operation.data)
  | [] => by simp [walkRegions, allOpsRegions, walkList]
  | r :: rs => by
    have ih1 := walkBlock_nodes cb r
    have ih2 := walkRegions_nodes cb rs
    simp only [walkRegions, allOpsRegions, List.map_append, walkList_append, ← ih1, ← ih2]
    by_cases h : (walkBlock cb r).2.wasInterrupted = true
    · simp [h, allOpsRegions]
    · simp [h, allOpsRegions]
theorem walkBlock_nodes (cb : OpData → OpData × WalkResult) :
    ∀ b : List Operation,
      ((allOpsBlock (walkBlock cb b).1).map Operation.data, (walkBlock cb b).2)
        = walkList cb ((allOpsBlock b).map Operation.data)
  | [] => by simp [walkBlock, allOpsBlock, walkList]
  | op :: rest => by
    have ih1 := walkOperation_nodes cb op
    have ih2 := walkBlock_nodes cb rest
    simp only [walkBlock, allOpsBlock, List.map_append, walkList_append, ← ih1, ← ih2]
    by_cases h : (walkOperation cb op).2.wasInterrupted = true
    · simp [h, allOpsBlock]
    · simp [h, allOpsBlock]
end

theorem walkList_interrupted (cb : OpData → OpData × WalkResult) (l : List OpData) :
    (walkList cb l).2.wasInterrupted = true ↔ ∃ d ∈ l, (cb d).2.wasInterrupted = true := by
  induction l with
  | nil => simp [walkList, WalkResult.wasInterrupted]
  | cons d ds ih =>
    rw [walkList_cons]
    by_cases h : (cb d).2.wasInterrupted = true
    · simp [h]
    · simp [h, ih]

theorem walkList_advance (cb : OpData → OpData × WalkResult) (l : List OpData)
    (h : (walkList cb l).2.wasInterrupted = false) :
    (walkList cb l).1 = l.map (fun d => (cb d).1) := by
  induction l with
  | nil => simp [walkList]
  | cons d ds ih =>
    rw [walkList_cons] at h ⊢
    by_cases h1 : (cb d).2.wasInterrupted = true
    · simp [h1] at h
    · simp [h1] at h ⊢
      exact ih h

theorem walkBlock_interrupted (cb : OpData → OpData × WalkResult) (b : Block) :
    (walkBlock cb b).2.wasInterrupted = true ↔ ∃ d ∈ nodes b, (cb d).2.wasInterrupted = true := by
  have h := walkBlock_nodes cb b
  have h2 : (walkBlock cb b).2 = (walkList cb (nodes b)).2 := by
    have := congrArg Prod.snd h
    simpa [nodes] using this
  rw [h2, walkList_interrupted]

theorem walkBlock_advance (cb : OpData → OpData × WalkResult) (b : Block)
    (h : (walkBlock cb b).2.wasInterrupted = false) :
    nodes (walkBlock cb b).1 = (nodes b).map (fun d => (cb d).1) := by
  have h0 := walkBlock_nodes cb b
  have h1 : nodes (walkBlock cb b).1 = (walkList cb (nodes b)).1 := by
    have := congrArg Prod.fst h0
    simpa [nodes] using this
  have h2 : (walkBlock cb b).2 = (walkList cb (nodes b)).2 := by
    have := congrArg Prod.snd h0
    simpa [nodes] using this
  rw [h1]
  apply walkList_advance
  rw [← h2]; exact h

theorem failed_toLogicalResult (r : WalkResult) : failed r.toLogicalResult = r.wasInterrupted := by
  cases r <;> rfl

theorem assignDevice_interrupted (ctx : MLIRContext) (tf_dialect : Dialect) (launch op : OpData) :
    (assignDevice ctx tf_dialect launch op).2.wasInterrupted
      = (inFamily ctx tf_dialect op && conflictsWith (LaunchOp.device launch) op) := by
  unfold assignDevice inFamily conflictsWith
  by_cases h : (op.getDialect ctx != some tf_dialect && !IsSupportedExecutorDialectOp op) = true
  · simp [h, WalkResult.wasInterrupted]
  · simp only [h, if_false]
    cases hd : op.getAttr kDeviceAttr with
    | none => simp [WalkResult.wasInterrupted]
    | some a =>
      cases a with
      | StringAttr value =>
        by_cases h1 : value = ""
        · simp [h1, WalkResult.wasInterrupted]
        · by_cases h2 : value = LaunchOp.device launch
          · subst h2
            simp [h1, WalkResult.wasInterrupted]
          · simp [h1, h2, WalkResult.wasInterrupted]
      | SymbolRefAttr root => simp [WalkResult.wasInterrupted]
      | other p => simp [WalkResult.wasInterrupted]

theorem assignDevice_unset (ctx : MLIRContext) (tf_dialect : Dialect) (launch op : OpData)
    (hf : inFamily ctx tf_dialect op = true)
    (hd : op.getAttr kDeviceAttr = none ∨ op.getAttr kDeviceAttr = some (.StringAttr "")) :
    assignDevice ctx tf_dialect launch op
      = (op.setAttr kDeviceAttr (.StringAttr (LaunchOp.device launch)), .advance) := by
  unfold inFamily at hf
  unfold assignDevice
  have h : ¬ (op.getDialect ctx != some tf_dialect && !IsSupportedExecutorDialectOp op) = true := by
    intro hc
    rw [hc] at hf
    simp at hf
  simp only [h, if_false]
  rcases hd with hd | hd
  · simp [hd, LaunchOp.deviceAttr]
  · simp [hd, LaunchOp.deviceAttr]

theorem plug_nil (x : Block) : plug [] x = x := rfl

theorem plug_cons (fr : Frame) (rest : List Frame) (x : Block) :
    plug (fr :: rest) x =
      fr.before ++ [.mk fr.data (fr.regionsBefore ++ [plug rest x] ++ fr.regionsAfter)]
        ++ fr.after := rfl

mutual
theorem mem_allOps_plug :
    ∀ (op x : Operation), x ∈ op.allOps →
      x = op ∨ ∃ rb ra C before after,
        op.regions = rb ++ plug C (before ++ x :: after) :: ra
  | .mk data regions, x => by
    intro h
    simp only [Operation.allOps, List.mem_append, List.mem_singleton] at h
    rcases h with h | h
    · right
      exact mem_allOpsRegions_plug regions x h
    · left; exact h
theorem mem_allOpsRegions_plug :
    ∀ (rs : List (List Operation)) (x : Operation), x ∈ allOpsRegions rs →
      ∃ rb ra C before after, rs = rb ++ plug C (before ++ x :: after) :: ra
  | [], x => by simp [allOpsRegions]
  | r :: rs, x => by
    intro h
    simp only [allOpsRegions, List.mem_append] at h
    rcases h with h | h
    · obtain ⟨C, before, after, e⟩ := mem_allOpsBlock_plug r x h
      exact ⟨[], rs, C, before, after, by simp [e]⟩
    · obtain ⟨rb, ra, C, before, after, e⟩ := mem_allOpsRegions_plug rs x h
      exact ⟨r :: rb, ra, C, before, after, by simp [e]⟩
theorem mem_allOpsBlock_plug :
    ∀ (b : List Operation) (x : Operation), x ∈ allOpsBlock b →
      ∃ C before after, b = plug C (before ++ x :: after)
  | [], x => by simp [allOpsBlock]
  | op :: rest, x => by
    intro h
    simp only [allOpsBlock, List.mem_append] at h
    rcases h with h | h
    · rcases mem_allOps_plug op x h with e | ⟨rb, ra, C, before, after, e⟩
      · exact ⟨[], [], rest, by simp [plug_nil, e]⟩
      · refine ⟨⟨[], op.data, rb, ra, rest⟩ :: C, before, after, ?_⟩
        cases op with
        | mk data regions =>
          simp only [Operation.regions] at e
          simp [plug_cons, e, Operation.data]
    · obtain ⟨C, before, after, e⟩ := mem_allOpsBlock_plug rest x h
      cases C with
      | nil => exact ⟨[], op :: before, after, by simp [plug_nil] at e ⊢; exact e⟩
      | cons fr C' =>
        refine ⟨{ fr with before := op :: fr.before } :: C', before, after, ?_⟩
        rw [e]; simp [plug_cons]
end

theorem nodup_append_disjoint {l1 l2 : List Nat} (h : (l1 ++ l2).Nodup) {a : Nat}
    (h1 : a ∈ l1) (h2 : a ∈ l2) : False :=
  (List.nodup_append.1 h).2.2 h1 h2

theorem nodes_singleton (data : OpData) (regions : List Region) :
    nodes [.mk data regions] = (allOpsRegions regions).map Operation.data ++ [data] := by
  simp [nodes, allOpsBlock, Operation.allOps, Operation.data]

/-- The operations around the hole of a context do not depend on what is
plugged in. -/
theorem nodes_plug (C : List Frame) :
    ∃ A B : List OpData, ∀ x : Block, nodes (plug C x) = A ++ nodes x ++ B := by
  induction C with
  | nil => exact ⟨[], [], fun x => by simp [plug_nil]⟩
  | cons fr rest ih =>
    obtain ⟨A, B, h⟩ := ih
    refine ⟨nodes fr.before ++ (allOpsRegions fr.regionsBefore).map Operation.data ++ A,
      B ++ (allOpsRegions fr.regionsAfter).map Operation.data ++ [fr.data] ++ nodes fr.after,
      fun x => ?_⟩
    have hx := h x
    simp only [nodes] at hx
    simp [plug_cons, nodes_append, nodes_cons, allOpsRegions_append, allOpsRegions, hx]
    rfl

theorem ids_plug (C : List Frame) :
    ∃ A B : List Nat, ∀ x : Block, ids (plug C x) = A ++ ids x ++ B := by
  obtain ⟨A, B, h⟩ := nodes_plug C
  exact ⟨A.map OpData.id, B.map OpData.id, fun x => by simp [ids, h]⟩

theorem ids_singleton (data : OpData) (regions : List Region) :
    ids [.mk data regions] = idsRegions regions ++ [data.id] := by
  rw [ids_cons]; simp [ids, nodes, allOpsBlock]

theorem idsRegions_singleton (r : Region) : idsRegions [r] = ids r := by
  rw [idsRegions_cons]; simp [idsRegions, allOpsRegions]

/-- Rewriting the operation `id` in a module with distinct ids acts at the one
place where the operation is. -/
theorem rewriteBlock_plug (id : Nat) (f : Operation → List Operation) :
    ∀ (C : List Frame) (before after : Block) (op : Operation),
      op.data.id = id → NodupIds (plug C (before ++ op :: after)) →
      rewriteBlock id f (plug C (before ++ op :: after)) = plug C (before ++ f op ++ after) := by
  intro C
  induction C with
  | nil =>
    intro before after op hid hnd
    cases op with
    | mk data regions =>
      simp only [plug_nil, NodupIds] at hnd ⊢
      have e : before ++ Operation.mk data regions :: after
          = before ++ ([Operation.mk data regions] ++ after) := by simp
      rw [e, ids_append, ids_append, ids_singleton] at hnd
      simp only [Operation.data] at hid
      have h1 : id ∉ ids before := by
        intro hm
        have := (List.nodup_append.1 hnd).2.2
        exact this hm (by simp [hid])
      have h2 : id ∉ ids after := by
        intro hm
        have hnd2 := (List.nodup_append.1 hnd).2.1
        exact nodup_append_disjoint hnd2 (a := id) (by simp [hid]) hm
      rw [e, rewriteBlock_append, rewriteBlock_append, rewriteBlock_not_mem id f before h1,
        rewriteBlock_not_mem id f after h2]
      simp [rewriteBlock, rewriteOp, hid]
  | cons fr rest ih =>
    intro before after op hid hnd
    have hmem : id ∈ ids (plug rest (before ++ op :: after)) := by
      obtain ⟨A, B, h⟩ := ids_plug rest
      rw [h]
      cases op with
      | mk data regions =>
        simp only [Operation.data] at hid
        have e : before ++ Operation.mk data regions :: after
            = before ++ ([Operation.mk data regions] ++ after) := by simp
        rw [e, ids_append, ids_append, ids_singleton]
        simp [hid]
    simp only [plug_cons, NodupIds] at hnd ⊢
    rw [ids_append, ids_append, ids_singleton, idsRegions_append, idsRegions_append,
      idsRegions_singleton] at hnd
    have hinner : NodupIds (plug rest (before ++ op :: after)) := by
      have := (List.nodup_append.1 hnd).1
      have := (List.nodup_append.1 this).2.1
      have := (List.nodup_append.1 this).1
      have := (List.nodup_append.1 this).1
      exact (List.nodup_append.1 this).2.1
    have hb : id ∉ ids fr.before := by
      intro hm
      have := (List.nodup_append.1 hnd).1
      have := (List.nodup_append.1 this).2.2
      exact this hm (by simp [hmem])
    have ha : id ∉ ids fr.after := by
      intro hm
      exact nodup_append_disjoint hnd (a := id) (by simp [hmem]) hm
    have hd : ¬ fr.data.id = id := by
      intro e
      have := (List.nodup_append.1 hnd).1
      have := (List.nodup_append.1 this).2.1
      exact nodup_append_disjoint this (a := id) (by simp [hmem]) (by simp [e])
    have hrb : id ∉ idsRegions fr.regionsBefore := by
      intro hm
      have := (List.nodup_append.1 hnd).1
      have := (List.nodup_append.1 this).2.1
      have := (List.nodup_append.1 this).1
      have := (List.nodup_append.1 this).1
      exact (List.nodup_append.1 this).2.2 hm hmem
    have hra : id ∉ idsRegions fr.regionsAfter := by
      intro hm
      have := (List.nodup_append.1 hnd).1
      have := (List.nodup_append.1 this).2.1
      have := (List.nodup_append.1 this).1
      exact nodup_append_disjoint this (a := id) (by simp [hmem]) hm
    rw [rewriteBlock_append, rewriteBlock_append, rewriteBlock_not_mem id f _ hb,
      rewriteBlock_not_mem id f _ ha]
    have hr1 := rewriteRegions_not_mem id f _ hrb
    have hr2 := rewriteRegions_not_mem id f _ hra
    rw [rewriteRegions_eq_map] at hr1 hr2
    simp [rewriteBlock, rewriteOp, hd, rewriteRegions_eq_map, hr1, hr2,
      ih before after op hid hinner]

/-- C2: `AssignDevicesInRegion` fails exactly when the region holds, at any
nesting depth, an operation of the family whose `device` attribute is not a
string or is a non-empty string other than the launch device.  An operation of
the family whose `device` is absent or empty never counts as a conflict, the
callback gives it the launch device and advances, and after a successful run
every operation of the region is what the callback made of it. -/
theorem AssignDevicesInRegion_fails_iff (ctx : MLIRContext) (tf_dialect : Dialect)
    (launch : OpData) (region : Region) :
    (failed (AssignDevicesInRegion ctx tf_dialect launch region).2 = true ↔
      ∃ op ∈ nodes region, inFamily ctx tf_dialect op = true ∧
        conflictsWith (LaunchOp.device launch) op = true) ∧
    (∀ op : OpData, inFamily ctx tf_dialect op = true →
      (op.getAttr kDeviceAttr = none ∨ op.getAttr kDeviceAttr = some (.StringAttr "")) →
      conflictsWith (LaunchOp.device launch) op = false ∧
      assignDevice ctx tf_dialect launch op
        = (op.setAttr kDeviceAttr (.StringAttr (LaunchOp.device launch)), .advance)) ∧
    (failed (AssignDevicesInRegion ctx tf_dialect launch region).2 = false →
      nodes (AssignDevicesInRegion ctx tf_dialect launch region).1
        = (nodes region).map (fun op => (assignDevice ctx tf_dialect launch op).1)) := by
  refine ⟨?_, ?_, ?_⟩
  · simp only [AssignDevicesInRegion, failed_toLogicalResult, walkBlock_interrupted,
      assignDevice_interrupted, Bool.and_eq_true]
  · intro op hf hd
    refine ⟨?_, assignDevice_unset ctx tf_dialect launch op hf hd⟩
    unfold conflictsWith
    rcases hd with hd | hd <;> simp [hd]
  · intro h
    simp only [AssignDevicesInRegion, failed_toLogicalResult] at h ⊢
    exact walkBlock_advance _ _ h

/-- C2, on the launch and the island around it of the file header: `opC` has
an empty device, it is no conflict and the walk succeeds. -/
theorem AssignDevicesInRegion_fails_iff_witness :
    failed (AssignDevicesInRegion exampleContext "tf" exampleLaunch.data exampleLaunch.body).2
      = false ∧
    nodes (AssignDevicesInRegion exampleContext "tf" exampleLaunch.data exampleLaunch.body).1
      = (nodes exampleLaunch.body).map
          (fun op => (assignDevice exampleContext "tf" exampleLaunch.data op).1) :=
  ⟨by decide,
   (AssignDevicesInRegion_fails_iff exampleContext "tf" exampleLaunch.data
      exampleLaunch.body).2.2 (by decide)⟩

theorem assignDevice_fst (ctx : MLIRContext) (tf_dialect : Dialect) (launch op : OpData) :
    (assignDevice ctx tf_dialect launch op).1 = op ∨
    (inFamily ctx tf_dialect op = true ∧
      (op.getAttr kDeviceAttr = none ∨ op.getAttr kDeviceAttr = some (.StringAttr "")) ∧
      (assignDevice ctx tf_dialect launch op).1
        = op.setAttr kDeviceAttr (.StringAttr (LaunchOp.device launch))) := by
  by_cases hf : inFamily ctx tf_dialect op = true
  · by_cases hd : op.getAttr kDeviceAttr = none ∨ op.getAttr kDeviceAttr = some (.StringAttr "")
    · right
      exact ⟨hf, hd, by rw [assignDevice_unset ctx tf_dialect launch op hf hd]⟩
    · left
      unfold assignDevice
      split
      · rfl
      · cases hg : op.getAttr kDeviceAttr with
        | none => exact absurd (Or.inl hg) hd
        | some a =>
          cases a with
          | StringAttr value =>
            have hv : value ≠ "" := fun e => hd (Or.inr (by rw [hg, e]))
            simp only [hv, if_false]
            split <;> rfl
          | SymbolRefAttr root => rfl
          | other p => rfl
  · left
    unfold assignDevice
    unfold inFamily at hf
    have : (op.getDialect ctx != some tf_dialect && !IsSupportedExecutorDialectOp op) = true := by
      cases h : (op.getDialect ctx != some tf_dialect && !IsSupportedExecutorDialectOp op)
      · simp [h] at hf
      · rfl
    simp [this]

theorem skeletonData_setAttr (op : OpData) (name : String) (value : Attribute) :
    skeletonData (op.setAttr name value) = skeletonData op := by
  simp [skeletonData, OpData.setAttr]

theorem skeletonData_assignDevice (ctx : MLIRContext) (tf_dialect : Dialect) (launch op : OpData) :
    skeletonData (assignDevice ctx tf_dialect launch op).1 = skeletonData op := by
  rcases assignDevice_fst ctx tf_dialect launch op with h | ⟨_, _, h⟩
  · rw [h]
  · rw [h, skeletonData_setAttr]

theorem skeletonData_id (d : OpData) : (skeletonData d).id = d.id := rfl

theorem skeleton_replaceAllUsesWith (launch numResults : Nat) (values : List Value)
    (module : ModuleOp) :
    skeleton (replaceAllUsesWith launch numResults values module) = skeleton module := by
  unfold skeleton replaceAllUsesWith
  rw [mapDataBlock_comp]
  rfl

theorem mapDataOp_setBody (g : OpData → OpData) (op : Operation) (r : Region)
    (h : mapDataBlock g r = mapDataBlock g op.body) :
    mapDataOp g (op.setBody r) = mapDataOp g op := by
  cases op with
  | mk data regions =>
    cases regions with
    | nil => simp [Operation.setBody]
    | cons r0 rs =>
      simp only [Operation.body] at h
      simp [Operation.setBody, mapDataOp, mapDataRegions, h]

theorem body_mapDataOp (g : OpData → OpData) (op : Operation) :
    (mapDataOp g op).body = mapDataBlock g op.body := by
  cases op with
  | mk data regions =>
    cases regions with
    | nil => simp [Operation.body, mapDataOp, mapDataRegions, mapDataBlock]
    | cons r0 rs => simp [Operation.body, mapDataOp, mapDataRegions]

theorem skeleton_assignInBodyOf (ctx : MLIRContext) (tf_dialect : Dialect) (launch : OpData)
    (owner : Nat) (module : ModuleOp) :
    skeleton (assignInBodyOf ctx tf_dialect launch owner module).1 = skeleton module := by
  unfold skeleton assignInBodyOf
  simp only
  rw [rewriteBlock_mapData owner _ (fun o => [o]) skeletonData skeletonData_id, rewriteBlock_self]
  intro op
  simp only [mapDataBlock]
  rw [mapDataOp_setBody]
  simp only [AssignDevicesInRegion]
  exact walkBlock_mapData _ _ (skeletonData_assignDevice ctx tf_dialect launch) _

theorem skeleton_assignInFunctions (ctx : MLIRContext) (tf_dialect : Dialect) (launch : OpData) :
    ∀ (funcs : List Operation) (module : ModuleOp),
      skeleton (assignInFunctions ctx tf_dialect launch funcs module).1 = skeleton module := by
  intro funcs
  induction funcs with
  | nil => intro module; rfl
  | cons func rest ih =>
    intro module
    simp only [assignInFunctions]
    split
    · exact skeleton_assignInBodyOf ..
    · rw [ih, skeleton_assignInBodyOf]

theorem skeleton_spliceBody (launch : Nat) (module : ModuleOp) :
    skeleton (spliceBody launch module) = spliceBody launch (skeleton module) := by
  unfold skeleton spliceBody
  apply rewriteBlock_mapData _ _ _ _ skeletonData_id
  intro op
  rw [body_mapDataOp, mapDataBlock_eq_map, mapDataBlock_eq_map, List.dropLast_eq_take,
    List.dropLast_eq_take, List.map_take, List.length_map]

/-- The structure of the module after `HoistOpsAndAnnotateWithDevice`: on
failure it is the structure before, on success it is the structure before with
the launch spliced out. -/
theorem skeleton_Hoist (ctx : MLIRContext) (tf_dialect : Dialect) (module : ModuleOp)
    (launch : Operation) :
    skeleton (HoistOpsAndAnnotateWithDevice ctx tf_dialect module launch).1 =
      if failed (HoistOpsAndAnnotateWithDevice ctx tf_dialect module launch).2 then skeleton module
      else skeleton (spliceBody launch.data.id module) := by
  unfold HoistOpsAndAnnotateWithDevice
  simp only
  split
  · rw [skeleton_assignInBodyOf, skeleton_replaceAllUsesWith]
  · split
    · rw [skeleton_assignInFunctions, skeleton_assignInBodyOf, skeleton_replaceAllUsesWith]
    · simp only [failed]
      rw [skeleton_spliceBody, skeleton_assignInFunctions, skeleton_assignInBodyOf,
        skeleton_replaceAllUsesWith, ← skeleton_spliceBody]
      simp

theorem blockAt_plug : ∀ (path : List (Nat × Nat)) (b x : Block),
    blockAt b path = some x →
      ∃ C : List Frame, b = plug C x ∧ ∀ y, blockAt (plug C y) path = some y := by
  intro path
  induction path with
  | nil =>
    intro b x h
    simp only [blockAt, Option.some.injEq] at h
    exact ⟨[], by simp [plug_nil, h], fun y => by simp [plug_nil, blockAt]⟩
  | cons step path ih =>
    intro b x h
    obtain ⟨i, r⟩ := step
    simp only [blockAt] at h
    cases hop : b[i]? with
    | none => simp [hop] at h
    | some op =>
      simp only [hop] at h
      cases hr : op.regions[r]? with
      | none => simp [hr] at h
      | some inner =>
        simp only [hr] at h
        obtain ⟨C, e, hC⟩ := ih inner x h
        cases op with
        | mk data regions =>
          simp only [Operation.regions] at hr
          have hi : i < b.length := by
            rw [List.getElem?_eq_some_iff] at hop; exact hop.1
          have hrl : r < regions.length := by
            rw [List.getElem?_eq_some_iff] at hr; exact hr.1
          have hb : b = b.take i ++ Operation.mk data regions :: b.drop (i + 1) := by
            have := List.take_append_drop i b
            rw [List.drop_eq_getElem_cons hi] at this
            rw [List.getElem?_eq_getElem hi] at hop
            simp only [Option.some.injEq] at hop
            rw [hop] at this
            exact this.symm
          have hrs : regions = regions.take r ++ inner :: regions.drop (r + 1) := by
            have := List.take_append_drop r regions
            rw [List.drop_eq_getElem_cons hrl] at this
            rw [List.getElem?_eq_getElem hrl] at hr
            simp only [Option.some.injEq] at hr
            rw [hr] at this
            exact this.symm
          refine ⟨⟨b.take i, data, regions.take r, regions.drop (r + 1), b.drop (i + 1)⟩ :: C,
            ?_, fun y => ?_⟩
          · simp only [plug_cons, ← e]
            rw [List.append_assoc, List.append_assoc]
            simp only [List.singleton_append]
            rw [← hrs]
            exact hb
          · simp only [plug_cons, blockAt]
            have h1 : (b.take i ++ [Operation.mk data
                (regions.take r ++ [plug C y] ++ regions.drop (r + 1))] ++ b.drop (i + 1))[i]?
                = some (Operation.mk data (regions.take r ++ [plug C y] ++ regions.drop (r + 1))) := by
              rw [List.append_assoc, List.getElem?_append_right]
              · simp [List.length_take, Nat.min_eq_left (Nat.le_of_lt hi)]
              · simp [List.length_take]
            rw [h1]
            simp only [Operation.regions]
            have h2 : (regions.take r ++ [plug C y] ++ regions.drop (r + 1))[r]?
                = some (plug C y) := by
              rw [List.append_assoc, List.getElem?_append_right]
              · simp [List.length_take, Nat.min_eq_left (Nat.le_of_lt hrl)]
              · simp [List.length_take]
            rw [h2]
            exact hC y

theorem regions_mapDataOp (g : OpData → OpData) (op : Operation) :
    (mapDataOp g op).regions = op.regions.map (mapDataBlock g) := by
  cases op; simp [mapDataOp, Operation.regions, mapDataRegions_eq_map]

theorem blockAt_mapData (g : OpData → OpData) : ∀ (path : List (Nat × Nat)) (b : Block),
    blockAt (mapDataBlock g b) path = (blockAt b path).map (mapDataBlock g) := by
  intro path
  induction path with
  | nil => intro b; simp [blockAt]
  | cons step path ih =>
    intro b
    obtain ⟨i, r⟩ := step
    simp only [blockAt]
    rw [mapDataBlock_eq_map, List.getElem?_map]
    cases hop : b[i]? with
    | none => simp
    | some op =>
      simp only [Option.map_some']
      rw [regions_mapDataOp, List.getElem?_map]
      cases hr : op.regions[r]? with
      | none => simp
      | some inner =>
        simp only [Option.map_some']
        exact ih inner

mutual
theorem mapDataOp_congr (g h : OpData → OpData) :
    ∀ op : Operation, (∀ n ∈ nodes [op], g n = h n) → mapDataOp g op = mapDataOp h op
  | .mk data regions => by
    intro hyp
    rw [nodes_singleton] at hyp
    have h1 : g data = h data := hyp data (by simp)
    have h2 := mapDataRegions_congr g h regions (fun n hn => hyp n (by simp [hn]))
    simp [mapDataOp, h1, h2]
theorem mapDataRegions_congr (g h : OpData → OpData) :
    ∀ rs : List (List Operation),
      (∀ n ∈ (allOpsRegions rs).map Operation.data, g n = h n) →
      mapDataRegions g rs = mapDataRegions h rs
  | [] => by intro _; simp [mapDataRegions]
  | r :: rs => by
    intro hyp
    simp only [allOpsRegions, List.map_append, List.mem_append] at hyp
    have h1 := mapDataBlock_congr g h r (fun n hn => hyp n (Or.inl hn))
    have h2 := mapDataRegions_congr g h rs (fun n hn => hyp n (Or.inr hn))
    simp [mapDataRegions, h1, h2]
theorem mapDataBlock_congr (g h : OpData → OpData) :
    ∀ b : List Operation, (∀ n ∈ nodes b, g n = h n) → mapDataBlock g b = mapDataBlock h b
  | [] => by intro _; simp [mapDataBlock]
  | op :: rest => by
    intro hyp
    have e : op :: rest = [op] ++ rest := rfl
    rw [e, nodes_append] at hyp
    simp only [List.mem_append] at hyp
    have h1 := mapDataOp_congr g h op (fun n hn => hyp n (Or.inl hn))
    have h2 := mapDataBlock_congr g h rest (fun n hn => hyp n (Or.inr hn))
    simp [mapDataBlock, h1, h2]
end

mutual
theorem mapDataOp_id : ∀ op : Operation, mapDataOp (fun n => n) op = op
  | .mk data regions => by simp [mapDataOp, mapDataRegions_id regions]
theorem mapDataRegions_id : ∀ rs : List (List Operation), mapDataRegions (fun n => n) rs = rs
  | [] => by simp [mapDataRegions]
  | r :: rs => by simp [mapDataRegions, mapDataBlock_id r, mapDataRegions_id rs]
theorem mapDataBlock_id : ∀ b : List Operation, mapDataBlock (fun n => n) b = b
  | [] => by simp [mapDataBlock]
  | op :: rest => by simp [mapDataBlock, mapDataOp_id op, mapDataBlock_id rest]
end

theorem mapDataBlock_eq_self (g : OpData → OpData) (b : Block) (h : ∀ n ∈ nodes b, g n = n) :
    mapDataBlock g b = b := by
  rw [mapDataBlock_congr g (fun n => n) b h, mapDataBlock_id]

theorem mapDataRegions_eq_self (g : OpData → OpData) (rs : List Region)
    (h : ∀ n ∈ (allOpsRegions rs).map Operation.data, g n = n) :
    mapDataRegions g rs = rs := by
  rw [mapDataRegions_congr g (fun n => n) rs h, mapDataRegions_id]

mutual
theorem walkOperation_advance_eq (cb : OpData → OpData × WalkResult) :
    ∀ op : Operation, (walkOperation cb op).2.wasInterrupted = false →
      (walkOperation cb op).1 = mapDataOp (fun d => (cb d).1) op
  | .mk data regions => by
    intro h
    simp only [walkOperation] at h ⊢
    by_cases h1 : (walkRegions cb regions).2.wasInterrupted = true
    · simp [h1] at h
    · simp only [h1] at h ⊢
      have ih := walkRegions_advance_eq cb regions (by simpa using h1)
      simp [mapDataOp, ih]
theorem walkRegions_advance_eq (cb : OpData → OpData × WalkResult) :
    ∀ rs : List (List Operation), (walkRegions cb rs).2.wasInterrupted = false →
      (walkRegions cb rs).1 = mapDataRegions (fun d => (cb d).1) rs
  | [] => by intro _; simp [walkRegions, mapDataRegions]
  | r :: rs => by
    intro h
    simp only [walkRegions] at h ⊢
    by_cases h1 : (walkBlock cb r).2.wasInterrupted = true
    · simp [h1] at h
    · simp only [h1] at h ⊢
      have ih1 := walkBlock_advance_eq cb r (by simpa using h1)
      have ih2 := walkRegions_advance_eq cb rs (by simpa using h)
      simp [mapDataRegions, ih1, ih2]
theorem walkBlock_advance_eq (cb : OpData → OpData × WalkResult) :
    ∀ b : List Operation, (walkBlock cb b).2.wasInterrupted = false →
      (walkBlock cb b).1 = mapDataBlock (fun d => (cb d).1) b
  | [] => by intro _; simp [walkBlock, mapDataBlock]
  | op :: rest => by
    intro h
    simp only [walkBlock] at h ⊢
    by_cases h1 : (walkOperation cb op).2.wasInterrupted = true
    · simp [h1] at h
    · simp only [h1] at h ⊢
      have ih1 := walkOperation_advance_eq cb op (by simpa using h1)
      have ih2 := walkBlock_advance_eq cb rest (by simpa using h)
      simp [mapDataBlock, ih1, ih2]
end

theorem mem_allOpsBlock_of_mem {op : Operation} {b : Block} (h : op ∈ b) : op ∈ allOpsBlock b := by
  induction b with
  | nil => cases h
  | cons o rest ih =>
    simp only [allOpsBlock, List.mem_append]
    rcases List.mem_cons.1 h with e | h'
    · left; subst e; cases op; simp [Operation.allOps]
    · right; exact ih h'

theorem findOp_some_mem {b : Block} {id : Nat} {op : Operation} (h : findOp b id = some op) :
    op ∈ allOpsBlock b ∧ op.data.id = id := by
  unfold findOp at h
  have h1 := List.mem_of_find?_eq_some h
  have h2 := List.find?_some h
  exact ⟨h1, by simpa using h2⟩

theorem find?_of_nodup_map {α : Type} (key : α → Nat) :
    ∀ (l : List α) (a : α), a ∈ l → (l.map key).Nodup →
      l.find? (fun x => key x == key a) = some a := by
  intro l
  induction l with
  | nil => intro a h; cases h
  | cons x rest ih =>
    intro a hmem hnd
    simp only [List.map_cons, List.nodup_cons] at hnd
    rcases List.mem_cons.1 hmem with e | h'
    · subst e; simp
    · have hne : key x ≠ key a := by
        intro e
        apply hnd.1
        rw [e]
        exact List.mem_map_of_mem key h'
      simp [List.find?_cons, hne, ih a h' hnd.2]

theorem findOp_of_mem {b : Block} {op : Operation} (hnd : NodupIds b) (h : op ∈ allOpsBlock b) :
    findOp b op.data.id = some op := by
  unfold findOp
  unfold NodupIds at hnd
  rw [ids_eq] at hnd
  exact find?_of_nodup_map (fun o => o.data.id) _ op h hnd

theorem findOp_mapData (g : OpData → OpData) (hg : ∀ d, (g d).id = d.id) (b : Block) (id : Nat) :
    findOp (mapDataBlock g b) id = (findOp b id).map (mapDataOp g) := by
  unfold findOp
  rw [allOpsBlock_mapData, List.find?_map]
  congr 1
  apply congrArg (fun p => List.find? p (allOpsBlock b))
  funext o
  simp [data_mapDataOp, hg]

theorem mem_ids_of_mem_nodes {n : OpData} {b : Block} (h : n ∈ nodes b) : n.id ∈ ids b :=
  List.mem_map_of_mem OpData.id h

theorem mem_idsRegions_of_mem {n : OpData} {rs : List Region}
    (h : n ∈ (allOpsRegions rs).map Operation.data) : n.id ∈ idsRegions rs := by
  obtain ⟨o, ho, e⟩ := List.mem_map.1 h
  exact List.mem_map.2 ⟨o, ho, by rw [e]⟩

/-- A change of data that leaves the operations around the hole of a context
alone acts on what is plugged in. -/
theorem mapData_plug (C : List Frame) :
    ∃ A B : List Nat, (∀ x : Block, ids (plug C x) = A ++ ids x ++ B) ∧
      (∀ (g : OpData → OpData) (x : Block), (∀ n : OpData, n.id ∈ A ++ B → g n = n) →
        mapDataBlock g (plug C x) = plug C (mapDataBlock g x)) := by
  induction C with
  | nil => exact ⟨[], [], fun x => by simp [plug_nil], fun g x _ => by simp [plug_nil]⟩
  | cons fr rest ih =>
    obtain ⟨A, B, h1, h2⟩ := ih
    refine ⟨ids fr.before ++ idsRegions fr.regionsBefore ++ A,
      B ++ idsRegions fr.regionsAfter ++ [fr.data.id] ++ ids fr.after, fun x => ?_, fun g x hg => ?_⟩
    · rw [plug_cons, ids_append, ids_append, ids_singleton, idsRegions_append,
        idsRegions_append, idsRegions_singleton, h1]
      simp [List.append_assoc]
    · have hb : mapDataBlock g fr.before = fr.before :=
        mapDataBlock_eq_self g _ (fun n hn => hg n (by simp [mem_ids_of_mem_nodes hn]))
      have ha : mapDataBlock g fr.after = fr.after :=
        mapDataBlock_eq_self g _ (fun n hn => hg n (by simp [mem_ids_of_mem_nodes hn]))
      have hrb : mapDataRegions g fr.regionsBefore = fr.regionsBefore :=
        mapDataRegions_eq_self g _ (fun n hn => hg n (by simp [mem_idsRegions_of_mem hn]))
      have hra : mapDataRegions g fr.regionsAfter = fr.regionsAfter :=
        mapDataRegions_eq_self g _ (fun n hn => hg n (by simp [mem_idsRegions_of_mem hn]))
      have hd : g fr.data = fr.data := hg fr.data (by simp)
      have hin := h2 g x (fun n hn => hg n (by
        simp only [List.mem_append] at hn ⊢
        rcases hn with hn | hn
        · exact Or.inl (Or.inr hn)
        · exact Or.inr (Or.inl (Or.inl (Or.inl hn)))))
      rw [mapDataRegions_eq_map] at hrb hra
      simp [plug_cons, mapDataBlock_append, mapDataBlock, mapDataOp, mapDataRegions_eq_map,
        hb, ha, hrb, hra, hd, hin]

theorem ids_body_sub (op : Operation) : ∀ i ∈ ids op.body, i ∈ idsRegions op.regions := by
  cases op with
  | mk data regions =>
    cases regions with
    | nil => simp [Operation.body, ids, nodes, allOpsBlock]
    | cons r rs =>
      intro i hi
      simp only [Operation.body] at hi
      simp [Operation.regions, idsRegions_cons, hi]

/-- On a module with distinct ids, replacing the body of an operation by its
image under a change of data that is idle outside the body is the change of
data on the whole module. -/
theorem rewrite_setBody_eq_mapData (g : OpData → OpData) (m : Block) (op : Operation)
    (hnd : NodupIds m) (hop : op ∈ allOpsBlock m)
    (hg : ∀ n : OpData, n.id ∉ ids op.body → g n = n)
    (F : Operation → List Operation) (hF : F op = [op.setBody (mapDataBlock g op.body)]) :
    rewriteBlock op.data.id F m = mapDataBlock g m := by
  obtain ⟨C, before, after, e⟩ := mem_allOpsBlock_plug m op hop
  subst e
  rw [rewriteBlock_plug op.data.id F C before after op rfl hnd, hF]
  obtain ⟨A, B, h1, h2⟩ := mapData_plug C
  unfold NodupIds at hnd
  rw [h1] at hnd
  have e2 : before ++ op :: after = before ++ ([op] ++ after) := by simp
  have hx : ids (before ++ op :: after) = ids before ++ (ids [op] ++ ids after) := by
    rw [e2, ids_append, ids_append]
  have hop_ids : ids [op] = idsRegions op.regions ++ [op.data.id] := by
    cases op; exact ids_singleton _ _
  rw [hx] at hnd
  have hndx : (ids before ++ (ids [op] ++ ids after)).Nodup :=
    (List.nodup_append.1 (List.nodup_append.1 hnd).1).2.1
  have hbody_sub : ∀ i ∈ ids op.body, i ∈ ids [op] := by
    intro i hi; rw [hop_ids]; simp [ids_body_sub op i hi]
  rw [h2 g _ (fun n hn => hg n (fun hb => by
    have hin : n.id ∈ ids before ++ (ids [op] ++ ids after) := by
      simp [hbody_sub _ hb]
    rcases List.mem_append.1 hn with hA | hB
    · exact nodup_append_disjoint (List.nodup_append.1 hnd).1 hA hin
    · exact nodup_append_disjoint hnd (List.mem_append_right _ hin) hB))]
  congr 1
  rw [mapDataBlock_append]
  have hb : mapDataBlock g before = before :=
    mapDataBlock_eq_self g _ (fun n hn => hg n (fun hb =>
      nodup_append_disjoint hndx (mem_ids_of_mem_nodes hn)
        (List.mem_append_left _ (hbody_sub _ hb))))
  have ha : mapDataBlock g after = after :=
    mapDataBlock_eq_self g _ (fun n hn => hg n (fun hb =>
      nodup_append_disjoint (List.nodup_append.1 hndx).2.1 (hbody_sub _ hb)
        (mem_ids_of_mem_nodes hn)))
  rw [hb]
  simp only [mapDataBlock, ha]
  have hndop : (ids [op]).Nodup :=
    (List.nodup_append.1 (List.nodup_append.1 hndx).2.1).1
  cases op with
  | mk data regions =>
    cases regions with
    | nil =>
      have : g data = data := hg data (by simp [Operation.body, ids, nodes, allOpsBlock])
      simp [mapDataOp, mapDataRegions, Operation.setBody, this]
    | cons r rs =>
      rw [ids_singleton, idsRegions_cons] at hndop
      simp only [Operation.body] at hg ⊢
      have hd : g data = data := hg data (fun hb =>
        nodup_append_disjoint hndop (List.mem_append_left _ hb) (by simp))
      have hrs : mapDataRegions g rs = rs :=
        mapDataRegions_eq_self g _ (fun n hn => hg n (fun hb =>
          nodup_append_disjoint (List.nodup_append.1 hndop).1 hb (mem_idsRegions_of_mem hn)))
      simp [mapDataOp, mapDataRegions, Operation.setBody, hd, hrs]

theorem nodes_body_subset {m : Block} {op : Operation} (hop : op ∈ allOpsBlock m) :
    ∀ n ∈ nodes op.body, n ∈ nodes m := by
  obtain ⟨C, before, after, e⟩ := mem_allOpsBlock_plug m op hop
  subst e
  obtain ⟨A, B, h⟩ := nodes_plug C
  intro n hn
  rw [h]
  have e2 : before ++ op :: after = before ++ ([op] ++ after) := by simp
  rw [e2, nodes_append, nodes_append]
  have : n ∈ nodes [op] := by
    cases op with
    | mk data regions =>
      cases regions with
      | nil => simp [Operation.body, nodes, allOpsBlock] at hn
      | cons r rs =>
        simp only [Operation.body] at hn
        rw [nodes_singleton]
        simp only [allOpsRegions, List.map_append, List.mem_append]
        exact Or.inl (Or.inl hn)
  simp [this]

theorem mem_nodes_body_of_id {m : Block} {op : Operation} (hnd : NodupIds m)
    (hop : op ∈ allOpsBlock m) {n : OpData} (hn : n ∈ nodes m) (hid : n.id ∈ ids op.body) :
    n ∈ nodes op.body := by
  obtain ⟨n0, hn0, e⟩ := List.mem_map.1 hid
  have hn0m := nodes_body_subset hop n0 hn0
  have := List.inj_on_of_nodup_map hnd hn0m hn e
  rw [← this]; exact hn0

theorem inFamily_congr (ctx : MLIRContext) (tf_dialect : Dialect) {n n' : OpData}
    (h : n'.name = n.name) : inFamily ctx tf_dialect n' = inFamily ctx tf_dialect n := by
  simp [inFamily, OpData.getDialect, IsSupportedExecutorDialectOp, h]

theorem getAttr_setAttr_same (attrs : List (String × Attribute)) (k : String) (v : Attribute) :
    getAttr (setAttr attrs k v) k = some v := by
  induction attrs with
  | nil => simp [setAttr, getAttr]
  | cons kv rest ih =>
    obtain ⟨k', v'⟩ := kv
    by_cases h : k' = k
    · simp [setAttr, getAttr, h]
    · simp [setAttr, getAttr, h, ih]

theorem getAttr_setAttr_other (attrs : List (String × Attribute)) (k k2 : String) (v : Attribute)
    (hne : k2 ≠ k) : getAttr (setAttr attrs k v) k2 = getAttr attrs k2 := by
  induction attrs with
  | nil =>
    have : ¬ k = k2 := fun e => hne e.symm
    simp [setAttr, getAttr, this]
  | cons kv rest ih =>
    obtain ⟨k', v'⟩ := kv
    by_cases h : k' = k
    · subst h
      have : ¬ k' = k2 := fun e => hne e.symm
      simp [setAttr, getAttr, this]
    · by_cases h2 : k' = k2
      · subst h2
        simp [setAttr, getAttr, h]
      · simp [setAttr, getAttr, h, h2, ih]

theorem setAttr_setAttr (attrs : List (String × Attribute)) (k : String) (v : Attribute) :
    setAttr (setAttr attrs k v) k v = setAttr attrs k v := by
  induction attrs with
  | nil => simp [setAttr]
  | cons kv rest ih =>
    obtain ⟨k', v'⟩ := kv
    by_cases h : k' = k
    · simp [setAttr, h]
    · simp [setAttr, h, ih]

theorem assignDevice_device (ctx : MLIRContext) (tf_dialect : Dialect) (launch op : OpData)
    (hf : inFamily ctx tf_dialect op = true)
    (hw : (assignDevice ctx tf_dialect launch op).2.wasInterrupted = false) :
    (assignDevice ctx tf_dialect launch op).1.getAttr kDeviceAttr
      = some (.StringAttr (LaunchOp.device launch)) := by
  rw [assignDevice_interrupted, hf] at hw
  simp only [Bool.true_and] at hw
  by_cases hd : op.getAttr kDeviceAttr = none ∨ op.getAttr kDeviceAttr = some (.StringAttr "")
  · rw [assignDevice_unset ctx tf_dialect launch op hf hd]
    simp [OpData.getAttr, OpData.setAttr, getAttr_setAttr_same]
  · rcases assignDevice_fst ctx tf_dialect launch op with h | ⟨_, h, _⟩
    · rw [h]
      unfold conflictsWith at hw
      cases hg : op.getAttr kDeviceAttr with
      | none => exact absurd (Or.inl hg) hd
      | some a =>
        rw [hg] at hw
        cases a with
        | StringAttr value =>
          have hv : value ≠ "" := fun e => hd (Or.inr (by rw [hg, e]))
          simp [hv] at hw
          rw [hw]
        | SymbolRefAttr root => simp at hw
        | other p => simp at hw
    · exact absurd h hd

theorem assignDevice_fst_fields (ctx : MLIRContext) (tf_dialect : Dialect) (launch op : OpData) :
    (assignDevice ctx tf_dialect launch op).1.id = op.id ∧
    (assignDevice ctx tf_dialect launch op).1.name = op.name ∧
    (assignDevice ctx tf_dialect launch op).1.numResults = op.numResults ∧
    (assignDevice ctx tf_dialect launch op).1.operands = op.operands := by
  rcases assignDevice_fst ctx tf_dialect launch op with h | ⟨_, _, h⟩
  · rw [h]; simp
  · rw [h]; simp [OpData.setAttr]

theorem Evolves_start (ctx : MLIRContext) (tf_dialect : Dialect) (launch : Operation)
    (module : ModuleOp) :
    Evolves ctx tf_dialect launch module []
      (forwardOperands launch.data.id launch.data.numResults (terminatorOperands launch.body)) := by
  refine ⟨fun n => ?_, fun n => ?_, fun n _ h => ?_⟩
  · simp [forwardOperands]
  · left; simp [forwardOperands]
  · cases h

theorem Evolves_mono (ctx : MLIRContext) (tf_dialect : Dialect) (launch : Operation)
    (module : ModuleOp) (S T : List Nat) (G : OpData → OpData) (hsub : ∀ i ∈ S, i ∈ T)
    (h3 : ∀ n ∈ nodes module, n.id ∈ T → inFamily ctx tf_dialect n = true →
      (G n).getAttr kDeviceAttr = some (.StringAttr (LaunchOp.device launch.data)))
    (h : Evolves ctx tf_dialect launch module S G) :
    Evolves ctx tf_dialect launch module T G := by
  refine ⟨h.1, fun n => ?_, h3⟩
  rcases h.2.1 n with e | ⟨a, b, c, d⟩
  · exact Or.inl e
  · exact Or.inr ⟨a, b, hsub _ c, d⟩

/-- One successful call of `AssignDevicesInRegion` on the body of an operation
of the module, after steps described by `G`. -/
theorem assignInBodyOf_step (ctx : MLIRContext) (tf_dialect : Dialect) (launch : Operation)
    (module : ModuleOp) (op : Operation) (S : List Nat) (G : OpData → OpData)
    (hnd : NodupIds module) (hop : op ∈ allOpsBlock module)
    (hE : Evolves ctx tf_dialect launch module S G)
    (hok : failed (assignInBodyOf ctx tf_dialect launch.data op.data.id
      (mapDataBlock G module)).2 = false) :
    ∃ G' : OpData → OpData, Evolves ctx tf_dialect launch module (S ++ ids op.body) G' ∧
      (assignInBodyOf ctx tf_dialect launch.data op.data.id (mapDataBlock G module)).1
        = mapDataBlock G' module := by
  have hGid : ∀ d, (G d).id = d.id := fun d => (hE.1 d).1
  have hfind : findOp (mapDataBlock G module) op.data.id = some (mapDataOp G op) := by
    rw [findOp_mapData G hGid, findOp_of_mem hnd hop]; rfl
  have hw : (walkBlock (assignDevice ctx tf_dialect launch.data)
      (mapDataBlock G op.body)).2.wasInterrupted = false := by
    simp only [assignInBodyOf, hfind, AssignDevicesInRegion, failed_toLogicalResult,
      body_mapDataOp] at hok
    exact hok
  have hwn : ∀ n ∈ nodes op.body,
      (assignDevice ctx tf_dialect launch.data (G n)).2.wasInterrupted = false := by
    intro n hn
    cases hc : (assignDevice ctx tf_dialect launch.data (G n)).2.wasInterrupted with
    | false => rfl
    | true =>
      have : (walkBlock (assignDevice ctx tf_dialect launch.data)
          (mapDataBlock G op.body)).2.wasInterrupted = true := by
        rw [walkBlock_interrupted]
        exact ⟨G n, by rw [nodes_mapData]; exact List.mem_map_of_mem G hn, hc⟩
      rw [this] at hw; cases hw
  let cb1 : OpData → OpData := fun d => (assignDevice ctx tf_dialect launch.data d).1
  let g : OpData → OpData := onIds (ids op.body) cb1
  have hidb : ids (mapDataOp G op).body = ids op.body := by
    rw [body_mapDataOp, ids_mapData G hGid]
  have hstate : (assignInBodyOf ctx tf_dialect launch.data op.data.id (mapDataBlock G module)).1
      = mapDataBlock g (mapDataBlock G module) := by
    have hnd' : NodupIds (mapDataBlock G module) := by
      unfold NodupIds; rw [ids_mapData G hGid]; exact hnd
    have hop' : mapDataOp G op ∈ allOpsBlock (mapDataBlock G module) := by
      rw [allOpsBlock_mapData]; exact List.mem_map_of_mem _ hop
    have hid' : (mapDataOp G op).data.id = op.data.id := by rw [data_mapDataOp, hGid]
    have := rewrite_setBody_eq_mapData g (mapDataBlock G module) (mapDataOp G op) hnd' hop'
      (fun n hn => by
        rw [hidb] at hn
        simp [g, onIds, hn])
      (fun o => [o.setBody (AssignDevicesInRegion ctx tf_dialect launch.data o.body).1])
      (by
        simp only [AssignDevicesInRegion]
        rw [body_mapDataOp, walkBlock_advance_eq _ _ hw]
        congr 2
        apply mapDataBlock_congr
        intro n hn
        have : n.id ∈ ids op.body := by
          rw [← ids_mapData G hGid]; exact mem_ids_of_mem_nodes hn
        simp [g, onIds, this, cb1])
    rw [hid'] at this
    simp only [assignInBodyOf]
    exact this
  refine ⟨fun n => g (G n), ?_, by rw [hstate, mapDataBlock_comp]⟩
  have hg : ∀ n, g (G n) = if n.id ∈ ids op.body then cb1 (G n) else G n := by
    intro n; simp [g, onIds, hGid]
  refine ⟨fun n => ?_, fun n => ?_, fun n hn hS hf => ?_⟩
  · beta_reduce
    rw [hg]
    split
    · have := assignDevice_fst_fields ctx tf_dialect launch.data (G n)
      simp only [cb1]
      rw [this.1, this.2.1, this.2.2.1, this.2.2.2]
      exact hE.1 n
    · exact hE.1 n
  · beta_reduce
    rw [hg]
    split
    · rename_i hin
      have hfam : inFamily ctx tf_dialect (G n) = inFamily ctx tf_dialect n :=
        inFamily_congr ctx tf_dialect (hE.1 n).2.1
      rcases assignDevice_fst ctx tf_dialect launch.data (G n) with h | ⟨hf, hu, h⟩
      · simp only [cb1]; rw [h]
        rcases hE.2.1 n with e | ⟨a, b, c, d⟩
        · exact Or.inl e
        · exact Or.inr ⟨a, b, List.mem_append_left _ c, d⟩
      · simp only [cb1]; rw [h]
        rcases hE.2.1 n with e | ⟨a, b, c, d⟩
        · right
          refine ⟨by rw [← hfam]; exact hf, ?_, List.mem_append_right _ hin, ?_⟩
          · simpa [OpData.getAttr, e] using hu
          · simp [OpData.setAttr, e]
        · right
          refine ⟨a, b, List.mem_append_left _ c, ?_⟩
          simp [OpData.setAttr, d, setAttr_setAttr]
    · rcases hE.2.1 n with e | ⟨a, b, c, d⟩
      · exact Or.inl e
      · exact Or.inr ⟨a, b, List.mem_append_left _ c, d⟩
  · beta_reduce
    rw [hg]
    have hfam : inFamily ctx tf_dialect (G n) = inFamily ctx tf_dialect n :=
      inFamily_congr ctx tf_dialect (hE.1 n).2.1
    split
    · rename_i hin
      have hnb := mem_nodes_body_of_id hnd hop hn hin
      exact assignDevice_device ctx tf_dialect launch.data (G n) (by rw [hfam]; exact hf)
        (hwn n hnb)
    · rename_i hin
      rcases List.mem_append.1 hS with h | h
      · exact hE.2.2 n hn h hf
      · exact absurd h hin

theorem bodyIds_cons (func : Operation) (rest : List Operation) :
    bodyIds (func :: rest) = ids func.body ++ bodyIds rest := rfl

/-- The loop over the reachable functions, when it succeeds. -/
theorem assignInFunctions_success (ctx : MLIRContext) (tf_dialect : Dialect) (launch : Operation)
    (module : ModuleOp) (hnd : NodupIds module) :
    ∀ (funcs : List Operation) (S : List Nat) (G : OpData → OpData),
      (∀ f ∈ funcs, f ∈ allOpsBlock module) →
      Evolves ctx tf_dialect launch module S G →
      failed (assignInFunctions ctx tf_dialect launch.data funcs (mapDataBlock G module)).2 = false →
      ∃ G' : OpData → OpData, Evolves ctx tf_dialect launch module (S ++ bodyIds funcs) G' ∧
        (assignInFunctions ctx tf_dialect launch.data funcs (mapDataBlock G module)).1
          = mapDataBlock G' module := by
  intro funcs
  induction funcs with
  | nil =>
    intro S G _ hE _
    exact ⟨G, by simpa [bodyIds] using hE, rfl⟩
  | cons func rest ih =>
    intro S G hmem hE hok
    simp only [assignInFunctions] at hok ⊢
    by_cases h1 : failed (assignInBodyOf ctx tf_dialect launch.data func.data.id
        (mapDataBlock G module)).2 = true
    · simp [h1] at hok
    · simp only [h1] at hok ⊢
      obtain ⟨G1, hE1, e1⟩ := assignInBodyOf_step ctx tf_dialect launch module func S G hnd
        (hmem func (List.mem_cons_self _ _)) hE (by simpa using h1)
      rw [e1] at hok ⊢
      obtain ⟨G2, hE2, e2⟩ := ih (S ++ ids func.body) G1
        (fun f hf => hmem f (List.mem_cons_of_mem _ hf)) hE1 hok
      refine ⟨G2, ?_, by simpa using e2⟩
      rw [bodyIds_cons, ← List.append_assoc]
      exact hE2

theorem lookupFuncOp_mem {module : ModuleOp} {name : String} {f : Operation}
    (h : SymbolTable.lookupFuncOp module name = some f) : f ∈ module := by
  unfold SymbolTable.lookupFuncOp at h
  cases hl : SymbolTable.lookup module name with
  | none => simp [hl] at h
  | some op =>
    simp only [hl] at h
    split at h
    · simp only [Option.some.injEq] at h
      subst h
      exact List.mem_of_find?_eq_some hl
    · cases h

theorem seedFunctions_forall (module : ModuleOp) (P : Operation → Prop) :
    ∀ (uses : List String) (visited : List Operation),
      (∀ name ∈ uses, ∀ f, SymbolTable.lookupFuncOp module name = some f → P f) →
      (∀ f ∈ visited, P f) → ∀ f ∈ seedFunctions module uses visited, P f := by
  intro uses
  induction uses with
  | nil => intro visited _ hv; simpa [seedFunctions] using hv
  | cons use rest ih =>
    intro visited hP hv
    simp only [seedFunctions]
    have hrest : ∀ name ∈ rest, ∀ f, SymbolTable.lookupFuncOp module name = some f → P f :=
      fun name hn => hP name (List.mem_cons_of_mem _ hn)
    cases hl : SymbolTable.lookupFuncOp module use with
    | none => exact ih visited hrest hv
    | some func =>
      simp only []
      split
      · exact ih visited hrest hv
      · apply ih _ hrest
        intro f hf
        rcases List.mem_append.1 hf with h | h
        · exact hv f h
        · simp only [List.mem_singleton] at h
          subst h
          exact hP use (List.mem_cons_self _ _) _ hl

theorem visitUses_forall (module : ModuleOp) (P : Operation → Prop) :
    ∀ (uses : List String) (st : List Operation × List Operation),
      (∀ name ∈ uses, ∀ f, SymbolTable.lookupFuncOp module name = some f → P f) →
      (∀ f ∈ st.1, P f) → (∀ f ∈ st.2, P f) →
      (∀ f ∈ (visitUses module uses st).1, P f) ∧ (∀ f ∈ (visitUses module uses st).2, P f) := by
  intro uses
  induction uses with
  | nil => intro st _ h1 h2; exact ⟨by simpa [visitUses] using h1, by simpa [visitUses] using h2⟩
  | cons use rest ih =>
    intro st hP h1 h2
    simp only [visitUses]
    have hrest : ∀ name ∈ rest, ∀ f, SymbolTable.lookupFuncOp module name = some f → P f :=
      fun name hn => hP name (List.mem_cons_of_mem _ hn)
    cases hl : SymbolTable.lookupFuncOp module use with
    | none => exact ih st hrest h1 h2
    | some func =>
      simp only []
      have hf : P func := hP use (List.mem_cons_self _ _) _ hl
      split
      · exact ih st hrest h1 h2
      · apply ih _ hrest
        · intro f hm
          rcases List.mem_append.1 hm with h | h
          · exact h1 f h
          · simp only [List.mem_singleton] at h; subst h; exact hf
        · intro f hm
          rcases List.mem_append.1 hm with h | h
          · exact h2 f h
          · simp only [List.mem_singleton] at h; subst h; exact hf

theorem visitFunctions_forall (ctx : MLIRContext) (module : ModuleOp) (P : Operation → Prop)
    (hstep : ∀ f, P f → ∀ uses, SymbolTable.getSymbolUses ctx f.body = some uses →
      ∀ name ∈ uses, ∀ g, SymbolTable.lookupFuncOp module name = some g → P g) :
    ∀ (to_visit : List Operation) (st : List Operation × List Operation),
      (∀ f ∈ to_visit, P f) → (∀ f ∈ st.1, P f) → (∀ f ∈ st.2, P f) →
      (∀ f ∈ (visitFunctions ctx module to_visit st).1, P f) ∧
      (∀ f ∈ (visitFunctions ctx module to_visit st).2, P f) := by
  intro to_visit
  induction to_visit with
  | nil => intro st _ h1 h2; exact ⟨by simpa [visitFunctions] using h1, by simpa [visitFunctions] using h2⟩
  | cons func rest ih =>
    intro st hv h1 h2
    simp only [visitFunctions]
    have hrest : ∀ f ∈ rest, P f := fun f hf => hv f (List.mem_cons_of_mem _ hf)
    cases hu : SymbolTable.getSymbolUses ctx func.body with
    | none => exact ih st hrest h1 h2
    | some uses =>
      simp only []
      have := visitUses_forall module P uses st
        (hstep func (hv func (List.mem_cons_self _ _)) uses hu) h1 h2
      exact ih _ hrest this.1 this.2

theorem visitLoop_forall (ctx : MLIRContext) (module : ModuleOp) (P : Operation → Prop)
    (hstep : ∀ f, P f → ∀ uses, SymbolTable.getSymbolUses ctx f.body = some uses →
      ∀ name ∈ uses, ∀ g, SymbolTable.lookupFuncOp module name = some g → P g) :
    ∀ (fuel : Nat) (visited to_visit : List Operation),
      (∀ f ∈ visited, P f) → (∀ f ∈ to_visit, P f) →
      ∀ f ∈ visitLoop ctx module fuel visited to_visit, P f := by
  intro fuel
  induction fuel with
  | zero => intro visited to_visit h1 _; simpa [visitLoop] using h1
  | succ k ih =>
    intro visited to_visit h1 h2
    simp only [visitLoop]
    split
    · exact h1
    · have := visitFunctions_forall ctx module P hstep to_visit (visited, []) h2 h1
        (by intro f hf; cases hf)
      exact ih _ _ this.1 this.2

/-- Every function `GetReachableFunctionsFromRegion` returns has a property
that the functions named in the region have and that passes from a function
to the functions named in its body. -/
theorem GetReachable_forall (ctx : MLIRContext) (module : ModuleOp) (region : Region)
    (P : Operation → Prop)
    (hseed : ∀ uses, SymbolTable.getSymbolUses ctx region = some uses →
      ∀ name ∈ uses, ∀ g, SymbolTable.lookupFuncOp module name = some g → P g)
    (hstep : ∀ f, P f → ∀ uses, SymbolTable.getSymbolUses ctx f.body = some uses →
      ∀ name ∈ uses, ∀ g, SymbolTable.lookupFuncOp module name = some g → P g) :
    ∀ f ∈ GetReachableFunctionsFromRegion ctx module region, P f := by
  unfold GetReachableFunctionsFromRegion
  cases hu : SymbolTable.getSymbolUses ctx region with
  | none => intro f hf; cases hf
  | some uses =>
    simp only []
    have hs := seedFunctions_forall module P uses [] (hseed uses hu) (by intro f hf; cases hf)
    exact visitLoop_forall ctx module P hstep _ _ _ hs hs

theorem GetReachable_mem (ctx : MLIRContext) (module : ModuleOp) (region : Region) :
    ∀ f ∈ GetReachableFunctionsFromRegion ctx module region, f ∈ module :=
  GetReachable_forall ctx module region (fun f => f ∈ module)
    (fun _ _ _ _ _ h => lookupFuncOp_mem h) (fun _ _ _ _ _ _ _ h => lookupFuncOp_mem h)

theorem mapData_spliceBody (g : OpData → OpData) (hg : ∀ d, (g d).id = d.id) (launch : Nat)
    (module : ModuleOp) :
    mapDataBlock g (spliceBody launch module) = spliceBody launch (mapDataBlock g module) := by
  unfold spliceBody
  apply rewriteBlock_mapData _ _ _ _ hg
  intro op
  rw [body_mapDataOp, mapDataBlock_eq_map, mapDataBlock_eq_map, List.dropLast_eq_take,
    List.dropLast_eq_take, List.map_take, List.length_map]

/-- A successful hoist on a module with distinct ids: the launch is spliced
out of the module, and the data of every operation is changed as `Evolves`
says, the walked regions being the launch body and the bodies of the reachable
functions. -/
theorem Hoist_success (ctx : MLIRContext) (tf_dialect : Dialect) (module : ModuleOp)
    (launch : Operation) (hnd : NodupIds module) (hin : launch ∈ allOpsBlock module)
    (hok : failed (HoistOpsAndAnnotateWithDevice ctx tf_dialect module launch).2 = false) :
    ∃ G : OpData → OpData,
      Evolves ctx tf_dialect launch module
        (ids launch.body ++ bodyIds (GetReachableFunctionsFromRegion ctx module launch.body)) G ∧
      (HoistOpsAndAnnotateWithDevice ctx tf_dialect module launch).1
        = mapDataBlock G (spliceBody launch.data.id module) := by
  unfold HoistOpsAndAnnotateWithDevice at hok ⊢
  simp only at hok ⊢
  have e0 : replaceAllUsesWith launch.data.id launch.data.numResults
      (terminatorOperands launch.body) module
        = mapDataBlock (forwardOperands launch.data.id launch.data.numResults
            (terminatorOperands launch.body)) module := rfl
  rw [e0] at hok ⊢
  have hE0 := Evolves_start ctx tf_dialect launch module
  by_cases h1 : failed (assignInBodyOf ctx tf_dialect launch.data launch.data.id
      (mapDataBlock (forwardOperands launch.data.id launch.data.numResults
        (terminatorOperands launch.body)) module)).2 = true
  · simp [h1] at hok
  · simp only [h1] at hok ⊢
    obtain ⟨G1, hE1, e1⟩ := assignInBodyOf_step ctx tf_dialect launch module launch [] _ hnd hin
      hE0 (by simpa using h1)
    rw [e1] at hok ⊢
    by_cases h2 : failed (assignInFunctions ctx tf_dialect launch.data
        (GetReachableFunctionsFromRegion ctx module launch.body) (mapDataBlock G1 module)).2 = true
    · simp [h2] at hok
    · simp only [h2] at hok ⊢
      obtain ⟨G2, hE2, e2⟩ := assignInFunctions_success ctx tf_dialect launch module hnd
        (GetReachableFunctionsFromRegion ctx module launch.body) _ G1
        (fun f hf => mem_allOpsBlock_of_mem (GetReachable_mem ctx module launch.body f hf))
        hE1 (by simpa using h2)
      refine ⟨G2, by simpa using hE2, ?_⟩
      simp only [if_false, Bool.false_eq_true]
      rw [e2, mapData_spliceBody G2 (fun d => (hE2.1 d).1)]

theorem nodesRegions_cons (r : Region) (rs : List Region) :
    (allOpsRegions (r :: rs)).map Operation.data
      = nodes r ++ (allOpsRegions rs).map Operation.data := by
  simp [allOpsRegions, nodes]

mutual
theorem rewriteOp_sublist (id : Nat) (f : Operation → List Operation)
    (hf : ∀ op, (nodes (f op)).Sublist (nodes [op])) :
    ∀ op : Operation, (nodes (rewriteOp id f op)).Sublist (nodes [op])
  | .mk data regions => by
    by_cases h : data.id = id
    · simp only [rewriteOp, h, if_true]
      exact hf _
    · simp only [rewriteOp, h, if_false]
      rw [nodes_singleton, nodes_singleton]
      exact List.Sublist.append (rewriteRegions_sublist id f hf regions) (List.Sublist.refl _)
theorem rewriteRegions_sublist (id : Nat) (f : Operation → List Operation)
    (hf : ∀ op, (nodes (f op)).Sublist (nodes [op])) :
    ∀ rs : List (List Operation),
      ((allOpsRegions (rewriteRegions id f rs)).map Operation.data).Sublist
        ((allOpsRegions rs).map Operation.data)
  | [] => by simp [rewriteRegions]
  | r :: rs => by
    simp only [rewriteRegions]
    rw [nodesRegions_cons, nodesRegions_cons]
    exact List.Sublist.append (rewriteBlock_sublist id f hf r) (rewriteRegions_sublist id f hf rs)
theorem rewriteBlock_sublist (id : Nat) (f : Operation → List Operation)
    (hf : ∀ op, (nodes (f op)).Sublist (nodes [op])) :
    ∀ b : List Operation, (nodes (rewriteBlock id f b)).Sublist (nodes b)
  | [] => by simp [rewriteBlock]
  | op :: rest => by
    have e : op :: rest = [op] ++ rest := rfl
    simp only [rewriteBlock]
    rw [e, nodes_append, nodes_append]
    exact List.Sublist.append (rewriteOp_sublist id f hf op) (rewriteBlock_sublist id f hf rest)
end

theorem nodes_body_sublist (op : Operation) : (nodes op.body).Sublist (nodes [op]) := by
  cases op with
  | mk data regions =>
    cases regions with
    | nil => simp [Operation.body, nodes, allOpsBlock]
    | cons r rs =>
      rw [nodes_singleton, nodesRegions_cons]
      simp only [Operation.body, List.append_assoc]
      exact List.sublist_append_left _ _

theorem nodes_dropLast_sublist (b : Block) : (nodes b.dropLast).Sublist (nodes b) := by
  rcases List.eq_nil_or_concat b with h | ⟨l, a, h⟩
  · subst h; simp
  · subst h
    simp only [List.concat_eq_append, List.dropLast_concat]
    rw [nodes_append]
    exact List.sublist_append_left _ _

theorem nodes_spliceBody_sublist (launch : Nat) (module : ModuleOp) :
    (nodes (spliceBody launch module)).Sublist (nodes module) :=
  rewriteBlock_sublist launch _
    (fun op => (nodes_dropLast_sublist op.body).trans (nodes_body_sublist op)) module

theorem mem_bodyIds {i : Nat} {funcs : List Operation} :
    i ∈ bodyIds funcs ↔ ∃ func ∈ funcs, i ∈ ids func.body := by
  induction funcs with
  | nil => simp [bodyIds]
  | cons f rest ih => simp [bodyIds, ih]

theorem LaunchOp.device_eq {launch : OpData} {d : String}
    (h : launch.getAttr kDeviceAttr = some (.StringAttr d)) : LaunchOp.device launch = d := by
  simp [LaunchOp.device, h]

/-- The operations of the module after a successful hoist, each with the
operation of the module before it comes from. -/
theorem Hoist_success_nodes (ctx : MLIRContext) (tf_dialect : Dialect) (module : ModuleOp)
    (launch : Operation) (hnd : NodupIds module) (hin : launch ∈ allOpsBlock module)
    (hok : failed (HoistOpsAndAnnotateWithDevice ctx tf_dialect module launch).2 = false) :
    ∃ G : OpData → OpData,
      Evolves ctx tf_dialect launch module
        (ids launch.body ++ bodyIds (GetReachableFunctionsFromRegion ctx module launch.body)) G ∧
      ∀ op ∈ nodes (HoistOpsAndAnnotateWithDevice ctx tf_dialect module launch).1,
        ∃ n ∈ nodes module, op = G n := by
  obtain ⟨G, hE, e⟩ := Hoist_success ctx tf_dialect module launch hnd hin hok
  refine ⟨G, hE, fun op hop => ?_⟩
  rw [e, nodes_mapData] at hop
  obtain ⟨n, hn, rfl⟩ := List.mem_map.1 hop
  exact ⟨n, (nodes_spliceBody_sublist _ _).subset hn, rfl⟩

/-- C1: after a successful hoist of a launch with device `d`, every operation
of the family that comes from the body of the launch or from the body of a
function of the reachable set, at any nesting depth, has `device` equal to
`d`. -/
theorem Hoist_propagates_device (ctx : MLIRContext) (tf_dialect : Dialect) (module : ModuleOp)
    (launch : Operation) (d : String) (hnd : NodupIds module)
    (hin : findOp module launch.data.id = some launch) (_hlaunch : isLaunchOp launch.data = true)
    (hd : launch.data.getAttr kDeviceAttr = some (.StringAttr d))
    (hok : failed (HoistOpsAndAnnotateWithDevice ctx tf_dialect module launch).2 = false) :
    ∀ op ∈ nodes (HoistOpsAndAnnotateWithDevice ctx tf_dialect module launch).1,
      inFamily ctx tf_dialect op = true →
      (op.id ∈ ids launch.body ∨
        ∃ func ∈ GetReachableFunctionsFromRegion ctx module launch.body, op.id ∈ ids func.body) →
      op.getAttr kDeviceAttr = some (.StringAttr d) := by
  obtain ⟨G, hE, hG⟩ := Hoist_success_nodes ctx tf_dialect module launch hnd
    (findOp_some_mem hin).1 hok
  intro op hop hfam hscope
  obtain ⟨n, hn, rfl⟩ := hG op hop
  have hid : (G n).id = n.id := (hE.1 n).1
  rw [hid] at hscope
  rw [inFamily_congr ctx tf_dialect (hE.1 n).2.1] at hfam
  have := hE.2.2 n hn (by
    rcases hscope with h | h
    · exact List.mem_append_left _ h
    · exact List.mem_append_right _ (mem_bodyIds.2 h)) hfam
  rw [OpData.getAttr] at this ⊢
  rw [this, LaunchOp.device_eq hd]

/-- C1 on the example of the file header: the hoist succeeds and `opB`, which
comes from the launch body, ends with device `CPU:0`. -/
theorem Hoist_propagates_device_witness :
    failed (HoistOpsAndAnnotateWithDevice exampleContext "tf" exampleModule exampleLaunch).2
      = false ∧
    (⟨3, ⟨"tf", "opB"⟩, [("device", .StringAttr "CPU:0")], [], 1⟩ : OpData) ∈
      nodes (HoistOpsAndAnnotateWithDevice exampleContext "tf" exampleModule exampleLaunch).1 ∧
    (⟨3, ⟨"tf", "opB"⟩, [("device", .StringAttr "CPU:0")], [], 1⟩ : OpData).getAttr kDeviceAttr
      = some (.StringAttr "CPU:0") :=
  ⟨by decide, by decide,
    Hoist_propagates_device exampleContext "tf" exampleModule exampleLaunch "CPU:0"
      (by decide) (by rfl) (by decide) (by decide) (by decide)
      ⟨3, ⟨"tf", "opB"⟩, [("device", .StringAttr "CPU:0")], [], 1⟩ (by decide) (by decide)
      (Or.inl (by decide))⟩

theorem blockAt_skeleton (b : Block) (path : List (Nat × Nat)) :
    blockAt (skeleton b) path = (blockAt b path).map skeleton :=
  blockAt_mapData skeletonData path b

/-- The parent block of a launch after a successful hoist. -/
theorem Hoist_parent_block (ctx : MLIRContext) (tf_dialect : Dialect) (module : ModuleOp)
    (launch : Operation) (path : List (Nat × Nat)) (before after : Block)
    (hnd : NodupIds module)
    (hparent : blockAt module path = some (before ++ launch :: after))
    (hok : failed (HoistOpsAndAnnotateWithDevice ctx tf_dialect module launch).2 = false) :
    ∃ blk : Block,
      blockAt (HoistOpsAndAnnotateWithDevice ctx tf_dialect module launch).1 path = some blk ∧
      skeleton blk = skeleton (before ++ launch.body.dropLast ++ after) := by
  obtain ⟨C, e, hC⟩ := blockAt_plug path module _ hparent
  have hs := skeleton_Hoist ctx tf_dialect module launch
  rw [hok] at hs
  simp only [Bool.false_eq_true, if_false] at hs
  have hsp : spliceBody launch.data.id module
      = plug C (before ++ launch.body.dropLast ++ after) := by
    subst e
    exact rewriteBlock_plug launch.data.id _ C before after launch rfl hnd
  rw [hsp] at hs
  have h1 := blockAt_skeleton (HoistOpsAndAnnotateWithDevice ctx tf_dialect module launch).1 path
  rw [hs, blockAt_skeleton, hC] at h1
  cases hb : blockAt (HoistOpsAndAnnotateWithDevice ctx tf_dialect module launch).1 path with
  | none => rw [hb] at h1; cases h1
  | some blk =>
    rw [hb] at h1
    simp only [Option.map_some', Option.some.injEq] at h1
    exact ⟨blk, rfl, h1.symm⟩

/-- C3: after a successful hoist of a launch whose parent block is
`before ++ [launch] ++ after` and whose body is `ops ++ [terminator]`, the
parent block is `before ++ ops ++ after`: the same operations, with the same
nested structure, in that order (their attributes and operands may have been
updated by the hoist); the launch and its terminator are gone. -/
theorem Hoist_splice_position (ctx : MLIRContext) (tf_dialect : Dialect) (module : ModuleOp)
    (launch : Operation) (path : List (Nat × Nat)) (before after ops : Block)
    (terminator : Operation) (hnd : NodupIds module)
    (_hlaunch : isLaunchOp launch.data = true)
    (hparent : blockAt module path = some (before ++ launch :: after))
    (hbody : launch.body = ops ++ [terminator])
    (hok : failed (HoistOpsAndAnnotateWithDevice ctx tf_dialect module launch).2 = false) :
    ∃ blk : Block,
      blockAt (HoistOpsAndAnnotateWithDevice ctx tf_dialect module launch).1 path = some blk ∧
      skeleton blk = skeleton (before ++ ops ++ after) := by
  have := Hoist_parent_block ctx tf_dialect module launch path before after hnd hparent hok
  rw [hbody, List.dropLast_concat] at this
  exact this

/-- C3 on the example of the file header: `a, launch {b, c, return}, d, yield`
becomes `a, b, c, d, yield`. -/
theorem Hoist_splice_position_witness :
    (∃ blk : Block,
      blockAt (HoistOpsAndAnnotateWithDevice exampleContext "tf" exampleModule exampleLaunch).1
        [(0, 0), (0, 0)] = some blk ∧
      skeleton blk = skeleton ([tfOp 1 "opA" [] [] 1] ++
        [tfOp 3 "opB" [] [] 1, tfOp 4 "opC" [("device", .StringAttr "")] [] 1] ++
        [tfOp 6 "opD" [] [] 1, exampleYield])) ∧
    (blockAt (HoistOpsAndAnnotateWithDevice exampleContext "tf" exampleModule exampleLaunch).1
        [(0, 0), (0, 0)]).map ids = some [1, 3, 4, 6, 7] :=
  ⟨Hoist_splice_position exampleContext "tf" exampleModule exampleLaunch [(0, 0), (0, 0)]
    [tfOp 1 "opA" [] [] 1] [tfOp 6 "opD" [] [] 1, exampleYield]
    [tfOp 3 "opB" [] [] 1, tfOp 4 "opC" [("device", .StringAttr "")] [] 1]
    (.mk ⟨5, ⟨"tf_device", "return"⟩, [], [.OpResult 4 0, .OpResult 3 0], 0⟩ [])
    (by decide) (by decide) (by rfl) (by rfl) (by decide), by decide⟩

/-- C8 as stated fails on the example of the file header: the parent block of
the launch has 4 operations before the hoist and 5 after it, and the body of
the launch has 3 operations; the count grew by 1, not by 3 - 1. -/
theorem Hoist_count_counterexample :
    failed (HoistOpsAndAnnotateWithDevice exampleContext "tf" exampleModule exampleLaunch).2
      = false ∧
    (blockAt exampleModule [(0, 0), (0, 0)]).map List.length = some 4 ∧
    exampleLaunch.body.length = 3 ∧
    (blockAt (HoistOpsAndAnnotateWithDevice exampleContext "tf" exampleModule exampleLaunch).1
      [(0, 0), (0, 0)]).map List.length = some 5 ∧
    ¬ ((blockAt (HoistOpsAndAnnotateWithDevice exampleContext "tf" exampleModule exampleLaunch).1
      [(0, 0), (0, 0)]).map List.length
        = (blockAt exampleModule [(0, 0), (0, 0)]).map
            (fun blk => blk.length + (exampleLaunch.body.length - 1))) := by
  decide

theorem length_skeleton (b : Block) : (skeleton b).length = b.length := by
  simp [skeleton, mapDataBlock_eq_map]

/-- C8, amended: after a successful hoist the parent block of the launch has
the operations it had, less the launch itself, plus the operations of the body
of the launch less its terminator: the new count plus one is the old count
plus the body size minus one. -/
theorem Hoist_count (ctx : MLIRContext) (tf_dialect : Dialect) (module : ModuleOp)
    (launch : Operation) (path : List (Nat × Nat)) (before after : Block)
    (hnd : NodupIds module) (_hlaunch : isLaunchOp launch.data = true)
    (hparent : blockAt module path = some (before ++ launch :: after))
    (hok : failed (HoistOpsAndAnnotateWithDevice ctx tf_dialect module launch).2 = false) :
    ∃ blk : Block,
      blockAt (HoistOpsAndAnnotateWithDevice ctx tf_dialect module launch).1 path = some blk ∧
      blk.length + 1 = (before ++ launch :: after).length + (launch.body.length - 1) := by
  obtain ⟨blk, h1, h2⟩ :=
    Hoist_parent_block ctx tf_dialect module launch path before after hnd hparent hok
  refine ⟨blk, h1, ?_⟩
  have := congrArg List.length h2
  rw [length_skeleton, length_skeleton] at this
  rw [this]
  simp only [List.length_append, List.length_dropLast, List.length_cons]
  omega

/-- C8, amended, on the example of the file header: 5 + 1 = 4 + (3 - 1). -/
theorem Hoist_count_witness :
    ∃ blk : Block,
      blockAt (HoistOpsAndAnnotateWithDevice exampleContext "tf" exampleModule exampleLaunch).1
        [(0, 0), (0, 0)] = some blk ∧
      blk.length + 1 = ([tfOp 1 "opA" [] [] 1] ++ exampleLaunch ::
        [tfOp 6 "opD" [] [] 1, exampleYield]).length + (exampleLaunch.body.length - 1) :=
  Hoist_count exampleContext "tf" exampleModule exampleLaunch [(0, 0), (0, 0)]
    [tfOp 1 "opA" [] [] 1] [tfOp 6 "opD" [] [] 1, exampleYield]
    (by decide) (by decide) (by rfl) (by decide)

/-- C9: a hoist that fails makes no structural change: the module keeps its
operations, at the same places and with the same nested structure, so the
launch is still in its parent block and every block, the body of the launch
included, holds the operations it held, in the same order.
The hoist does fail whenever `AssignDevicesInRegion` has a conflict to find:
an operation of the family, in the launch body or in the body of a reachable
function, whose `device` stands against the device of the launch. -/
theorem Hoist_failure_keeps_structure (ctx : MLIRContext) (tf_dialect : Dialect)
    (module : ModuleOp) (launch : Operation) (hnd : NodupIds module)
    (hin : findOp module launch.data.id = some launch)
    (_hlaunch : isLaunchOp launch.data = true) :
    (failed (HoistOpsAndAnnotateWithDevice ctx tf_dialect module launch).2 = true →
      skeleton (HoistOpsAndAnnotateWithDevice ctx tf_dialect module launch).1 = skeleton module ∧
      ∀ path : List (Nat × Nat),
        (blockAt (HoistOpsAndAnnotateWithDevice ctx tf_dialect module launch).1 path).map skeleton
          = (blockAt module path).map skeleton) ∧
    ((∃ op ∈ nodes module, inFamily ctx tf_dialect op = true ∧
        conflictsWith (LaunchOp.device launch.data) op = true ∧
        (op.id ∈ ids launch.body ∨
          ∃ func ∈ GetReachableFunctionsFromRegion ctx module launch.body,
            op.id ∈ ids func.body)) →
      failed (HoistOpsAndAnnotateWithDevice ctx tf_dialect module launch).2 = true) := by
  constructor
  · intro hf
    have hs := skeleton_Hoist ctx tf_dialect module launch
    rw [hf] at hs
    simp only [if_true] at hs
    refine ⟨hs, fun path => ?_⟩
    rw [← blockAt_skeleton, ← blockAt_skeleton, hs]
  · rintro ⟨op, hop, hfam, hconf, hscope⟩
    cases hres : failed (HoistOpsAndAnnotateWithDevice ctx tf_dialect module launch).2 with
    | true => rfl
    | false =>
      exfalso
      obtain ⟨G, hE, _⟩ := Hoist_success ctx tf_dialect module launch hnd
        (findOp_some_mem hin).1 hres
      have hdev := hE.2.2 op hop (by
        rcases hscope with h | h
        · exact List.mem_append_left _ h
        · exact List.mem_append_right _ (mem_bodyIds.2 h)) hfam
      rcases hE.2.1 op with e | ⟨_, hu, _, _⟩
      · simp only [OpData.getAttr, e] at hdev
        simp [conflictsWith, OpData.getAttr, hdev] at hconf
      · rcases hu with hu | hu <;> simp [conflictsWith, hu] at hconf

/-- C9 on the module of the file header with device `GPU:0` on `opC`: the
hoist fails and the island still holds `a, launch, d, yield`. -/
theorem Hoist_failure_keeps_structure_witness :
    failed (HoistOpsAndAnnotateWithDevice exampleContext "tf" conflictModule conflictLaunch).2
      = true ∧
    (blockAt (HoistOpsAndAnnotateWithDevice exampleContext "tf" conflictModule conflictLaunch).1
        [(0, 0), (0, 0)]).map skeleton
      = (blockAt conflictModule [(0, 0), (0, 0)]).map skeleton ∧
    (blockAt (HoistOpsAndAnnotateWithDevice exampleContext "tf" conflictModule conflictLaunch).1
        [(0, 0), (0, 0)]).map ids = some [1, 3, 4, 5, 2, 6, 7] :=
  have h := Hoist_failure_keeps_structure exampleContext "tf" conflictModule conflictLaunch
    (by decide) (by rfl) (by decide)
  have hf := h.2 ⟨⟨4, ⟨"tf", "opC"⟩, [("device", .StringAttr "GPU:0")], [], 1⟩,
    by decide, by decide, by decide, Or.inl (by decide)⟩
  ⟨hf, (h.1 hf).2 [(0, 0), (0, 0)], by decide⟩

/-- C10: after a successful hoist every operation of the module is an
operation of the module before, with the same id and name, and with the same
attributes but for `device`; its attributes are the same altogether unless it
is an operation of the family, in the launch body or in the body of a
reachable function, that had no device or an empty one and now has the device
of the launch. -/
theorem Hoist_frame (ctx : MLIRContext) (tf_dialect : Dialect) (module : ModuleOp)
    (launch : Operation) (hnd : NodupIds module)
    (hin : findOp module launch.data.id = some launch)
    (_hlaunch : isLaunchOp launch.data = true)
    (hok : failed (HoistOpsAndAnnotateWithDevice ctx tf_dialect module launch).2 = false) :
    ∀ op' ∈ nodes (HoistOpsAndAnnotateWithDevice ctx tf_dialect module launch).1,
      ∃ op ∈ nodes module, op'.id = op.id ∧ op'.name = op.name ∧
        (∀ key : String, key ≠ kDeviceAttr → op'.getAttr key = op.getAttr key) ∧
        (inFamily ctx tf_dialect op = false → op'.attrs = op.attrs) ∧
        ((op.id ∉ ids launch.body ∧
          ∀ func ∈ GetReachableFunctionsFromRegion ctx module launch.body,
            op.id ∉ ids func.body) → op'.attrs = op.attrs) ∧
        (op'.attrs ≠ op.attrs →
          (op.getAttr kDeviceAttr = none ∨ op.getAttr kDeviceAttr = some (.StringAttr "")) ∧
          op'.attrs = setAttr op.attrs kDeviceAttr (.StringAttr (LaunchOp.device launch.data))) := by
  obtain ⟨G, hE, hG⟩ := Hoist_success_nodes ctx tf_dialect module launch hnd
    (findOp_some_mem hin).1 hok
  intro op' hop'
  obtain ⟨n, hn, rfl⟩ := hG op' hop'
  refine ⟨n, hn, (hE.1 n).1, (hE.1 n).2.1, ?_, ?_, ?_, ?_⟩
  · intro key hkey
    rcases hE.2.1 n with e | ⟨_, _, _, e⟩
    · simp [OpData.getAttr, e]
    · simp [OpData.getAttr, e, getAttr_setAttr_other _ _ _ _ hkey]
  · intro hnf
    rcases hE.2.1 n with e | ⟨hf, _, _, _⟩
    · exact e
    · rw [hnf] at hf; cases hf
  · rintro ⟨h1, h2⟩
    rcases hE.2.1 n with e | ⟨_, _, hS, _⟩
    · exact e
    · exfalso
      rcases List.mem_append.1 hS with h | h
      · exact h1 h
      · obtain ⟨func, hfunc, hi⟩ := mem_bodyIds.1 h
        exact h2 func hfunc hi
  · intro hne
    rcases hE.2.1 n with e | ⟨_, hu, _, e⟩
    · exact absurd e hne
    · exact ⟨hu, e⟩

/-- C10 on the example of the file header: `opA`, outside the launch, is in
the module after the hoist as it was before. -/
theorem Hoist_frame_witness :
    failed (HoistOpsAndAnnotateWithDevice exampleContext "tf" exampleModule exampleLaunch).2
      = false ∧
    (⟨1, ⟨"tf", "opA"⟩, [], [], 1⟩ : OpData) ∈
      nodes (HoistOpsAndAnnotateWithDevice exampleContext "tf" exampleModule exampleLaunch).1 ∧
    ∃ op ∈ nodes exampleModule, (1 : Nat) = op.id ∧ (⟨"tf", "opA"⟩ : OperationName) = op.name ∧
      (∀ key : String, key ≠ kDeviceAttr →
        (⟨1, ⟨"tf", "opA"⟩, [], [], 1⟩ : OpData).getAttr key = op.getAttr key) ∧
      (inFamily exampleContext "tf" op = false → [] = op.attrs) ∧
      ((op.id ∉ ids exampleLaunch.body ∧
        ∀ func ∈ GetReachableFunctionsFromRegion exampleContext exampleModule exampleLaunch.body,
          op.id ∉ ids func.body) → [] = op.attrs) ∧
      (([] : List (String × Attribute)) ≠ op.attrs →
        (op.getAttr kDeviceAttr = none ∨ op.getAttr kDeviceAttr = some (.StringAttr "")) ∧
        [] = setAttr op.attrs kDeviceAttr (.StringAttr (LaunchOp.device exampleLaunch.data))) :=
  ⟨by decide, by decide,
    Hoist_frame exampleContext "tf" exampleModule exampleLaunch (by decide) (by rfl)
      (by decide) (by decide) ⟨1, ⟨"tf", "opA"⟩, [], [], 1⟩ (by decide)⟩

theorem terminatorOperands_concat (ops : Block) (terminator : Operation) :
    terminatorOperands (ops ++ [terminator]) = terminator.data.operands := by
  simp [terminatorOperands]

theorem forwardValue_result (launch numResults : Nat) (values : List Value) (i : Nat)
    (hi : i < numResults) (hlen : values.length = numResults) :
    values[i]? = some (forwardValue launch numResults values (.OpResult launch i)) := by
  have hi' : i < values.length := by omega
  simp [forwardValue, hi, List.getD_eq_getElem?_getD, List.getElem?_eq_getElem hi']

theorem forwardValue_OpResult (launch numResults : Nat) (values : List Value)
    (owner index : Nat) :
    forwardValue launch numResults values (.OpResult owner index)
      = if owner = launch ∧ index < numResults then values.getD index (.OpResult owner index)
        else .OpResult owner index := rfl

theorem forwardValue_other (launch numResults : Nat) (values : List Value) (v : Value)
    (h : ∀ i, i < numResults → v ≠ .OpResult launch i) :
    forwardValue launch numResults values v = v := by
  cases v with
  | OpResult owner index =>
    rw [forwardValue_OpResult]
    by_cases hc : owner = launch ∧ index < numResults
    · exact absurd (by rw [hc.1]) (h index hc.2)
    · simp [hc]
  | BlockArgument owner index => rfl

theorem forwardValue_fresh (launch numResults : Nat) (values : List Value)
    (hlen : values.length = numResults)
    (hdom : ∀ v ∈ values, ∀ i, v ≠ .OpResult launch i) (v : Value) (i : Nat)
    (hi : i < numResults) : forwardValue launch numResults values v ≠ .OpResult launch i := by
  cases v with
  | OpResult owner index =>
    rw [forwardValue_OpResult]
    by_cases hc : owner = launch ∧ index < numResults
    · have hj : index < values.length := by omega
      simp only [hc, and_self, if_true]
      rw [List.getD_eq_getElem?_getD, List.getElem?_eq_getElem hj]
      exact hdom _ (List.getElem_mem hj) i
    · simp only [hc, if_false]
      intro e
      simp only [Value.OpResult.injEq] at e
      exact hc ⟨e.1, by rw [e.2]; exact hi⟩
  | BlockArgument owner index => simp [forwardValue]

/-- C4: after a successful hoist of a launch with `N` results whose terminator
has `N` operands (none of them a result of the launch itself, whose results
are not visible inside its own body), every operation of the module has its
operands position by position as before, but that an operand that was result
`i` of the launch is now operand `i` of the terminator; no operand is a result
of the launch any more, and an operand that was not one is unchanged. -/
theorem Hoist_forwards_results (ctx : MLIRContext) (tf_dialect : Dialect) (module : ModuleOp)
    (launch : Operation) (ops : Block) (terminator : Operation) (hnd : NodupIds module)
    (hin : findOp module launch.data.id = some launch)
    (_hlaunch : isLaunchOp launch.data = true)
    (hbody : launch.body = ops ++ [terminator])
    (hN : terminator.data.operands.length = launch.data.numResults)
    (hdom : ∀ v ∈ terminator.data.operands, ∀ i, v ≠ .OpResult launch.data.id i)
    (hok : failed (HoistOpsAndAnnotateWithDevice ctx tf_dialect module launch).2 = false) :
    ∀ op' ∈ nodes (HoistOpsAndAnnotateWithDevice ctx tf_dialect module launch).1,
      ∃ op ∈ nodes module, op'.id = op.id ∧
        List.Forall₂ (fun v v' =>
          (∀ i, v = .OpResult launch.data.id i → i < launch.data.numResults →
            terminator.data.operands[i]? = some v') ∧
          ((∀ i, i < launch.data.numResults → v ≠ .OpResult launch.data.id i) → v' = v))
          op.operands op'.operands ∧
        (∀ v' ∈ op'.operands, ∀ i, i < launch.data.numResults →
          v' ≠ .OpResult launch.data.id i) := by
  obtain ⟨G, hE, hG⟩ := Hoist_success_nodes ctx tf_dialect module launch hnd
    (findOp_some_mem hin).1 hok
  intro op' hop'
  obtain ⟨n, hn, rfl⟩ := hG op' hop'
  have hops := (hE.1 n).2.2.2
  rw [hbody, terminatorOperands_concat] at hops
  refine ⟨n, hn, (hE.1 n).1, ?_, ?_⟩
  · rw [hops, List.forall₂_map_right_iff, List.forall₂_same]
    intro v _
    refine ⟨fun i hv hi => ?_, fun h => forwardValue_other _ _ _ v h⟩
    subst hv
    exact forwardValue_result _ _ _ i hi hN
  · rw [hops]
    intro v' hv' i hi
    obtain ⟨v, _, rfl⟩ := List.mem_map.1 hv'
    exact forwardValue_fresh _ _ _ hN hdom v i hi

/-- C4 on the example of the file header: the `yield` that used `%launch#0`
and `%launch#1` uses `%c` and `%b` after the hoist, and `%a` and `%d` as
before. -/
theorem Hoist_forwards_results_witness :
    failed (HoistOpsAndAnnotateWithDevice exampleContext "tf" exampleModule exampleLaunch).2
      = false ∧
    (⟨7, ⟨"tf_executor", "yield"⟩, [],
        [.OpResult 1 0, .OpResult 4 0, .OpResult 3 0, .OpResult 6 0], 0⟩ : OpData) ∈
      nodes (HoistOpsAndAnnotateWithDevice exampleContext "tf" exampleModule exampleLaunch).1 ∧
    ∃ op ∈ nodes exampleModule, (7 : Nat) = op.id ∧
      List.Forall₂ (fun v v' =>
        (∀ i, v = .OpResult 2 i → i < 2 →
          [Value.OpResult 4 0, Value.OpResult 3 0][i]? = some v') ∧
        ((∀ i, i < 2 → v ≠ .OpResult 2 i) → v' = v))
        op.operands [.OpResult 1 0, .OpResult 4 0, .OpResult 3 0, .OpResult 6 0] ∧
      (∀ v' ∈ [Value.OpResult 1 0, Value.OpResult 4 0, Value.OpResult 3 0, Value.OpResult 6 0],
        ∀ i, i < 2 → v' ≠ .OpResult 2 i) :=
  ⟨by decide, by decide,
    Hoist_forwards_results exampleContext "tf" exampleModule exampleLaunch
      [tfOp 3 "opB" [] [] 1, tfOp 4 "opC" [("device", .StringAttr "")] [] 1]
      (.mk ⟨5, ⟨"tf_device", "return"⟩, [], [.OpResult 4 0, .OpResult 3 0], 0⟩ [])
      (by decide) (by rfl) (by decide) (by rfl) (by decide)
      (by
        intro v hv i
        simp only [Operation.data, List.mem_cons, List.mem_singleton, List.not_mem_nil,
          or_false] at hv
        rcases hv with rfl | rfl <;> simp [exampleLaunch, Operation.data])
      (by decide)
      ⟨7, ⟨"tf_executor", "yield"⟩, [],
        [.OpResult 1 0, .OpResult 4 0, .OpResult 3 0, .OpResult 6 0], 0⟩ (by decide)⟩

theorem ids_spliceBody_sublist (launch : Nat) (module : ModuleOp) :
    (ids (spliceBody launch module)).Sublist (ids module) :=
  (nodes_spliceBody_sublist launch module).map OpData.id

theorem ids_body_dropLast_sub (op : Operation) :
    ∀ i ∈ ids op.body.dropLast, i ∈ idsRegions op.regions := by
  intro i hi
  apply ids_body_sub op
  exact ((nodes_dropLast_sublist op.body).map OpData.id).subset hi

/-- On a module with distinct ids, the launch is gone once it is spliced
out. -/
theorem not_mem_ids_spliceBody (launch : Nat) (module : ModuleOp) (hnd : NodupIds module) :
    launch ∉ ids (spliceBody launch module) := by
  by_cases hex : launch ∈ ids module
  · rw [ids_eq] at hex
    obtain ⟨op, hop, hid⟩ := List.mem_map.1 hex
    obtain ⟨C, before, after, e⟩ := mem_allOpsBlock_plug module op hop
    subst e
    have hsp := rewriteBlock_plug launch (fun o => o.body.dropLast) C before after op hid hnd
    unfold spliceBody
    rw [hsp]
    obtain ⟨A, B, hAB⟩ := ids_plug C
    unfold NodupIds at hnd
    rw [hAB] at hnd ⊢
    have e2 : before ++ op :: after = before ++ ([op] ++ after) := by simp
    have hop_ids : ids [op] = idsRegions op.regions ++ [op.data.id] := by
      cases op; exact ids_singleton _ _
    rw [e2, ids_append, ids_append, hop_ids, hid] at hnd
    rw [ids_append, ids_append]
    have hsub := ids_body_dropLast_sub op
    simp only [List.nodup_append, List.mem_append, List.Disjoint, List.mem_singleton,
      List.nodup_cons, List.not_mem_nil, not_false_eq_true, List.nodup_nil, and_true,
      true_and] at hnd
    simp only [List.mem_append]
    intro hm
    obtain ⟨⟨_, ⟨_, ⟨⟨_, hrl⟩, _, hra⟩, hbr⟩, hAx⟩, _, hxB⟩ := hnd
    rcases hm with (hm | (hm | hm) | hm) | hm
    · exact hAx hm (Or.inr (Or.inl (Or.inr rfl)))
    · exact hbr hm (Or.inl (Or.inr rfl))
    · exact hrl (hsub _ hm) rfl
    · exact hra (Or.inr rfl) hm
    · exact hxB (Or.inr (Or.inr (Or.inl (Or.inr rfl)))) hm
  · exact fun h => hex ((ids_spliceBody_sublist launch module).subset h)

theorem isLaunchOp_congr {n n' : OpData} (h : n'.name = n.name) :
    isLaunchOp n' = isLaunchOp n := by
  simp [isLaunchOp, h]

/-- What a successful hoist leaves in the module: distinct ids again, and
operations that were there before, the launch not among them. -/
theorem Hoist_success_remaining (ctx : MLIRContext) (tf_dialect : Dialect) (module : ModuleOp)
    (launch : Operation) (hnd : NodupIds module)
    (hin : findOp module launch.data.id = some launch)
    (hok : failed (HoistOpsAndAnnotateWithDevice ctx tf_dialect module launch).2 = false) :
    NodupIds (HoistOpsAndAnnotateWithDevice ctx tf_dialect module launch).1 ∧
    ∀ op' ∈ nodes (HoistOpsAndAnnotateWithDevice ctx tf_dialect module launch).1,
      ∃ n ∈ nodes module, n.id = op'.id ∧ n.name = op'.name ∧ n.id ≠ launch.data.id := by
  obtain ⟨G, hE, e⟩ := Hoist_success ctx tf_dialect module launch hnd (findOp_some_mem hin).1 hok
  have hGid : ∀ d, (G d).id = d.id := fun d => (hE.1 d).1
  constructor
  · unfold NodupIds
    rw [e, ids_mapData G hGid]
    exact (ids_spliceBody_sublist _ _).nodup hnd
  · intro op' hop'
    rw [e, nodes_mapData] at hop'
    obtain ⟨n, hn, rfl⟩ := List.mem_map.1 hop'
    refine ⟨n, (nodes_spliceBody_sublist _ _).subset hn, (hGid n).symm, (hE.1 n).2.1.symm, ?_⟩
    intro hid
    have := mem_ids_of_mem_nodes hn
    rw [hid] at this
    exact not_mem_ids_spliceBody launch.data.id module hnd this

theorem findOp_none {b : Block} {id : Nat} (h : findOp b id = none) :
    ∀ n ∈ nodes b, n.id ≠ id := by
  unfold findOp at h
  rw [List.find?_eq_none] at h
  intro n hn
  obtain ⟨op, hop, rfl⟩ := List.mem_map.1 hn
  simpa using h op hop

/-- The walk over the launches: when it is not interrupted, and every launch
of the module is in the list to walk, no launch is left. -/
theorem walkLaunchOps_no_launch (ctx : MLIRContext) (tf_dialect : Dialect) :
    ∀ (todo : List Nat) (module : ModuleOp), NodupIds module →
      (∀ n ∈ nodes module, isLaunchOp n = true → n.id ∈ todo) →
      (walkLaunchOps ctx tf_dialect todo module).2.wasInterrupted = false →
      ∀ n ∈ nodes (walkLaunchOps ctx tf_dialect todo module).1, isLaunchOp n = false := by
  intro todo
  induction todo with
  | nil =>
    intro module _ hall _ n hn
    simp only [walkLaunchOps] at hn
    cases h : isLaunchOp n with
    | false => rfl
    | true => exact absurd (hall n hn h) (List.not_mem_nil _)
  | cons id rest ih =>
    intro module hnd hall hok
    simp only [walkLaunchOps] at hok ⊢
    cases hf : findOp module id with
    | none =>
      simp only [hf] at hok ⊢
      apply ih module hnd _ hok
      intro n hn hl
      rcases List.mem_cons.1 (hall n hn hl) with h | h
      · exact absurd h (findOp_none hf n hn)
      · exact h
    | some launch =>
      simp only [hf] at hok ⊢
      have hid : launch.data.id = id := (findOp_some_mem hf).2
      cases hr : (HoistOpsAndAnnotateWithDevice ctx tf_dialect module launch).2 with
      | failure d => simp [hr, WalkResult.wasInterrupted] at hok
      | success =>
        simp only [hr] at hok ⊢
        have hrem := Hoist_success_remaining ctx tf_dialect module launch hnd
          (by rw [hid]; exact hf) (by rw [hr]; rfl)
        apply ih _ hrem.1 _ hok
        intro n hn hl
        obtain ⟨n0, hn0, e1, e2, hne⟩ := hrem.2 n hn
        have hl0 : isLaunchOp n0 = true := by rw [isLaunchOp_congr e2]; exact hl
        rcases List.mem_cons.1 (hall n0 hn0 hl0) with h | h
        · exact absurd (h.trans hid.symm) hne
        · rw [← e1]; exact h

/-- C6: on a module with distinct ids, if the pass completes without
signalling failure, no `tf_device.launch` is left in the module, at any
nesting depth. -/
theorem runOnOperation_no_launch (ctx : MLIRContext) (module : ModuleOp)
    (hnd : NodupIds module) (hok : failed (runOnOperation ctx module).2 = false) :
    ∀ op ∈ nodes (runOnOperation ctx module).1, isLaunchOp op = false := by
  unfold runOnOperation at hok ⊢
  cases hd : ctx.getLoadedDialect "tf" with
  | none => simp [hd, failed] at hok
  | some tf_dialect =>
    simp only [hd, failed_toLogicalResult] at hok ⊢
    apply walkLaunchOps_no_launch ctx tf_dialect _ module hnd _ hok
    intro n hn hl
    exact List.mem_map.2 ⟨n, List.mem_filter.2 ⟨hn, hl⟩, rfl⟩

/-- C6 on a launch nested in a launch, both on `CPU:0`, inside a function:
the pass succeeds and what is left is the function with `opA`, `opB` and its
terminator. -/
theorem runOnOperation_no_launch_witness :
    failed (runOnOperation exampleContext (nestedModule "CPU:0")).2 = false ∧
    ids (runOnOperation exampleContext (nestedModule "CPU:0")).1 = [3, 5, 8, 1] ∧
    isLaunchOp (⟨5, ⟨"tf", "opB"⟩, [("device", .StringAttr "CPU:0")], [], 1⟩ : OpData) = false :=
  ⟨by decide, by decide,
    runOnOperation_no_launch exampleContext (nestedModule "CPU:0") (by decide) (by decide)
      ⟨5, ⟨"tf", "opB"⟩, [("device", .StringAttr "CPU:0")], [], 1⟩ (by decide)⟩

mutual
theorem symbolUsesOp_sub (ctx : MLIRContext) :
    ∀ (op : Operation) (l : List String), symbolUsesOp ctx op = some l →
      ∀ name ∈ l, ∃ n ∈ nodes [op], name ∈ symbolRefs n
  | .mk data regions, l => by
    intro h name hn
    rw [nodes_singleton]
    simp only [symbolUsesOp] at h
    split at h
    · cases h
    · split at h
      · simp only [Option.some.injEq] at h; subst h
        exact ⟨data, by simp, hn⟩
      · cases hr : symbolUsesRegions ctx regions with
        | none => simp [hr] at h
        | some nested =>
          simp only [hr, Option.some.injEq] at h; subst h
          rcases List.mem_append.1 hn with h1 | h1
          · exact ⟨data, by simp, h1⟩
          · obtain ⟨n, hn1, hn2⟩ := symbolUsesRegions_sub ctx regions nested hr name h1
            exact ⟨n, by simp [hn1], hn2⟩
theorem symbolUsesRegions_sub (ctx : MLIRContext) :
    ∀ (rs : List (List Operation)) (l : List String), symbolUsesRegions ctx rs = some l →
      ∀ name ∈ l, ∃ n ∈ (allOpsRegions rs).map Operation.data, name ∈ symbolRefs n
  | [], l => by
    intro h name hn
    simp only [symbolUsesRegions, Option.some.injEq] at h; subst h; cases hn
  | r :: rs, l => by
    intro h name hn
    simp only [symbolUsesRegions] at h
    cases h1 : symbolUsesBlock ctx r with
    | none => simp [h1] at h
    | some here =>
      cases h2 : symbolUsesRegions ctx rs with
      | none => simp [h1, h2] at h
      | some later =>
        simp only [h1, h2, Option.some.injEq] at h; subst h
        rw [nodesRegions_cons]
        rcases List.mem_append.1 hn with h3 | h3
        · obtain ⟨n, hn1, hn2⟩ := symbolUsesBlock_sub ctx r here h1 name h3
          exact ⟨n, List.mem_append_left _ hn1, hn2⟩
        · obtain ⟨n, hn1, hn2⟩ := symbolUsesRegions_sub ctx rs later h2 name h3
          exact ⟨n, List.mem_append_right _ hn1, hn2⟩
theorem symbolUsesBlock_sub (ctx : MLIRContext) :
    ∀ (b : List Operation) (l : List String), symbolUsesBlock ctx b = some l →
      ∀ name ∈ l, ∃ n ∈ nodes b, name ∈ symbolRefs n
  | [], l => by
    intro h name hn
    simp only [symbolUsesBlock, Option.some.injEq] at h; subst h; cases hn
  | op :: rest, l => by
    intro h name hn
    simp only [symbolUsesBlock] at h
    cases h1 : symbolUsesOp ctx op with
    | none => simp [h1] at h
    | some here =>
      cases h2 : symbolUsesBlock ctx rest with
      | none => simp [h1, h2] at h
      | some later =>
        simp only [h1, h2, Option.some.injEq] at h; subst h
        have e : op :: rest = [op] ++ rest := rfl
        rw [e, nodes_append]
        rcases List.mem_append.1 hn with h3 | h3
        · obtain ⟨n, hn1, hn2⟩ := symbolUsesOp_sub ctx op here h1 name h3
          exact ⟨n, List.mem_append_left _ hn1, hn2⟩
        · obtain ⟨n, hn1, hn2⟩ := symbolUsesBlock_sub ctx rest later h2 name h3
          exact ⟨n, List.mem_append_right _ hn1, hn2⟩
end

mutual
theorem symbolUsesOp_known (ctx : MLIRContext) :
    ∀ (op : Operation), (∀ o ∈ op.allOps, plainOp ctx o = true) →
      ∃ l, symbolUsesOp ctx op = some l ∧
        ∀ n ∈ nodes [op], ∀ name ∈ symbolRefs n, name ∈ l
  | .mk data regions => by
    intro hp
    have hself := hp (.mk data regions) (by simp [Operation.allOps])
    simp only [plainOp, Operation.data, Operation.regions, Bool.and_eq_true,
      Bool.not_eq_true'] at hself
    obtain ⟨l, hl, hsub⟩ := symbolUsesRegions_known ctx regions
      (fun o ho => hp o (by simp [Operation.allOps, ho]))
    refine ⟨symbolRefs data ++ l, ?_, ?_⟩
    · simp only [symbolUsesOp, hself.1, hself.2, hl]
      simp
    · intro n hn name hname
      rw [nodes_singleton] at hn
      rcases List.mem_append.1 hn with h | h
      · exact List.mem_append_right _ (hsub n h name hname)
      · simp only [List.mem_singleton] at h; subst h
        exact List.mem_append_left _ hname
theorem symbolUsesRegions_known (ctx : MLIRContext) :
    ∀ (rs : List (List Operation)), (∀ o ∈ allOpsRegions rs, plainOp ctx o = true) →
      ∃ l, symbolUsesRegions ctx rs = some l ∧
        ∀ n ∈ (allOpsRegions rs).map Operation.data, ∀ name ∈ symbolRefs n, name ∈ l
  | [] => by
    intro _
    exact ⟨[], by simp [symbolUsesRegions], by simp [allOpsRegions]⟩
  | r :: rs => by
    intro hp
    obtain ⟨l1, h1, s1⟩ := symbolUsesBlock_known ctx r
      (fun o ho => hp o (by simp [allOpsRegions, ho]))
    obtain ⟨l2, h2, s2⟩ := symbolUsesRegions_known ctx rs
      (fun o ho => hp o (by simp [allOpsRegions, ho]))
    refine ⟨l1 ++ l2, by simp [symbolUsesRegions, h1, h2], ?_⟩
    intro n hn name hname
    rw [nodesRegions_cons] at hn
    rcases List.mem_append.1 hn with h | h
    · exact List.mem_append_left _ (s1 n h name hname)
    · exact List.mem_append_right _ (s2 n h name hname)
theorem symbolUsesBlock_known (ctx : MLIRContext) :
    ∀ (b : List Operation), (∀ o ∈ allOpsBlock b, plainOp ctx o = true) →
      ∃ l, symbolUsesBlock ctx b = some l ∧
        ∀ n ∈ nodes b, ∀ name ∈ symbolRefs n, name ∈ l
  | [] => by
    intro _
    exact ⟨[], by simp [symbolUsesBlock], by simp [nodes, allOpsBlock]⟩
  | op :: rest => by
    intro hp
    obtain ⟨l1, h1, s1⟩ := symbolUsesOp_known ctx op
      (fun o ho => hp o (by simp [allOpsBlock, ho]))
    obtain ⟨l2, h2, s2⟩ := symbolUsesBlock_known ctx rest
      (fun o ho => hp o (by simp [allOpsBlock, ho]))
    refine ⟨l1 ++ l2, by simp [symbolUsesBlock, h1, h2], ?_⟩
    intro n hn name hname
    have e : op :: rest = [op] ++ rest := rfl
    rw [e, nodes_append] at hn
    rcases List.mem_append.1 hn with h | h
    · exact List.mem_append_left _ (s1 n h name hname)
    · exact List.mem_append_right _ (s2 n h name hname)
end

theorem visitedContains_iff (visited : List Operation) (func : Operation) :
    visitedContains visited func = true ↔ func.data.id ∈ handleIds visited := by
  simp only [visitedContains, handleIds, List.any_eq_true, List.mem_map, beq_iff_eq]

theorem handleIds_append (a b : List Operation) :
    handleIds (a ++ b) = handleIds a ++ handleIds b := by
  simp [handleIds]

theorem handleIds_nodup_snoc {visited : List Operation} {func : Operation}
    (hnd : (handleIds visited).Nodup) (hnew : ¬ visitedContains visited func = true) :
    (handleIds (visited ++ [func])).Nodup := by
  rw [visitedContains_iff] at hnew
  rw [handleIds_append, List.nodup_append]
  refine ⟨hnd, by simp [handleIds], ?_⟩
  intro a ha hb
  simp only [handleIds, List.map_cons, List.map_nil, List.mem_singleton] at hb
  subst hb
  exact hnew ha

theorem seedFunctions_spec (module : ModuleOp) :
    ∀ (uses : List String) (visited : List Operation),
      (∀ f ∈ visited, f ∈ seedFunctions module uses visited) ∧
      (∀ name ∈ uses, ∀ f, SymbolTable.lookupFuncOp module name = some f →
        f.data.id ∈ handleIds (seedFunctions module uses visited)) ∧
      ((handleIds visited).Nodup → (handleIds (seedFunctions module uses visited)).Nodup) := by
  intro uses
  induction uses with
  | nil =>
    intro visited
    exact ⟨fun f hf => hf, fun name hn => (by cases hn), fun h => h⟩
  | cons use rest ih =>
    intro visited
    simp only [seedFunctions]
    cases hl : SymbolTable.lookupFuncOp module use with
    | none =>
      simp only []
      obtain ⟨h1, h2, h3⟩ := ih visited
      refine ⟨h1, ?_, h3⟩
      intro name hn f hf
      rcases List.mem_cons.1 hn with e | hn'
      · subst e; rw [hl] at hf; cases hf
      · exact h2 name hn' f hf
    | some func =>
      simp only []
      by_cases hc : visitedContains visited func = true
      · simp only [hc, if_true]
        obtain ⟨h1, h2, h3⟩ := ih visited
        refine ⟨h1, ?_, h3⟩
        intro name hn f hf
        rcases List.mem_cons.1 hn with e | hn'
        · subst e; rw [hl] at hf
          simp only [Option.some.injEq] at hf; subst hf
          obtain ⟨g, hg, e⟩ := List.mem_map.1 ((visitedContains_iff _ _).1 hc)
          exact List.mem_map.2 ⟨g, h1 g hg, e⟩
        · exact h2 name hn' f hf
      · simp only [hc, if_false]
        obtain ⟨h1, h2, h3⟩ := ih (visited ++ [func])
        refine ⟨fun f hf => h1 f (List.mem_append_left _ hf), ?_,
          fun hnd => h3 (handleIds_nodup_snoc hnd hc)⟩
        intro name hn f hf
        rcases List.mem_cons.1 hn with e | hn'
        · subst e; rw [hl] at hf
          simp only [Option.some.injEq] at hf; subst hf
          exact List.mem_map.2 ⟨func, h1 func (by simp), rfl⟩
        · exact h2 name hn' f hf

theorem visitUses_spec (module : ModuleOp) :
    ∀ (uses : List String) (st : List Operation × List Operation),
      ∃ added : List Operation,
        visitUses module uses st = (st.1 ++ added, st.2 ++ added) ∧
        (∀ name ∈ uses, ∀ f, SymbolTable.lookupFuncOp module name = some f →
          f.data.id ∈ handleIds (st.1 ++ added)) ∧
        ((handleIds st.1).Nodup → (handleIds (st.1 ++ added)).Nodup) := by
  intro uses
  induction uses with
  | nil =>
    intro st
    exact ⟨[], by simp [visitUses], fun name hn => (by cases hn), fun h => (by simpa using h)⟩
  | cons use rest ih =>
    intro st
    simp only [visitUses]
    cases hl : SymbolTable.lookupFuncOp module use with
    | none =>
      simp only []
      obtain ⟨added, h1, h2, h3⟩ := ih st
      refine ⟨added, h1, ?_, h3⟩
      intro name hn f hf
      rcases List.mem_cons.1 hn with e | hn'
      · subst e; rw [hl] at hf; cases hf
      · exact h2 name hn' f hf
    | some func =>
      simp only []
      by_cases hc : visitedContains st.1 func = true
      · simp only [hc, if_true]
        obtain ⟨added, h1, h2, h3⟩ := ih st
        refine ⟨added, h1, ?_, h3⟩
        intro name hn f hf
        rcases List.mem_cons.1 hn with e | hn'
        · subst e; rw [hl] at hf
          simp only [Option.some.injEq] at hf; subst hf
          rw [handleIds_append]
          exact List.mem_append_left _ ((visitedContains_iff _ _).1 hc)
        · exact h2 name hn' f hf
      · simp only [hc, if_false]
        obtain ⟨added, h1, h2, h3⟩ := ih (st.1 ++ [func], st.2 ++ [func])
        simp only [List.append_assoc] at h1 h2 h3
        refine ⟨func :: added, by simpa using h1, ?_, ?_⟩
        · intro name hn f hf
          rcases List.mem_cons.1 hn with e | hn'
          · subst e; rw [hl] at hf
            simp only [Option.some.injEq] at hf; subst hf
            simp [handleIds]
          · simpa using h2 name hn' f hf
        · intro hnd
          have := h3 (by
            have := handleIds_nodup_snoc hnd hc
            simpa using this)
          simpa using this

theorem visitFunctions_spec (ctx : MLIRContext) (module : ModuleOp) :
    ∀ (to_visit : List Operation) (st : List Operation × List Operation),
      ∃ added : List Operation,
        visitFunctions ctx module to_visit st = (st.1 ++ added, st.2 ++ added) ∧
        (∀ g ∈ to_visit, ∀ l, SymbolTable.getSymbolUses ctx g.body = some l →
          ∀ name ∈ l, ∀ f, SymbolTable.lookupFuncOp module name = some f →
            f.data.id ∈ handleIds (st.1 ++ added)) ∧
        ((handleIds st.1).Nodup → (handleIds (st.1 ++ added)).Nodup) := by
  intro to_visit
  induction to_visit with
  | nil =>
    intro st
    exact ⟨[], by simp [visitFunctions], fun g hg => (by cases hg), fun h => (by simpa using h)⟩
  | cons func rest ih =>
    intro st
    simp only [visitFunctions]
    cases hu : SymbolTable.getSymbolUses ctx func.body with
    | none =>
      simp only []
      obtain ⟨added, h1, h2, h3⟩ := ih st
      refine ⟨added, h1, ?_, h3⟩
      intro g hg l hl
      rcases List.mem_cons.1 hg with e | hg'
      · subst e; rw [hu] at hl; cases hl
      · exact h2 g hg' l hl
    | some uses =>
      simp only []
      obtain ⟨a1, e1, c1, n1⟩ := visitUses_spec module uses st
      rw [e1]
      obtain ⟨a2, e2, c2, n2⟩ := ih (st.1 ++ a1, st.2 ++ a1)
      simp only [List.append_assoc] at e2 c2 n2
      refine ⟨a1 ++ a2, e2, ?_, fun hnd => n2 (n1 hnd)⟩
      intro g hg l hl name hn f hf
      rcases List.mem_cons.1 hg with e | hg'
      · subst e
        rw [hu] at hl
        simp only [Option.some.injEq] at hl; subst hl
        have := c1 name hn f hf
        rw [handleIds_append] at this ⊢
        rcases List.mem_append.1 this with h | h
        · exact List.mem_append_left _ h
        · rw [handleIds_append]
          exact List.mem_append_right _ (List.mem_append_left _ h)
      · exact c2 g hg' l hl name hn f hf

theorem handles_length_le {module : ModuleOp} {V : List Operation}
    (hnd : (handleIds V).Nodup) (hsub : ∀ f ∈ V, f ∈ module) : V.length ≤ module.length := by
  have h1 : handleIds V ⊆ handleIds module := by
    intro i hi
    obtain ⟨f, hf, e⟩ := List.mem_map.1 hi
    exact List.mem_map.2 ⟨f, hsub f hf, e⟩
  have := (List.subperm_of_subset hnd h1).length_le
  simpa [handleIds] using this

theorem handle_eq_of_id {V : List Operation} (hnd : (handleIds V).Nodup) {f g : Operation}
    (hf : f ∈ V) (hg : g ∈ V) (e : f.data.id = g.data.id) : f = g :=
  List.inj_on_of_nodup_map hnd hf hg e

/-- The `while` loop of `GetReachableFunctionsFromRegion` never runs out of
fuel before `functions_to_visit` is empty, and what it returns holds the
functions visited so far and is closed under the references of the functions
it holds. -/
theorem visitLoop_spec (ctx : MLIRContext) (module : ModuleOp) :
    ∀ (fuel : Nat) (V T : List Operation),
      (∀ f ∈ T, f ∈ V) → (handleIds V).Nodup → (∀ f ∈ V, f ∈ module) →
      (∀ g ∈ V, g.data.id ∉ handleIds T → ClosedUnder ctx module V g) →
      (T ≠ [] → module.length + 1 ≤ fuel + V.length) →
      (∀ f ∈ V, f ∈ visitLoop ctx module fuel V T) ∧
      (∀ g ∈ visitLoop ctx module fuel V T,
        ClosedUnder ctx module (visitLoop ctx module fuel V T) g) := by
  intro fuel
  induction fuel with
  | zero =>
    intro V T _ hnd hmod hclosed hfuel
    have hT : T = [] := by
      by_contra hne
      have := hfuel hne
      have := handles_length_le hnd hmod
      omega
    subst hT
    simp only [visitLoop]
    exact ⟨fun f hf => hf, fun g hg => hclosed g hg (by simp [handleIds])⟩
  | succ k ih =>
    intro V T hTV hnd hmod hclosed hfuel
    simp only [visitLoop]
    by_cases hT : T.isEmpty = true
    · simp only [hT, if_true]
      have hT' : T = [] := List.isEmpty_iff.1 hT
      subst hT'
      exact ⟨fun f hf => hf, fun g hg => hclosed g hg (by simp [handleIds])⟩
    · simp only [hT, if_false]
      have hTne : T ≠ [] := fun e => hT (by rw [e]; rfl)
      obtain ⟨added, e, c, n⟩ := visitFunctions_spec ctx module T (V, [])
      simp only [List.nil_append] at e c n
      rw [e]
      have hmod' : ∀ f ∈ V ++ added, f ∈ module := by
        have := visitFunctions_forall ctx module (fun f => f ∈ module)
          (fun _ _ _ _ _ _ _ h => lookupFuncOp_mem h) T (V, [])
          (fun f hf => hmod f (hTV f hf)) hmod (by intro f hf; cases hf)
        rw [e] at this
        exact this.1
      have := ih (V ++ added) added (fun f hf => List.mem_append_right _ hf) (n hnd) hmod'
        (by
          intro g hg hnot
          have hgV : g ∈ V := by
            rcases List.mem_append.1 hg with h | h
            · exact h
            · exact absurd (List.mem_map.2 ⟨g, h, rfl⟩) hnot
          by_cases hgT : g.data.id ∈ handleIds T
          · obtain ⟨t, ht, et⟩ := List.mem_map.1 hgT
            have : t = g := handle_eq_of_id hnd (hTV t ht) hgV et
            subst this
            exact c t ht
          · intro l hl name hn f hf
            have := hclosed g hgV hgT l hl name hn f hf
            rw [handleIds_append]
            exact List.mem_append_left _ this)
        (by
          intro hadd
          have h1 := hfuel hTne
          have h2 : 1 ≤ added.length := by
            cases added with
            | nil => exact absurd rfl hadd
            | cons a l => simp
          simp only [List.length_append]
          omega)
      exact ⟨fun f hf => this.1 f (List.mem_append_left _ hf), this.2⟩

theorem toplevel_eq_of_id {module : ModuleOp} (hnd : NodupIds module) {f g : Operation}
    (hf : f ∈ module) (hg : g ∈ module) (e : f.data.id = g.data.id) : f = g := by
  unfold NodupIds at hnd
  rw [ids_eq] at hnd
  exact List.inj_on_of_nodup_map hnd (mem_allOpsBlock_of_mem hf) (mem_allOpsBlock_of_mem hg) e

theorem lookupFuncOp_isFuncOp {module : ModuleOp} {name : String} {f : Operation}
    (h : SymbolTable.lookupFuncOp module name = some f) : isFuncOp f.data = true := by
  unfold SymbolTable.lookupFuncOp at h
  cases hl : SymbolTable.lookup module name with
  | none => simp [hl] at h
  | some op =>
    simp only [hl] at h
    split at h
    · rename_i hfo
      simp only [Option.some.injEq] at h
      subst h; exact hfo
    · cases h

theorem ReachableFrom_mem {module : ModuleOp} {region : Region} {f : Operation}
    (h : ReachableFrom module region f) : f ∈ module ∧ isFuncOp f.data = true := by
  cases h with
  | direct hr =>
    obtain ⟨_, _, _, _, hl⟩ := hr
    exact ⟨lookupFuncOp_mem hl, lookupFuncOp_isFuncOp hl⟩
  | step _ hr =>
    obtain ⟨_, _, _, _, hl⟩ := hr
    exact ⟨lookupFuncOp_mem hl, lookupFuncOp_isFuncOp hl⟩

/-- C5 as stated fails: the one operation of `unknownRegion` names the function
`A` of the module, so there is a chain of one reference from the region to `A`,
and `GetReachableFunctionsFromRegion` returns no function at all, because the
symbol uses of the region are unknown (`if (!symbol_uses) return {}`). -/
theorem GetReachable_exact_counterexample :
    ReachableFrom [loneFunction] unknownRegion loneFunction ∧
    (GetReachableFunctionsFromRegion exampleContext [loneFunction] unknownRegion).length = 0 :=
  ⟨.direct ⟨⟨1, ⟨"foo", "call"⟩, [("callee", .SymbolRefAttr "A")], [], 0⟩, by decide, "A",
    by decide, by rfl⟩, by decide⟩

/-- C5, amended: on a module with distinct ids, when the symbol uses of the
region and of the bodies of the functions of the module are known and no
nested symbol table hides a reference (`usesKnown`),
`GetReachableFunctionsFromRegion` returns exactly the functions to which a
chain of one or more symbol references, each resolving in the symbol table of
the module to a function, leads from an operation of the region; a reference
that resolves to no function adds nothing. -/
theorem GetReachable_exact (ctx : MLIRContext) (module : ModuleOp) (region : Region)
    (hnd : NodupIds module) (hreg : usesKnown ctx region)
    (hfun : ∀ g ∈ module, isFuncOp g.data = true → usesKnown ctx g.body) (f : Operation) :
    f ∈ GetReachableFunctionsFromRegion ctx module region ↔ ReachableFrom module region f := by
  constructor
  · intro hf
    refine GetReachable_forall ctx module region (ReachableFrom module region) ?_ ?_ f hf
    · intro uses hu name hn g hg
      obtain ⟨n, hn1, hn2⟩ := symbolUsesBlock_sub ctx region uses hu name hn
      exact .direct ⟨n, hn1, name, hn2, hg⟩
    · intro g hg uses hu name hn g' hg'
      obtain ⟨n, hn1, hn2⟩ := symbolUsesBlock_sub ctx g.body uses hu name hn
      exact .step hg ⟨n, hn1, name, hn2, hg'⟩
  · intro hr
    obtain ⟨l0, hl0, hsub0⟩ := symbolUsesBlock_known ctx region hreg
    have hRmem := GetReachable_mem ctx module region
    unfold GetReachableFunctionsFromRegion at hRmem ⊢
    simp only [SymbolTable.getSymbolUses, hl0] at hRmem ⊢
    obtain ⟨s1, s2, s3⟩ := seedFunctions_spec module l0 []
    have hSmod : ∀ g ∈ seedFunctions module l0 [], g ∈ module :=
      seedFunctions_forall module (fun g => g ∈ module) l0 []
        (fun _ _ _ h => lookupFuncOp_mem h) (by intro g hg; cases hg)
    have hSnd : (handleIds (seedFunctions module l0 [])).Nodup := s3 (by simp [handleIds])
    obtain ⟨hV, hC⟩ := visitLoop_spec ctx module (module.length + 1)
      (seedFunctions module l0 []) (seedFunctions module l0 []) (fun g hg => hg) hSnd hSmod
      (fun g hg hnot => absurd (List.mem_map.2 ⟨g, hg, rfl⟩) hnot)
      (fun _ => by omega)
    induction hr with
    | direct href =>
      obtain ⟨n, hn, name, hname, hl⟩ := href
      have hid := s2 name (hsub0 n hn name hname) _ hl
      obtain ⟨s, hs, es⟩ := List.mem_map.1 hid
      have : s = _ := toplevel_eq_of_id hnd (hSmod s hs) (lookupFuncOp_mem hl) es
      rw [← this]
      exact hV s hs
    | step hg href ih =>
      rename_i g f'
      obtain ⟨n, hn, name, hname, hl⟩ := href
      have hgm := ReachableFrom_mem hg
      obtain ⟨l, hlu, hsub⟩ := symbolUsesBlock_known ctx g.body (hfun g hgm.1 hgm.2)
      have hid := hC g ih l hlu name (hsub n hn name hname) _ hl
      obtain ⟨r, hr', er⟩ := List.mem_map.1 hid
      have : r = _ := toplevel_eq_of_id hnd (hRmem r hr') (lookupFuncOp_mem hl) er
      rw [← this]
      exact hr'

/-- C5, amended, on two functions that call each other: the region names `A`
(and a symbol that is no function), `A` calls `B`, `B` calls `A`, and the
result is `A` and `B`. -/
theorem GetReachable_exact_witness :
    handleIds (GetReachableFunctionsFromRegion exampleContext cycleModule cycleRegion)
      = [10, 20] ∧
    (cycleB ∈ GetReachableFunctionsFromRegion exampleContext cycleModule cycleRegion ↔
      ReachableFrom cycleModule cycleRegion cycleB) :=
  ⟨by decide,
    GetReachable_exact exampleContext cycleModule cycleRegion (by decide) (by decide)
      (by decide) cycleB⟩

theorem launchWellFormed_iff (op : Operation) :
    launchWellFormed op = true ↔
      ∃ (ops : Block) (t : Operation), op.regions = [ops ++ [t]] ∧
        t.data.name = ReturnOpName ∧ t.regions = [] := by
  unfold launchWellFormed
  constructor
  · intro h
    split at h
    · rename_i body hb
      split at h
      · rename_i t ht
        simp only [Bool.and_eq_true, beq_iff_eq, List.isEmpty_iff] at h
        refine ⟨body.dropLast, t, ?_, h.1, h.2⟩
        rw [hb]
        congr 1
        have := List.dropLast_append_getLast? t ht
        exact this.symm
      · cases h
    · cases h
  · rintro ⟨ops, t, hr, hn, hreg⟩
    simp [hr, hn, hreg]

theorem allOps_body_sub (op : Operation) : ∀ y ∈ allOpsBlock op.body, y ∈ op.allOps := by
  cases op with
  | mk data regions =>
    cases regions with
    | nil => simp [Operation.body, allOpsBlock]
    | cons r rs =>
      intro y hy
      simp only [Operation.body] at hy
      simp [Operation.allOps, allOpsRegions, hy]

theorem allOps_dropLast_sub (b : Block) : ∀ y ∈ allOpsBlock b.dropLast, y ∈ allOpsBlock b := by
  rcases List.eq_nil_or_concat b with h | ⟨l, a, h⟩
  · subst h; simp
  · subst h
    intro y hy
    simp only [List.concat_eq_append, List.dropLast_concat] at hy ⊢
    rw [allOpsBlock_append]
    exact List.mem_append_left _ hy

mutual
theorem allOps_rewriteOp (id : Nat) (f : Operation → List Operation)
    (hf : ∀ o, ∀ y ∈ allOpsBlock (f o), y ∈ o.allOps) :
    ∀ (o : Operation), ∀ y ∈ allOpsBlock (rewriteOp id f o),
      y ∈ o.allOps ∨ ∃ data regions, Operation.mk data regions ∈ o.allOps ∧ data.id ≠ id ∧
        y = .mk data (rewriteRegions id f regions)
  | .mk data regions => by
    intro y hy
    by_cases h : data.id = id
    · simp only [rewriteOp, h, if_true] at hy
      exact Or.inl (hf _ y hy)
    · simp only [rewriteOp, h, if_false, allOpsBlock, Operation.allOps, List.append_nil,
        List.mem_append, List.mem_singleton] at hy
      rcases hy with hy | hy
      · rcases allOps_rewriteRegions id f hf regions y hy with h1 | ⟨d, r, h1, h2, h3⟩
        · exact Or.inl (by simp [Operation.allOps, h1])
        · exact Or.inr ⟨d, r, by simp [Operation.allOps, h1], h2, h3⟩
      · exact Or.inr ⟨data, regions, by simp [Operation.allOps], h, hy⟩
theorem allOps_rewriteRegions (id : Nat) (f : Operation → List Operation)
    (hf : ∀ o, ∀ y ∈ allOpsBlock (f o), y ∈ o.allOps) :
    ∀ (rs : List (List Operation)), ∀ y ∈ allOpsRegions (rewriteRegions id f rs),
      y ∈ allOpsRegions rs ∨ ∃ data regions, Operation.mk data regions ∈ allOpsRegions rs ∧
        data.id ≠ id ∧ y = .mk data (rewriteRegions id f regions)
  | [] => by simp [rewriteRegions, allOpsRegions]
  | r :: rs => by
    intro y hy
    simp only [rewriteRegions, allOpsRegions, List.mem_append] at hy ⊢
    rcases hy with hy | hy
    · rcases allOps_rewriteBlock id f hf r y hy with h1 | ⟨d, rg, h1, h2, h3⟩
      · exact Or.inl (Or.inl h1)
      · exact Or.inr ⟨d, rg, Or.inl h1, h2, h3⟩
    · rcases allOps_rewriteRegions id f hf rs y hy with h1 | ⟨d, rg, h1, h2, h3⟩
      · exact Or.inl (Or.inr h1)
      · exact Or.inr ⟨d, rg, Or.inr h1, h2, h3⟩
theorem allOps_rewriteBlock (id : Nat) (f : Operation → List Operation)
    (hf : ∀ o, ∀ y ∈ allOpsBlock (f o), y ∈ o.allOps) :
    ∀ (b : List Operation), ∀ y ∈ allOpsBlock (rewriteBlock id f b),
      y ∈ allOpsBlock b ∨ ∃ data regions, Operation.mk data regions ∈ allOpsBlock b ∧
        data.id ≠ id ∧ y = .mk data (rewriteRegions id f regions)
  | [] => by simp [rewriteBlock, allOpsBlock]
  | o :: rest => by
    intro y hy
    simp only [rewriteBlock, allOpsBlock_append, allOpsBlock, List.mem_append] at hy ⊢
    rcases hy with hy | hy
    · rcases allOps_rewriteOp id f hf o y hy with h1 | ⟨d, rg, h1, h2, h3⟩
      · exact Or.inl (Or.inl h1)
      · exact Or.inr ⟨d, rg, Or.inl h1, h2, h3⟩
    · rcases allOps_rewriteBlock id f hf rest y hy with h1 | ⟨d, rg, h1, h2, h3⟩
      · exact Or.inl (Or.inr h1)
      · exact Or.inr ⟨d, rg, Or.inr h1, h2, h3⟩
end

theorem allOps_spliceBody (launch : Nat) (module : ModuleOp) :
    ∀ y ∈ allOpsBlock (spliceBody launch module),
      y ∈ allOpsBlock module ∨ ∃ data regions, Operation.mk data regions ∈ allOpsBlock module ∧
        data.id ≠ launch ∧
        y = .mk data (rewriteRegions launch (fun o => o.body.dropLast) regions) :=
  allOps_rewriteBlock launch _
    (fun o y hy => allOps_body_sub o y (allOps_dropLast_sub _ y hy)) module

theorem op_eq_of_id {b : Block} (hnd : NodupIds b) {p q : Operation}
    (hp : p ∈ allOpsBlock b) (hq : q ∈ allOpsBlock b) (e : p.data.id = q.data.id) : p = q := by
  unfold NodupIds at hnd
  rw [ids_eq] at hnd
  exact List.inj_on_of_nodup_map hnd hp hq e

mutual
theorem allOps_trans_op :
    ∀ (o : Operation), ∀ op ∈ o.allOps, ∀ y ∈ op.allOps, y ∈ o.allOps
  | .mk data regions => by
    intro op hop y hy
    simp only [Operation.allOps, List.mem_append, List.mem_singleton] at hop
    rcases hop with h | h
    · simp only [Operation.allOps, List.mem_append]
      exact Or.inl (allOps_trans_regions regions op h y hy)
    · subst h; exact hy
theorem allOps_trans_regions :
    ∀ (rs : List (List Operation)), ∀ op ∈ allOpsRegions rs, ∀ y ∈ op.allOps,
      y ∈ allOpsRegions rs
  | [] => by simp [allOpsRegions]
  | r :: rs => by
    intro op hop y hy
    simp only [allOpsRegions, List.mem_append] at hop ⊢
    rcases hop with h | h
    · exact Or.inl (allOps_trans_block r op h y hy)
    · exact Or.inr (allOps_trans_regions rs op h y hy)
theorem allOps_trans_block :
    ∀ (b : List Operation), ∀ op ∈ allOpsBlock b, ∀ y ∈ op.allOps, y ∈ allOpsBlock b
  | [] => by simp [allOpsBlock]
  | o :: rest => by
    intro op hop y hy
    simp only [allOpsBlock, List.mem_append] at hop ⊢
    rcases hop with h | h
    · exact Or.inl (allOps_trans_op o op h y hy)
    · exact Or.inr (allOps_trans_block rest op h y hy)
end

theorem isLaunchOp_return {d : OpData} (h : d.name = ReturnOpName) : isLaunchOp d = false := by
  simp [isLaunchOp, h, ReturnOpName, LaunchOpName]

/-- Splicing out a launch keeps the launches of the module well formed. -/
theorem LaunchesWellFormed_spliceBody (module : ModuleOp) (launch : Operation)
    (hnd : NodupIds module) (hin : launch ∈ allOpsBlock module)
    (hl : isLaunchOp launch.data = true) (hwf : LaunchesWellFormed module) :
    LaunchesWellFormed (spliceBody launch.data.id module) := by
  intro y hy hyl
  rcases allOps_spliceBody launch.data.id module y hy with h | ⟨data, regions, h1, h2, h3⟩
  · exact hwf y h hyl
  · subst h3
    simp only [Operation.data] at hyl
    have hw := hwf _ h1 hyl
    rw [launchWellFormed_iff] at hw ⊢
    obtain ⟨ops, t, hr, hn, hreg⟩ := hw
    simp only [Operation.regions] at hr
    subst hr
    have ht_mem : t ∈ allOpsBlock module := by
      apply allOps_trans_block module _ h1
      have : t ∈ allOpsBlock (ops ++ [t]) := mem_allOpsBlock_of_mem (by simp)
      simp [Operation.allOps, allOpsRegions, this]
    have htid : ¬ t.data.id = launch.data.id := by
      intro e
      have := op_eq_of_id hnd ht_mem hin e
      subst this
      rw [isLaunchOp_return hn] at hl
      cases hl
    refine ⟨rewriteBlock launch.data.id (fun o => o.body.dropLast) ops, t, ?_, hn, hreg⟩
    cases t with
    | mk td tr =>
      simp only [Operation.regions] at hreg
      subst hreg
      have htid' : ¬ td.id = launch.data.id := htid
      simp [Operation.regions, rewriteRegions, rewriteBlock_append, rewriteBlock, rewriteOp, htid']

theorem ids_rewriteOp_sub (a : Nat) (o : Operation) :
    ∀ i ∈ ids (rewriteOp a (fun o => o.body.dropLast) o), i ∈ ids [o] :=
  ((rewriteOp_sublist a _
    (fun op => (nodes_dropLast_sublist op.body).trans (nodes_body_sublist op)) o).map
      OpData.id).subset

theorem ids_rewriteBlock_sub (a : Nat) (b : Block) :
    ∀ i ∈ ids (rewriteBlock a (fun o => o.body.dropLast) b), i ∈ ids b :=
  ((rewriteBlock_sublist a _
    (fun op => (nodes_dropLast_sublist op.body).trans (nodes_body_sublist op)) b).map
      OpData.id).subset

theorem idsRegions_rewriteRegions_sub (a : Nat) (rs : List Region) :
    ∀ i ∈ idsRegions (rewriteRegions a (fun o => o.body.dropLast) rs), i ∈ idsRegions rs := by
  have := (rewriteRegions_sublist a _
    (fun op => (nodes_dropLast_sublist op.body).trans (nodes_body_sublist op)) rs).map OpData.id
  intro i hi
  have e : ∀ rs : List Region, idsRegions rs
      = ((allOpsRegions rs).map Operation.data).map OpData.id := by
    intro rs; simp [idsRegions, List.map_map, Function.comp_def]
  rw [e] at hi ⊢
  exact this.subset hi

theorem mem_ids_of_mem_allOps {op : Operation} {b : Block} (h : op ∈ allOpsBlock b) :
    op.data.id ∈ ids b := by
  rw [ids_eq]; exact List.mem_map.2 ⟨op, h, rfl⟩

theorem mem_idsRegions_of_mem_allOps {op : Operation} {rs : List Region}
    (h : op ∈ allOpsRegions rs) : op.data.id ∈ idsRegions rs :=
  List.mem_map.2 ⟨op, h, rfl⟩

theorem ids_body_sub_block {op : Operation} {b : Block} (h : op ∈ allOpsBlock b) :
    ∀ x ∈ ids op.body, x ∈ ids b := by
  intro x hx
  rw [ids_eq] at hx ⊢
  obtain ⟨y, hy, e⟩ := List.mem_map.1 hx
  exact List.mem_map.2 ⟨y, allOps_trans_block b op h y (allOps_body_sub op y hy), e⟩

theorem ids_body_sub_regions {op : Operation} {rs : List Region} (h : op ∈ allOpsRegions rs) :
    ∀ x ∈ ids op.body, x ∈ idsRegions rs := by
  intro x hx
  rw [ids_eq] at hx
  obtain ⟨y, hy, e⟩ := List.mem_map.1 hx
  exact List.mem_map.2 ⟨y, allOps_trans_regions rs op h y (allOps_body_sub op y hy), e⟩

mutual
/-- Splicing out the operation `a` keeps an operation that survives around
the operations of its body that survive. -/
theorem contains_rewriteOp (a : Nat) :
    ∀ (o : Operation), (ids [o]).Nodup → ∀ op ∈ o.allOps, op.data.id ≠ a →
      op.data.id ∈ ids (rewriteOp a (fun o => o.body.dropLast) o) →
      ∀ x ∈ ids op.body, x ∈ ids (rewriteOp a (fun o => o.body.dropLast) o) →
      ∃ op' ∈ allOpsBlock (rewriteOp a (fun o => o.body.dropLast) o),
        op'.data = op.data ∧ x ∈ ids op'.body
  | .mk data regions => by
    intro hnd op hop hne hsurv x hx hxs
    rw [ids_singleton] at hnd
    have hndr : (idsRegions regions).Nodup := (List.nodup_append.1 hnd).1
    simp only [Operation.allOps, List.mem_append, List.mem_singleton] at hop
    by_cases h : data.id = a
    · simp only [rewriteOp, h, if_true] at hsurv hxs ⊢
      rcases hop with hop | hop
      · rw [ids_eq] at hsurv
        obtain ⟨op2, hop2, e2⟩ := List.mem_map.1 hsurv
        have hop2r : op2 ∈ allOpsRegions regions := by
          have := allOps_body_sub (.mk data regions) op2 (allOps_dropLast_sub _ op2 hop2)
          simp only [Operation.allOps, List.mem_append, List.mem_singleton] at this
          rcases this with h1 | h1
          · exact h1
          · exfalso
            subst h1
            have e2' : data.id = op.data.id := e2
            exact hne (by rw [← e2']; exact h)
        have : op2 = op := List.inj_on_of_nodup_map hndr hop2r hop e2
        subst this
        exact ⟨op2, hop2, rfl, hx⟩
      · subst hop
        exact absurd h hne
    · simp only [rewriteOp, h, if_false] at hsurv hxs ⊢
      rw [ids_singleton] at hsurv hxs
      rcases hop with hop | hop
      · have hid_r : op.data.id ∈ idsRegions regions := mem_idsRegions_of_mem_allOps hop
        have hx_r : x ∈ idsRegions regions := ids_body_sub_regions hop x hx
        have h1 : op.data.id ∈ idsRegions
            (rewriteRegions a (fun o => o.body.dropLast) regions) := by
          rcases List.mem_append.1 hsurv with h1 | h1
          · exact h1
          · simp only [List.mem_singleton] at h1
            exact absurd (by simp [h1]) (fun hh => nodup_append_disjoint hnd hid_r hh)
        have h2 : x ∈ idsRegions (rewriteRegions a (fun o => o.body.dropLast) regions) := by
          rcases List.mem_append.1 hxs with h2 | h2
          · exact h2
          · simp only [List.mem_singleton] at h2
            exact absurd (by simp [h2]) (fun hh => nodup_append_disjoint hnd hx_r hh)
        obtain ⟨op', hop', e1, e2⟩ :=
          contains_rewriteRegions a regions hndr op hop hne h1 x hx h2
        exact ⟨op', by simp [allOpsBlock, Operation.allOps, hop'], e1, e2⟩
      · subst hop
        refine ⟨.mk data (rewriteRegions a (fun o => o.body.dropLast) regions),
          by simp [allOpsBlock, Operation.allOps], rfl, ?_⟩
        cases regions with
        | nil => simp [Operation.body, ids, nodes, allOpsBlock] at hx
        | cons r rs =>
          simp only [Operation.body] at hx
          simp only [rewriteRegions, Operation.body]
          simp only [rewriteRegions] at hxs
          rw [idsRegions_cons] at hxs hndr hnd
          rcases List.mem_append.1 hxs with h2 | h2
          · rcases List.mem_append.1 h2 with h3 | h3
            · exact h3
            · exact absurd (idsRegions_rewriteRegions_sub a rs x h3)
                (fun hh => nodup_append_disjoint hndr hx hh)
          · simp only [List.mem_singleton] at h2
            exact absurd (by simp [h2])
              (fun hh => nodup_append_disjoint hnd (List.mem_append_left _ hx) hh)
theorem contains_rewriteRegions (a : Nat) :
    ∀ (rs : List (List Operation)), (idsRegions rs).Nodup → ∀ op ∈ allOpsRegions rs,
      op.data.id ≠ a →
      op.data.id ∈ idsRegions (rewriteRegions a (fun o => o.body.dropLast) rs) →
      ∀ x ∈ ids op.body, x ∈ idsRegions (rewriteRegions a (fun o => o.body.dropLast) rs) →
      ∃ op' ∈ allOpsRegions (rewriteRegions a (fun o => o.body.dropLast) rs),
        op'.data = op.data ∧ x ∈ ids op'.body
  | [] => by simp [allOpsRegions]
  | r :: rs => by
    intro hnd op hop hne hsurv x hx hxs
    simp only [rewriteRegions] at hsurv hxs ⊢
    rw [idsRegions_cons] at hnd hsurv hxs
    simp only [allOpsRegions, List.mem_append] at hop ⊢
    rcases hop with hop | hop
    · have hid_r : op.data.id ∈ ids r := mem_ids_of_mem_allOps hop
      have hx_r : x ∈ ids r := ids_body_sub_block hop x hx
      have h1 : op.data.id ∈ ids (rewriteBlock a (fun o => o.body.dropLast) r) := by
        rcases List.mem_append.1 hsurv with h1 | h1
        · exact h1
        · exact absurd (idsRegions_rewriteRegions_sub a rs _ h1)
            (fun hh => nodup_append_disjoint hnd hid_r hh)
      have h2 : x ∈ ids (rewriteBlock a (fun o => o.body.dropLast) r) := by
        rcases List.mem_append.1 hxs with h2 | h2
        · exact h2
        · exact absurd (idsRegions_rewriteRegions_sub a rs _ h2)
            (fun hh => nodup_append_disjoint hnd hx_r hh)
      obtain ⟨op', hop', e1, e2⟩ :=
        contains_rewriteBlock a r (List.nodup_append.1 hnd).1 op hop hne h1 x hx h2
      exact ⟨op', Or.inl hop', e1, e2⟩
    · have hid_r : op.data.id ∈ idsRegions rs := mem_idsRegions_of_mem_allOps hop
      have hx_r : x ∈ idsRegions rs := ids_body_sub_regions hop x hx
      have h1 : op.data.id ∈ idsRegions (rewriteRegions a (fun o => o.body.dropLast) rs) := by
        rcases List.mem_append.1 hsurv with h1 | h1
        · exact absurd (ids_rewriteBlock_sub a r _ h1)
            (fun hh => nodup_append_disjoint hnd hh hid_r)
        · exact h1
      have h2 : x ∈ idsRegions (rewriteRegions a (fun o => o.body.dropLast) rs) := by
        rcases List.mem_append.1 hxs with h2 | h2
        · exact absurd (ids_rewriteBlock_sub a r _ h2)
            (fun hh => nodup_append_disjoint hnd hh hx_r)
        · exact h2
      obtain ⟨op', hop', e1, e2⟩ :=
        contains_rewriteRegions a rs (List.nodup_append.1 hnd).2.1 op hop hne h1 x hx h2
      exact ⟨op', Or.inr hop', e1, e2⟩
theorem contains_rewriteBlock (a : Nat) :
    ∀ (b : List Operation), (ids b).Nodup → ∀ op ∈ allOpsBlock b, op.data.id ≠ a →
      op.data.id ∈ ids (rewriteBlock a (fun o => o.body.dropLast) b) →
      ∀ x ∈ ids op.body, x ∈ ids (rewriteBlock a (fun o => o.body.dropLast) b) →
      ∃ op' ∈ allOpsBlock (rewriteBlock a (fun o => o.body.dropLast) b),
        op'.data = op.data ∧ x ∈ ids op'.body
  | [] => by simp [allOpsBlock]
  | o :: rest => by
    intro hnd op hop hne hsurv x hx hxs
    have e : o :: rest = [o] ++ rest := rfl
    simp only [rewriteBlock] at hsurv hxs ⊢
    rw [e, ids_append] at hnd
    rw [ids_append] at hsurv hxs
    rw [allOpsBlock_append]
    simp only [allOpsBlock, List.mem_append] at hop ⊢
    rcases hop with hop | hop
    · have hop1 : op ∈ allOpsBlock [o] := by simp [allOpsBlock, hop]
      have hid_r : op.data.id ∈ ids [o] := mem_ids_of_mem_allOps hop1
      have hx_r : x ∈ ids [o] := ids_body_sub_block hop1 x hx
      have h1 : op.data.id ∈ ids (rewriteOp a (fun o => o.body.dropLast) o) := by
        rcases List.mem_append.1 hsurv with h1 | h1
        · exact h1
        · exact absurd (ids_rewriteBlock_sub a rest _ h1)
            (fun hh => nodup_append_disjoint hnd hid_r hh)
      have h2 : x ∈ ids (rewriteOp a (fun o => o.body.dropLast) o) := by
        rcases List.mem_append.1 hxs with h2 | h2
        · exact h2
        · exact absurd (ids_rewriteBlock_sub a rest _ h2)
            (fun hh => nodup_append_disjoint hnd hx_r hh)
      obtain ⟨op', hop', e1, e2⟩ :=
        contains_rewriteOp a o (List.nodup_append.1 hnd).1 op hop hne h1 x hx h2
      exact ⟨op', Or.inl hop', e1, e2⟩
    · have hid_r : op.data.id ∈ ids rest := mem_ids_of_mem_allOps hop
      have hx_r : x ∈ ids rest := ids_body_sub_block hop x hx
      have h1 : op.data.id ∈ ids (rewriteBlock a (fun o => o.body.dropLast) rest) := by
        rcases List.mem_append.1 hsurv with h1 | h1
        · exact absurd (ids_rewriteOp_sub a o _ h1)
            (fun hh => nodup_append_disjoint hnd hh hid_r)
        · exact h1
      have h2 : x ∈ ids (rewriteBlock a (fun o => o.body.dropLast) rest) := by
        rcases List.mem_append.1 hxs with h2 | h2
        · exact absurd (ids_rewriteOp_sub a o _ h2)
            (fun hh => nodup_append_disjoint hnd hh hx_r)
        · exact h2
      obtain ⟨op', hop', e1, e2⟩ :=
        contains_rewriteBlock a rest (List.nodup_append.1 hnd).2.1 op hop hne h1 x hx h2
      exact ⟨op', Or.inr hop', e1, e2⟩
end

theorem node_eq_of_id {b : Block} (hnd : NodupIds b) {p q : OpData}
    (hp : p ∈ nodes b) (hq : q ∈ nodes b) (e : p.id = q.id) : p = q :=
  List.inj_on_of_nodup_map hnd hp hq e

theorem mem_nodes_of_mem_allOps {op : Operation} {b : Block} (h : op ∈ allOpsBlock b) :
    op.data ∈ nodes b :=
  List.mem_map.2 ⟨op, h, rfl⟩

/-- Splicing out a well-formed launch removes the launch and its terminator
and nothing else. -/
theorem mem_nodes_spliceBody (module : ModuleOp) (launch : Operation) (hnd : NodupIds module)
    (hin : launch ∈ allOpsBlock module) (hwf : launchWellFormed launch = true) (n : OpData)
    (hn : n ∈ nodes module) (hid : n.id ≠ launch.data.id) (hname : n.name ≠ ReturnOpName) :
    n ∈ nodes (spliceBody launch.data.id module) := by
  obtain ⟨C, before, after, e⟩ := mem_allOpsBlock_plug module launch hin
  subst e
  have hsp := rewriteBlock_plug launch.data.id (fun o => o.body.dropLast) C before after
    launch rfl hnd
  unfold spliceBody
  rw [hsp]
  obtain ⟨A, B, hAB⟩ := nodes_plug C
  rw [hAB] at hn ⊢
  rw [launchWellFormed_iff] at hwf
  obtain ⟨ops, t, hr, htn, htr⟩ := hwf
  cases launch with
  | mk ldata lregions =>
    simp only [Operation.regions] at hr
    subst hr
    cases t with
    | mk td tregions =>
      simp only [Operation.regions] at htr
      subst htr
      simp only [Operation.body, List.dropLast_concat]
      have e2 : before ++ Operation.mk ldata [ops ++ [Operation.mk td []]] :: after
          = before ++ ([Operation.mk ldata [ops ++ [Operation.mk td []]]] ++ after) := by simp
      rw [e2, nodes_append, nodes_append, nodes_singleton] at hn
      simp only [allOpsRegions, List.append_nil, allOpsBlock_append, List.map_append,
        List.mem_append] at hn
      rw [nodes_append, nodes_append]
      simp only [List.mem_append]
      rcases hn with (hn | (hn | (((hn | hn) | hn) | hn))) | hn
      · exact Or.inl (Or.inl hn)
      · exact Or.inl (Or.inr (Or.inl (Or.inl hn)))
      · exact Or.inl (Or.inr (Or.inl (Or.inr hn)))
      · exfalso
        simp only [allOpsBlock, Operation.allOps, allOpsRegions, List.nil_append,
          List.append_nil, List.map_cons, List.map_nil, List.mem_singleton] at hn
        subst hn
        exact hname htn
      · exfalso
        simp only [List.mem_singleton] at hn
        subst hn
        exact hid rfl
      · exact Or.inl (Or.inr (Or.inr hn))
      · exact Or.inr hn

theorem launchWellFormed_mapDataOp (G : OpData → OpData) (hG : ∀ d, (G d).name = d.name)
    (op : Operation) (h : launchWellFormed op = true) :
    launchWellFormed (mapDataOp G op) = true := by
  rw [launchWellFormed_iff] at h ⊢
  obtain ⟨ops, t, hr, hn, hreg⟩ := h
  refine ⟨mapDataBlock G ops, mapDataOp G t, ?_, ?_, ?_⟩
  · rw [regions_mapDataOp, hr]
    simp [mapDataBlock_append, mapDataBlock]
  · rw [data_mapDataOp, hG, hn]
  · rw [regions_mapDataOp, hreg]; rfl

theorem LaunchesWellFormed_mapData (G : OpData → OpData) (hG : ∀ d, (G d).name = d.name)
    (b : Block) (h : LaunchesWellFormed b) : LaunchesWellFormed (mapDataBlock G b) := by
  intro y hy hyl
  rw [allOpsBlock_mapData] at hy
  obtain ⟨op, hop, rfl⟩ := List.mem_map.1 hy
  rw [data_mapDataOp, isLaunchOp_congr (hG op.data)] at hyl
  exact launchWellFormed_mapDataOp G hG op (h op hop hyl)

theorem inFamily_launch (ctx : MLIRContext) {d : OpData} (h : isLaunchOp d = true) :
    inFamily ctx "tf" d = false := by
  have hn : d.name = LaunchOpName := by simpa [isLaunchOp] using h
  simp only [inFamily, OpData.getDialect, MLIRContext.getLoadedDialect,
    IsSupportedExecutorDialectOp, hn, LaunchOpName]
  by_cases hl : "tf_device" ∈ ctx.loadedDialects
  · simp [hl]; decide
  · simp [hl]; decide

theorem inFamily_return (ctx : MLIRContext) {d : OpData} (h : d.name = ReturnOpName) :
    inFamily ctx "tf" d = false := by
  simp only [inFamily, OpData.getDialect, MLIRContext.getLoadedDialect,
    IsSupportedExecutorDialectOp, h, ReturnOpName]
  by_cases hl : "tf_device" ∈ ctx.loadedDialects
  · simp [hl]; decide
  · simp [hl]; decide

theorem LaunchOp.device_congr {n n' : OpData} (h : n'.attrs = n.attrs) :
    LaunchOp.device n' = LaunchOp.device n := by
  simp [LaunchOp.device, OpData.getAttr, h]

/-- What a successful hoist of a launch keeps: distinct ids, well-formed
launches, every other launch around the operations of the family it held, and
the devices that were assigned. -/
theorem Hoist_keeps (ctx : MLIRContext) (module : ModuleOp) (launch : Operation)
    (hnd : NodupIds module) (hwf : LaunchesWellFormed module)
    (hin : findOp module launch.data.id = some launch)
    (hl : isLaunchOp launch.data = true)
    (hok : failed (HoistOpsAndAnnotateWithDevice ctx "tf" module launch).2 = false) :
    LaunchesWellFormed (HoistOpsAndAnnotateWithDevice ctx "tf" module launch).1 ∧
    (∀ t d xid, t ≠ launch.data.id → Holds ctx module t d xid →
      Holds ctx (HoistOpsAndAnnotateWithDevice ctx "tf" module launch).1 t d xid) ∧
    (∀ xid d, d ≠ "" → Assigned ctx module xid d →
      Assigned ctx (HoistOpsAndAnnotateWithDevice ctx "tf" module launch).1 xid d) ∧
    (∀ d xid, Holds ctx module launch.data.id d xid →
      Assigned ctx (HoistOpsAndAnnotateWithDevice ctx "tf" module launch).1 xid d) := by
  have hmem := (findOp_some_mem hin).1
  obtain ⟨G, hE, e⟩ := Hoist_success ctx "tf" module launch hnd hmem hok
  have hGid : ∀ d, (G d).id = d.id := fun d => (hE.1 d).1
  have hGname : ∀ d, (G d).name = d.name := fun d => (hE.1 d).2.1
  have hlw := hwf launch hmem hl
  have hnd' : NodupIds (HoistOpsAndAnnotateWithDevice ctx "tf" module launch).1 :=
    (Hoist_success_remaining ctx "tf" module launch hnd hin hok).1
  -- a node of the family other than the launch survives, updated by `G`
  have hsurv : ∀ n ∈ nodes module, n.id ≠ launch.data.id → n.name ≠ ReturnOpName →
      G n ∈ nodes (HoistOpsAndAnnotateWithDevice ctx "tf" module launch).1 := by
    intro n hn h1 h2
    rw [e, nodes_mapData]
    exact List.mem_map_of_mem G (mem_nodes_spliceBody module launch hnd hmem hlw n hn h1 h2)
  have hfam_name : ∀ n : OpData, inFamily ctx "tf" n = true → n.name ≠ ReturnOpName := by
    intro n hf hn
    rw [inFamily_return ctx hn] at hf; cases hf
  have hfam_id : ∀ n ∈ nodes module, inFamily ctx "tf" n = true → n.id ≠ launch.data.id := by
    intro n hn hf hid
    have := node_eq_of_id hnd hn (mem_nodes_of_mem_allOps hmem) hid
    rw [this, inFamily_launch ctx hl] at hf; cases hf
  refine ⟨?_, ?_, ?_, ?_⟩
  · rw [e]
    exact LaunchesWellFormed_mapData G hGname _
      (LaunchesWellFormed_spliceBody module launch hnd hmem hl hwf)
  · rintro t d xid hne ⟨T, xn, hT, hTl, hTd, hxn, hxid, hxf, hxb⟩
    have hTm := (findOp_some_mem hT).1
    have hTid := (findOp_some_mem hT).2
    have hTname : T.data.name ≠ ReturnOpName := by
      intro hn
      rw [isLaunchOp_return hn] at hTl; cases hTl
    have h1 : T.data ∈ nodes (spliceBody launch.data.id module) :=
      mem_nodes_spliceBody module launch hnd hmem hlw _ (mem_nodes_of_mem_allOps hTm)
        (by rw [hTid]; exact hne) hTname
    have h2 : xn ∈ nodes (spliceBody launch.data.id module) :=
      mem_nodes_spliceBody module launch hnd hmem hlw _ hxn (hfam_id xn hxn hxf)
        (hfam_name xn hxf)
    obtain ⟨op', hop', e1, e2⟩ := contains_rewriteBlock launch.data.id module hnd T hTm
      (by rw [hTid]; exact hne) (mem_ids_of_mem_nodes h1) xid hxb
      (by rw [← hxid]; exact mem_ids_of_mem_nodes h2)
    have hop'' : mapDataOp G op' ∈
        allOpsBlock (HoistOpsAndAnnotateWithDevice ctx "tf" module launch).1 := by
      rw [e, allOpsBlock_mapData]
      exact List.mem_map_of_mem _ hop'
    have hfind := findOp_of_mem hnd' hop''
    rw [data_mapDataOp, hGid, e1, hTid] at hfind
    have hattrs : (G T.data).attrs = T.data.attrs := by
      rcases hE.2.1 T.data with h | ⟨hf, _⟩
      · exact h
      · rw [inFamily_launch ctx hTl] at hf; cases hf
    refine ⟨mapDataOp G op', G xn, hfind, ?_, ?_, ?_, ?_, ?_, ?_⟩
    · rw [data_mapDataOp, e1, isLaunchOp_congr (hGname _)]; exact hTl
    · rw [data_mapDataOp, e1, LaunchOp.device_congr hattrs]; exact hTd
    · exact hsurv xn hxn (hfam_id xn hxn hxf) (hfam_name xn hxf)
    · rw [hGid]; exact hxid
    · rw [inFamily_congr ctx "tf" (hGname xn)]; exact hxf
    · rw [body_mapDataOp, ids_mapData G hGid]; exact e2
  · rintro xid d hd ⟨xn, hxn, hxid, hxf, hxd⟩
    refine ⟨G xn, hsurv xn hxn (hfam_id xn hxn hxf) (hfam_name xn hxf), ?_, ?_, ?_⟩
    · rw [hGid]; exact hxid
    · rw [inFamily_congr ctx "tf" (hGname xn)]; exact hxf
    · rcases hE.2.1 xn with h | ⟨_, hu, _⟩
      · simpa [OpData.getAttr, h] using hxd
      · exfalso
        rcases hu with hu | hu
        · rw [hu] at hxd; cases hxd
        · rw [hu] at hxd
          simp only [Option.some.injEq, Attribute.StringAttr.injEq] at hxd
          exact hd hxd.symm
  · rintro d xid ⟨T, xn, hT, _, hTd, hxn, hxid, hxf, hxb⟩
    rw [hin] at hT
    simp only [Option.some.injEq] at hT
    subst hT
    refine ⟨G xn, hsurv xn hxn (hfam_id xn hxn hxf) (hfam_name xn hxf), ?_, ?_, ?_⟩
    · rw [hGid]; exact hxid
    · rw [inFamily_congr ctx "tf" (hGname xn)]; exact hxf
    · rw [← hTd]
      exact hE.2.2 xn hxn (List.mem_append_left _ (by rw [hxid]; exact hxb)) hxf

/-- A hoist fails when the launch holds in its body an operation of the
family with a non-empty device other than its own. -/
theorem Hoist_fails_of_conflict (ctx : MLIRContext) (module : ModuleOp) (launch : Operation)
    (xid : Nat) (d1 d2 : String) (hnd : NodupIds module)
    (hin : findOp module launch.data.id = some launch)
    (hH : Holds ctx module launch.data.id d2 xid) (hA : Assigned ctx module xid d1)
    (hd1 : d1 ≠ "") (hdiff : d1 ≠ d2) :
    failed (HoistOpsAndAnnotateWithDevice ctx "tf" module launch).2 = true := by
  cases hres : failed (HoistOpsAndAnnotateWithDevice ctx "tf" module launch).2 with
  | true => rfl
  | false =>
    exfalso
    obtain ⟨G, hE, _⟩ := Hoist_success ctx "tf" module launch hnd (findOp_some_mem hin).1 hres
    obtain ⟨T, xn, hT, _, hTd, hxn, hxid, hxf, hxb⟩ := hH
    rw [hin] at hT
    simp only [Option.some.injEq] at hT
    subst hT
    obtain ⟨xn', hxn', hxid', _, hxd⟩ := hA
    have : xn' = xn := node_eq_of_id hnd hxn' hxn (hxid'.trans hxid.symm)
    subst this
    have hdev := hE.2.2 xn' hxn (List.mem_append_left _ (by rw [hxid]; exact hxb)) hxf
    rw [hTd] at hdev
    rcases hE.2.1 xn' with h | ⟨_, hu, _⟩
    · simp only [OpData.getAttr, h] at hdev
      simp only [OpData.getAttr] at hxd
      rw [hdev] at hxd
      simp only [Option.some.injEq, Attribute.StringAttr.injEq] at hxd
      exact hdiff hxd.symm
    · rcases hu with hu | hu
      · rw [hu] at hxd; cases hxd
      · rw [hu] at hxd
        simp only [Option.some.injEq, Attribute.StringAttr.injEq] at hxd
        exact hd1 hxd.symm

theorem launches_kept (ctx : MLIRContext) (module : ModuleOp) (launch : Operation)
    (S : List Nat) (hnd : NodupIds module) (hin : findOp module launch.data.id = some launch)
    (hok : failed (HoistOpsAndAnnotateWithDevice ctx "tf" module launch).2 = false)
    (hS : ∀ n ∈ nodes module, n.id ∈ S → isLaunchOp n = true) :
    ∀ n ∈ nodes (HoistOpsAndAnnotateWithDevice ctx "tf" module launch).1, n.id ∈ S →
      isLaunchOp n = true := by
  intro n hn hs
  obtain ⟨n0, hn0, e1, e2, _⟩ :=
    (Hoist_success_remaining ctx "tf" module launch hnd hin hok).2 n hn
  rw [← isLaunchOp_congr e2]
  exact hS n0 hn0 (by rw [e1]; exact hs)

/-- The walk over the launches is interrupted once the outer launch `o` holds
an operation of the family whose device is `d1`, non-empty and not the device
`d2` of `o`, and `o` is still to be walked. -/
theorem walk_after_inner (ctx : MLIRContext) (o xid : Nat) (d1 d2 : String) (hd1 : d1 ≠ "")
    (hdiff : d1 ≠ d2) :
    ∀ (todo : List Nat) (m : ModuleOp), NodupIds m → LaunchesWellFormed m →
      (∀ n ∈ nodes m, n.id ∈ todo → isLaunchOp n = true) →
      Holds ctx m o d2 xid → Assigned ctx m xid d1 → o ∈ todo →
      (walkLaunchOps ctx "tf" todo m).2.wasInterrupted = true := by
  intro todo
  induction todo with
  | nil => intro m _ _ _ _ _ ho; cases ho
  | cons a rest ih =>
    intro m hnd hwf hS hH hA ho
    simp only [walkLaunchOps]
    cases hf : findOp m a with
    | none =>
      simp only []
      have hne : o ≠ a := by
        intro e
        obtain ⟨T, _, hT, _⟩ := hH
        rw [e, hf] at hT; cases hT
      exact ih m hnd hwf (fun n hn hs => hS n hn (List.mem_cons_of_mem _ hs)) hH hA
        ((List.mem_cons.1 ho).resolve_left hne)
    | some L =>
      simp only []
      have hLid : L.data.id = a := (findOp_some_mem hf).2
      have hin : findOp m L.data.id = some L := by rw [hLid]; exact hf
      have hLl : isLaunchOp L.data = true :=
        hS _ (mem_nodes_of_mem_allOps (findOp_some_mem hf).1) (by rw [hLid]; simp)
      cases hr : (HoistOpsAndAnnotateWithDevice ctx "tf" m L).2 with
      | failure d => rfl
      | success =>
        simp only []
        have hok : failed (HoistOpsAndAnnotateWithDevice ctx "tf" m L).2 = false := by
          rw [hr]; rfl
        by_cases hoa : o = a
        · exfalso
          have := Hoist_fails_of_conflict ctx m L xid d1 d2 hnd hin
            (by rw [hLid, ← hoa]; exact hH) hA hd1 hdiff
          rw [hok] at this; cases this
        · obtain ⟨hwf', hkeep, hass, _⟩ := Hoist_keeps ctx m L hnd hwf hin hLl hok
          exact ih _ (Hoist_success_remaining ctx "tf" m L hnd hin hok).1 hwf'
            (launches_kept ctx m L rest hnd hin hok
              (fun n hn hs => hS n hn (List.mem_cons_of_mem _ hs)))
            (hkeep o d2 xid (by rw [hLid]; exact hoa) hH) (hass xid d1 hd1 hA)
            ((List.mem_cons.1 ho).resolve_left hoa)

/-- The walk over the launches is interrupted when the inner launch `i`, with
a non-empty device `d1`, and the outer launch `o`, with another device `d2`,
both hold the same operation of the family, and `i` is walked before `o`. -/
theorem walk_before_inner (ctx : MLIRContext) (i o xid : Nat) (d1 d2 : String) (hd1 : d1 ≠ "")
    (hdiff : d1 ≠ d2) (hio : o ≠ i) (l2 : List Nat) (ho2 : o ∈ l2) :
    ∀ (l1 : List Nat) (m : ModuleOp), NodupIds m → LaunchesWellFormed m →
      (∀ n ∈ nodes m, n.id ∈ l1 ++ i :: l2 → isLaunchOp n = true) →
      Holds ctx m i d1 xid → Holds ctx m o d2 xid → i ∉ l1 → o ∉ l1 →
      (walkLaunchOps ctx "tf" (l1 ++ i :: l2) m).2.wasInterrupted = true := by
  intro l1
  induction l1 with
  | nil =>
    intro m hnd hwf hS hHi hHo _ _
    simp only [List.nil_append, walkLaunchOps]
    obtain ⟨Li, xn, hLi, hLil, hrest⟩ := hHi
    have hLid : Li.data.id = i := (findOp_some_mem hLi).2
    have hin : findOp m Li.data.id = some Li := by rw [hLid]; exact hLi
    simp only [hLi]
    cases hr : (HoistOpsAndAnnotateWithDevice ctx "tf" m Li).2 with
    | failure d => rfl
    | success =>
      simp only []
      have hok : failed (HoistOpsAndAnnotateWithDevice ctx "tf" m Li).2 = false := by
        rw [hr]; rfl
      obtain ⟨hwf', hkeep, _, hass⟩ := Hoist_keeps ctx m Li hnd hwf hin hLil hok
      exact walk_after_inner ctx o xid d1 d2 hd1 hdiff l2 _
        (Hoist_success_remaining ctx "tf" m Li hnd hin hok).1 hwf'
        (launches_kept ctx m Li l2 hnd hin hok
          (fun n hn hs => hS n hn (by simp [hs])))
        (hkeep o d2 xid (by rw [hLid]; exact hio) hHo)
        (hass d1 xid (by rw [hLid]; exact ⟨Li, xn, hLi, hLil, hrest⟩)) ho2
  | cons a rest ih =>
    intro m hnd hwf hS hHi hHo hi1 ho1
    have hai : i ≠ a := fun e => hi1 (by rw [e]; simp)
    have hao : o ≠ a := fun e => ho1 (by rw [e]; simp)
    have hi1' : i ∉ rest := fun h => hi1 (List.mem_cons_of_mem _ h)
    have ho1' : o ∉ rest := fun h => ho1 (List.mem_cons_of_mem _ h)
    have hS' : ∀ n ∈ nodes m, n.id ∈ rest ++ i :: l2 → isLaunchOp n = true :=
      fun n hn hs => hS n hn (by
        rw [List.cons_append]; exact List.mem_cons_of_mem _ hs)
    simp only [List.cons_append, walkLaunchOps]
    cases hf : findOp m a with
    | none =>
      simp only []
      exact ih m hnd hwf hS' hHi hHo hi1' ho1'
    | some L =>
      simp only []
      have hLid : L.data.id = a := (findOp_some_mem hf).2
      have hin : findOp m L.data.id = some L := by rw [hLid]; exact hf
      have hLl : isLaunchOp L.data = true :=
        hS _ (mem_nodes_of_mem_allOps (findOp_some_mem hf).1) (by rw [hLid]; simp)
      cases hr : (HoistOpsAndAnnotateWithDevice ctx "tf" m L).2 with
      | failure d => rfl
      | success =>
        simp only []
        have hok : failed (HoistOpsAndAnnotateWithDevice ctx "tf" m L).2 = false := by
          rw [hr]; rfl
        obtain ⟨hwf', hkeep, _, _⟩ := Hoist_keeps ctx m L hnd hwf hin hLl hok
        exact ih _ (Hoist_success_remaining ctx "tf" m L hnd hin hok).1 hwf'
          (launches_kept ctx m L _ hnd hin hok hS')
          (hkeep i d1 xid (by rw [hLid]; exact hai) hHi)
          (hkeep o d2 xid (by rw [hLid]; exact hao) hHo) hi1' ho1'

theorem launchIds_sub (l : List OpData) :
    ∀ i ∈ (l.filter isLaunchOp).map OpData.id, i ∈ l.map OpData.id := by
  intro i hi
  obtain ⟨n, hn, e⟩ := List.mem_map.1 hi
  exact List.mem_map.2 ⟨n, (List.mem_filter.1 hn).1, e⟩

/-- The nodes of a module, with an operation nested in the body of another
one: the nested operation comes first in walk order. -/
theorem nodes_nested (module : ModuleOp) (outer inner : Operation)
    (houter : outer ∈ allOpsBlock module) (hinner : inner ∈ allOpsBlock outer.body) :
    ∃ X Y Z : List OpData, nodes module = X ++ inner.data :: (Y ++ outer.data :: Z) := by
  obtain ⟨C, before, after, e⟩ := mem_allOpsBlock_plug module outer houter
  subst e
  obtain ⟨A, B, hAB⟩ := nodes_plug C
  have hmem : inner.data ∈ nodes outer.body := mem_nodes_of_mem_allOps hinner
  obtain ⟨p, q, hpq⟩ := List.append_of_mem hmem
  cases outer with
  | mk odata oregions =>
    cases oregions with
    | nil => simp [Operation.body, nodes, allOpsBlock] at hmem
    | cons r rs =>
      simp only [Operation.body] at hpq
      have e2 : before ++ Operation.mk odata (r :: rs) :: after
          = before ++ ([Operation.mk odata (r :: rs)] ++ after) := by simp
      refine ⟨A ++ nodes before ++ p, q ++ (allOpsRegions rs).map Operation.data,
        nodes after ++ B, ?_⟩
      rw [hAB, e2, nodes_append, nodes_append, nodes_singleton, nodesRegions_cons, hpq]
      simp [Operation.data]

/-- The launches to walk, with a launch nested in the body of another one:
the nested launch is walked first. -/
theorem launchOps_nested (module : ModuleOp) (outer inner : Operation) (hnd : NodupIds module)
    (houter : outer ∈ allOpsBlock module) (hinner : inner ∈ allOpsBlock outer.body)
    (hol : isLaunchOp outer.data = true) (hil : isLaunchOp inner.data = true) :
    ∃ l1 l2 : List Nat, launchOps module = l1 ++ inner.data.id :: l2 ∧
      outer.data.id ∈ l2 ∧ inner.data.id ∉ l1 ∧ outer.data.id ∉ l1 ∧
      outer.data.id ≠ inner.data.id := by
  obtain ⟨X, Y, Z, e⟩ := nodes_nested module outer inner houter hinner
  unfold NodupIds ids at hnd
  rw [e] at hnd
  simp only [List.map_append, List.map_cons] at hnd
  have hd := (List.nodup_append.1 hnd)
  have hcons := List.nodup_cons.1 hd.2.1
  refine ⟨(X.filter isLaunchOp).map OpData.id,
    (Y.filter isLaunchOp).map OpData.id ++ outer.data.id :: (Z.filter isLaunchOp).map OpData.id,
    ?_, by simp, ?_, ?_, ?_⟩
  · unfold launchOps
    rw [e]
    simp [List.filter_append, List.filter_cons, hol, hil]
  · intro h
    exact hd.2.2 (launchIds_sub X _ h) (by simp)
  · intro h
    exact hd.2.2 (launchIds_sub X _ h) (by simp)
  · intro h
    apply hcons.1
    rw [← h]
    simp

theorem getLoadedDialect_some {ctx : MLIRContext} {ns : String} {d : Dialect}
    (h : ctx.getLoadedDialect ns = some d) : d = ns := by
  unfold MLIRContext.getLoadedDialect at h
  split at h
  · simp only [Option.some.injEq] at h; exact h.symm
  · cases h

/-- C7: on a module with distinct ids and well-formed launches, when a launch
with a non-empty device `d1` is nested in the body of a launch with another
device `d2`, and the body of the inner launch holds an operation of the
family, the pass reports failure. -/
theorem runOnOperation_nested_conflict (ctx : MLIRContext) (module : ModuleOp)
    (outer inner : Operation) (x : OpData) (d1 d2 : String)
    (hnd : NodupIds module) (hwf : LaunchesWellFormed module)
    (houter : findOp module outer.data.id = some outer)
    (hol : isLaunchOp outer.data = true)
    (hd2 : outer.data.getAttr kDeviceAttr = some (.StringAttr d2))
    (hinner : findOp outer.body inner.data.id = some inner)
    (hil : isLaunchOp inner.data = true)
    (hd1 : inner.data.getAttr kDeviceAttr = some (.StringAttr d1))
    (hne : d1 ≠ "") (hdiff : d1 ≠ d2)
    (hx : x ∈ nodes inner.body) (hxf : inFamily ctx "tf" x = true) :
    failed (runOnOperation ctx module).2 = true := by
  unfold runOnOperation
  cases hd : ctx.getLoadedDialect "tf" with
  | none => rfl
  | some tf_dialect =>
    have htf := getLoadedDialect_some hd
    subst htf
    simp only [failed_toLogicalResult]
    have hom := (findOp_some_mem houter).1
    have him := (findOp_some_mem hinner).1
    have him' : inner ∈ allOpsBlock module :=
      allOps_trans_block module outer hom inner (allOps_body_sub outer inner him)
    obtain ⟨l1, l2, e, ho2, hi1, ho1, hoi⟩ :=
      launchOps_nested module outer inner hnd hom him hol hil
    rw [e]
    have hxi : x.id ∈ ids inner.body := mem_ids_of_mem_nodes hx
    have hxm : x ∈ nodes module := nodes_body_subset him' x hx
    refine walk_before_inner ctx inner.data.id outer.data.id x.id d1 d2 hne hdiff hoi l2 ho2
      l1 module hnd hwf ?_ ?_ ?_ hi1 ho1
    · intro n hn hs
      rw [← e] at hs
      obtain ⟨n0, hn0, e0⟩ := List.mem_map.1 hs
      have hf := List.mem_filter.1 hn0
      have : n0 = n := node_eq_of_id hnd hf.1 hn e0
      rw [← this]; exact hf.2
    · exact ⟨inner, x, findOp_of_mem hnd him', hil, LaunchOp.device_eq hd1, hxm, rfl, hxf, hxi⟩
    · exact ⟨outer, x, houter, hol, LaunchOp.device_eq hd2, hxm, rfl, hxf,
        ids_body_sub_block him x.id hxi⟩

/-- C7 on a launch on `GPU:0` nested in a launch on `CPU:0`: the pass
fails. -/
theorem runOnOperation_nested_conflict_witness :
    failed (runOnOperation exampleContext (nestedModule "GPU:0")).2 = true :=
  runOnOperation_nested_conflict exampleContext (nestedModule "GPU:0")
    (.mk ⟨2, LaunchOpName, [("device", .StringAttr "CPU:0")], [], 0⟩
        [[tfOp 3 "opA" [] [] 1,
          .mk ⟨4, LaunchOpName, [("device", .StringAttr "GPU:0")], [], 0⟩
            [[tfOp 5 "opB" [] [] 1,
              .mk ⟨6, ⟨"tf_device", "return"⟩, [], [], 0⟩ []]],
          .mk ⟨7, ⟨"tf_device", "return"⟩, [], [], 0⟩ []]])
    (.mk ⟨4, LaunchOpName, [("device", .StringAttr "GPU:0")], [], 0⟩
      [[tfOp 5 "opB" [] [] 1, .mk ⟨6, ⟨"tf_device", "return"⟩, [], [], 0⟩ []]])
    ⟨5, ⟨"tf", "opB"⟩, [], [], 1⟩ "GPU:0" "CPU:0"
    (by decide) (by decide) (by rfl) (by decide) (by decide) (by rfl) (by decide) (by decide)
    (by decide) (by decide) (by decide) (by decide)

theorem launchOps_eq_nil (module : ModuleOp)
    (h : ∀ op ∈ nodes module, isLaunchOp op = false) : launchOps module = [] := by
  unfold launchOps
  rw [List.map_eq_nil_iff, List.filter_eq_nil_iff]
  intro n hn
  rw [h n hn]
  simp

/-- C12: on a module without any `tf_device.launch`, at any nesting depth, the
pass returns the module as it was, structure and attributes, and when the `tf`
dialect is loaded it does not signal failure. -/
theorem runOnOperation_no_scope (ctx : MLIRContext) (module : ModuleOp)
    (h : ∀ op ∈ nodes module, isLaunchOp op = false) :
    (runOnOperation ctx module).1 = module ∧
    (ctx.getLoadedDialect "tf" ≠ none → (runOnOperation ctx module).2 = .success) := by
  unfold runOnOperation
  rw [launchOps_eq_nil module h]
  cases hd : ctx.getLoadedDialect "tf" with
  | none => exact ⟨rfl, fun hc => absurd rfl hc⟩
  | some tf_dialect => exact ⟨rfl, fun _ => rfl⟩

/-- C12 on the two functions that call each other, whose operations are of
the TensorFlow dialect and carry attributes: the pass gives the module back
and succeeds. -/
theorem runOnOperation_no_scope_witness :
    (runOnOperation exampleContext cycleModule).1 = cycleModule ∧
    (runOnOperation exampleContext cycleModule).2 = .success :=
  ⟨(runOnOperation_no_scope exampleContext cycleModule (by decide)).1,
   (runOnOperation_no_scope exampleContext cycleModule (by decide)).2 (by decide)⟩

/-- C13: when the `tf` dialect is not loaded in the context, the pass signals
failure, with the error that the dialect is not registered, attached to the
module, and the module is returned as it was, launches included. -/
theorem runOnOperation_missing_dialect (ctx : MLIRContext) (module : ModuleOp)
    (h : ctx.getLoadedDialect "tf" = none) :
    runOnOperation ctx module
      = (module, .failure ⟨none, "'tf' dialect is not registered"⟩) := by
  unfold runOnOperation
  rw [h]

/-- C13 on the module of the file header, which holds a launch, in a context
without the `tf` dialect. -/
theorem runOnOperation_missing_dialect_witness :
    launchOps exampleModule = [2] ∧
    runOnOperation bareContext exampleModule
      = (exampleModule, .failure ⟨none, "'tf' dialect is not registered"⟩) :=
  ⟨by decide, runOnOperation_missing_dialect bareContext exampleModule (by decide)⟩

/-- C11: on the module of the file header with `device = "GPU:0"` on `opC`,
the pass signals failure and `opC` keeps `GPU:0`: the device that was there is
not overwritten with the device `CPU:0` of the launch. -/
theorem runOnOperation_keeps_conflicting_device :
    failed (runOnOperation exampleContext conflictModule).2 = true ∧
    (findOp (runOnOperation exampleContext conflictModule).1 4).map
        (fun op => op.data.getAttr kDeviceAttr) = some (some (.StringAttr "GPU:0")) ∧
    (findOp (runOnOperation exampleContext conflictModule).1 2).map
        (fun op => isLaunchOp op.data) = some true := by
  refine ⟨by decide, by rfl, by rfl⟩

theorem setAttr_of_getAttr (attrs : List (String × Attribute)) (k : String) (v : Attribute)
    (h : getAttr attrs k = some v) : setAttr attrs k v = attrs := by
  induction attrs with
  | nil => simp [getAttr] at h
  | cons kv rest ih =>
    obtain ⟨k', v'⟩ := kv
    by_cases hk : k' = k
    · simp [getAttr, hk] at h
      simp [setAttr, hk, h]
    · simp [getAttr, hk] at h
      simp [setAttr, hk, ih h]

/-- The callback on an operation with the launch device: nothing changes. -/
theorem assignDevice_of_device (ctx : MLIRContext) (tf_dialect : Dialect) (launch op : OpData)
    (hd : op.getAttr kDeviceAttr = some (.StringAttr (LaunchOp.device launch))) :
    assignDevice ctx tf_dialect launch op = (op, .advance) := by
  unfold assignDevice
  split
  · rfl
  · simp only [hd]
    by_cases h1 : LaunchOp.device launch = ""
    · simp only [h1, if_true, LaunchOp.deviceAttr]
      have : op.setAttr kDeviceAttr (.StringAttr "") = op := by
        rw [h1] at hd
        unfold OpData.setAttr
        unfold OpData.getAttr at hd
        rw [setAttr_of_getAttr _ _ _ hd]
      rw [this]
    · simp [h1]

theorem assignDevice_not_family (ctx : MLIRContext) (tf_dialect : Dialect) (launch op : OpData)
    (hf : inFamily ctx tf_dialect op = false) :
    assignDevice ctx tf_dialect launch op = (op, .advance) := by
  unfold assignDevice
  unfold inFamily at hf
  have : (op.getDialect ctx != some tf_dialect && !IsSupportedExecutorDialectOp op) = true := by
    cases h : (op.getDialect ctx != some tf_dialect && !IsSupportedExecutorDialectOp op)
    · simp [h] at hf
    · rfl
  simp [this]

/-- The callback on what the callback left, when it advanced: nothing changes. -/
theorem assignDevice_twice (ctx : MLIRContext) (tf_dialect : Dialect) (launch op : OpData)
    (hw : (assignDevice ctx tf_dialect launch op).2.wasInterrupted = false) :
    assignDevice ctx tf_dialect launch (assignDevice ctx tf_dialect launch op).1
      = ((assignDevice ctx tf_dialect launch op).1, .advance) := by
  cases hf : inFamily ctx tf_dialect op with
  | false =>
    rw [assignDevice_not_family ctx tf_dialect launch op hf]
    exact assignDevice_not_family ctx tf_dialect launch op hf
  | true =>
    exact assignDevice_of_device ctx tf_dialect launch _
      (assignDevice_device ctx tf_dialect launch op hf hw)

theorem walkBlock_fixed (cb : OpData → OpData × WalkResult) (b : Block)
    (h : ∀ n ∈ nodes b, cb n = (n, .advance)) : walkBlock cb b = (b, .advance) := by
  have hw : (walkBlock cb b).2.wasInterrupted = false := by
    cases hc : (walkBlock cb b).2.wasInterrupted with
    | false => rfl
    | true =>
      obtain ⟨d, hd, hi⟩ := (walkBlock_interrupted cb b).1 hc
      rw [h d hd] at hi
      simp [WalkResult.wasInterrupted] at hi
  have h1 := walkBlock_advance_eq cb b hw
  have h2 : (walkBlock cb b).2 = .advance := WalkResult.eq_advance (by simp [hw])
  rw [mapDataBlock_eq_self _ b (fun n hn => by rw [h n hn])] at h1
  exact Prod.ext h1 h2

/-- C17: when `AssignDevicesInRegion` succeeds on a region, running it again
on the region it left, for the same launch, succeeds as well and leaves that
region as it is: no attribute of any operation changes. -/
theorem AssignDevicesInRegion_idempotent (ctx : MLIRContext) (tf_dialect : Dialect)
    (launch : OpData) (region : Region)
    (h : failed (AssignDevicesInRegion ctx tf_dialect launch region).2 = false) :
    AssignDevicesInRegion ctx tf_dialect launch
        (AssignDevicesInRegion ctx tf_dialect launch region).1
      = ((AssignDevicesInRegion ctx tf_dialect launch region).1, .success) := by
  simp only [AssignDevicesInRegion, failed_toLogicalResult] at h ⊢
  have h1 := walkBlock_advance_eq _ _ h
  have hfix : walkBlock (assignDevice ctx tf_dialect launch)
      (walkBlock (assignDevice ctx tf_dialect launch) region).1
      = ((walkBlock (assignDevice ctx tf_dialect launch) region).1, .advance) := by
    apply walkBlock_fixed
    intro n hn
    rw [h1, nodes_mapData] at hn
    obtain ⟨n0, hn0, rfl⟩ := List.mem_map.1 hn
    apply assignDevice_twice
    cases hc : (assignDevice ctx tf_dialect launch n0).2.wasInterrupted with
    | false => rfl
    | true =>
      have := (walkBlock_interrupted _ region).2 ⟨n0, hn0, hc⟩
      rw [h] at this
      cases this
  rw [hfix]
  rfl

/-- C17 on the body of the launch of the file header: the first run succeeds
and gives `opB` and `opC` the device `CPU:0`, the second run changes
nothing. -/
theorem AssignDevicesInRegion_idempotent_witness :
    (nodes (AssignDevicesInRegion exampleContext "tf" exampleLaunch.data exampleLaunch.body).1).map
        (fun op => op.getAttr kDeviceAttr)
      = [some (.StringAttr "CPU:0"), some (.StringAttr "CPU:0"), none] ∧
    AssignDevicesInRegion exampleContext "tf" exampleLaunch.data
        (AssignDevicesInRegion exampleContext "tf" exampleLaunch.data exampleLaunch.body).1
      = ((AssignDevicesInRegion exampleContext "tf" exampleLaunch.data exampleLaunch.body).1,
          .success) :=
  ⟨by decide,
   AssignDevicesInRegion_idempotent exampleContext "tf" exampleLaunch.data exampleLaunch.body
     (by decide)⟩

/-- The walk over a list stops at the first element on which the callback
interrupts: the elements before it are what the callback made of them, the
elements after it are not reached. -/
theorem walkList_stop (cb : OpData → OpData × WalkResult) (pre post : List OpData) (X : OpData)
    (hpre : ∀ n ∈ pre, (cb n).2.wasInterrupted = false)
    (hX : (cb X).2.wasInterrupted = true) :
    walkList cb (pre ++ X :: post)
      = (pre.map (fun n => (cb n).1) ++ (cb X).1 :: post, (cb X).2) := by
  induction pre with
  | nil => simp [walkList_cons, hX]
  | cons d ds ih =>
    rw [List.cons_append, walkList_cons]
    have h1 := hpre d (by simp)
    rw [ih (fun n hn => hpre n (List.mem_cons_of_mem _ hn))]
    simp [h1]

theorem walkList_stop_exists (cb : OpData → OpData × WalkResult) (l : List OpData)
    (h : (walkList cb l).2.wasInterrupted = true) :
    ∃ pre X post, l = pre ++ X :: post ∧ (∀ n ∈ pre, (cb n).2.wasInterrupted = false) ∧
      (cb X).2.wasInterrupted = true := by
  induction l with
  | nil => simp [walkList, WalkResult.wasInterrupted] at h
  | cons d ds ih =>
    rw [walkList_cons] at h
    by_cases h1 : (cb d).2.wasInterrupted = true
    · exact ⟨[], d, ds, rfl, by simp, h1⟩
    · simp only [h1] at h
      obtain ⟨pre, X, post, e, hp, hX⟩ := ih h
      refine ⟨d :: pre, X, post, by rw [e]; rfl, ?_, hX⟩
      intro n hn
      rcases List.mem_cons.1 hn with e1 | h2
      · rw [e1]; simpa using h1
      · exact hp n h2

theorem walkBlock_walkList (cb : OpData → OpData × WalkResult) (b : Block) :
    (nodes (walkBlock cb b).1, (walkBlock cb b).2) = walkList cb (nodes b) :=
  walkBlock_nodes cb b

theorem not_interrupted_iff (ctx : MLIRContext) (tf_dialect : Dialect) (launch n : OpData) :
    (assignDevice ctx tf_dialect launch n).2.wasInterrupted = false ↔
      ¬ (inFamily ctx tf_dialect n = true ∧ conflictsWith (LaunchOp.device launch) n = true) := by
  rw [assignDevice_interrupted]
  cases inFamily ctx tf_dialect n <;> cases conflictsWith (LaunchOp.device launch) n <;> simp

/-- The callback on an operation of the family whose device is a non-empty
string other than the launch device: the operation is left as it is and the
error is emitted on the launch. -/
theorem assignDevice_conflict (ctx : MLIRContext) (tf_dialect : Dialect) (launch X : OpData)
    (d2 : String) (hX : inFamily ctx tf_dialect X = true)
    (hd2 : X.getAttr kDeviceAttr = some (.StringAttr d2)) (hne : d2 ≠ "")
    (hdiff : d2 ≠ LaunchOp.device launch) :
    assignDevice ctx tf_dialect launch X
      = (X, .interrupt ⟨some launch.id,
          "'tf_device.launch' op inner op has conflicting 'device' attribute, got '" ++ d2 ++
            "' but expected '" ++ LaunchOp.device launch ++ "'"⟩) := by
  unfold inFamily at hX
  unfold assignDevice
  have h : ¬ (X.getDialect ctx != some tf_dialect && !IsSupportedExecutorDialectOp X) = true := by
    intro hc
    rw [hc] at hX
    simp at hX
  simp only [h, if_false, hd2, hne, LaunchOp.emitOpError]
  simp only [hdiff, ne_eq, not_false_eq_true, if_true]
  rfl

/-- C14: when the walk of `AssignDevicesInRegion` stops at an operation `X` of
the family whose device is a non-empty string `d2` other than the device `d`
of the launch (no operation reached before `X` stands against `d`), the result
is a failure whose error is attached to the launch, not to `X`, and whose
message holds `d2` and `d`. -/
theorem AssignDevicesInRegion_diagnostic (ctx : MLIRContext) (tf_dialect : Dialect)
    (launch : OpData) (region : Region) (pre post : List OpData) (X : OpData) (d2 : String)
    (hsplit : nodes region = pre ++ X :: post)
    (hpre : ∀ n ∈ pre, ¬ (inFamily ctx tf_dialect n = true ∧
      conflictsWith (LaunchOp.device launch) n = true))
    (hX : inFamily ctx tf_dialect X = true)
    (hd2 : X.getAttr kDeviceAttr = some (.StringAttr d2)) (hne : d2 ≠ "")
    (hdiff : d2 ≠ LaunchOp.device launch) :
    (AssignDevicesInRegion ctx tf_dialect launch region).2
      = .failure ⟨some launch.id,
          "'tf_device.launch' op inner op has conflicting 'device' attribute, got '" ++ d2 ++
            "' but expected '" ++ LaunchOp.device launch ++ "'"⟩ := by
  have hc := assignDevice_conflict ctx tf_dialect launch X d2 hX hd2 hne hdiff
  have hw := walkBlock_walkList (assignDevice ctx tf_dialect launch) region
  rw [hsplit, walkList_stop _ pre post X
    (fun n hn => (not_interrupted_iff ctx tf_dialect launch n).2 (hpre n hn))
    (by rw [hc]; rfl)] at hw
  have h2 := congrArg Prod.snd hw
  simp only at h2
  simp only [AssignDevicesInRegion, h2, hc]
  rfl

/-- C14 on the launch of the file header with `GPU:0` on `opC`: the walk
passes `opB` and stops at `opC`; the error is on the launch (id 2). -/
theorem AssignDevicesInRegion_diagnostic_witness :
    (AssignDevicesInRegion exampleContext "tf" conflictLaunch.data conflictLaunch.body).2
      = .failure ⟨some 2,
          "'tf_device.launch' op inner op has conflicting 'device' attribute, got 'GPU:0' but expected 'CPU:0'"⟩ :=
  AssignDevicesInRegion_diagnostic exampleContext "tf" conflictLaunch.data conflictLaunch.body
    [⟨3, ⟨"tf", "opB"⟩, [], [], 1⟩]
    [⟨5, ⟨"tf_device", "return"⟩, [], [.OpResult 4 0, .OpResult 3 0], 0⟩]
    ⟨4, ⟨"tf", "opC"⟩, [("device", .StringAttr "GPU:0")], [], 1⟩ "GPU:0"
    (by decide) (by decide) (by decide) (by decide) (by decide) (by decide)

/-- C14, the claim as stated fails.  In the body of the launch of the file
header with `GPU:0` on `opC`, the one offending operation is `opC` (id 4); in
the body with `GPU:0` on `opB`, it is `opB` (id 3).  The error is the same in
both cases, attached to the launch (id 2): nothing in it tells the offending
operation. -/
theorem AssignDevicesInRegion_diagnostic_counterexample :
    ((nodes conflictLaunch.body).filter
        (fun op => inFamily exampleContext "tf" op && conflictsWith "CPU:0" op)).map
      (fun op => (op.id, op.name)) = [(4, ⟨"tf", "opC"⟩)] ∧
    ((nodes conflictBodyB).filter
        (fun op => inFamily exampleContext "tf" op && conflictsWith "CPU:0" op)).map
      (fun op => (op.id, op.name)) = [(3, ⟨"tf", "opB"⟩)] ∧
    (AssignDevicesInRegion exampleContext "tf" conflictLaunch.data conflictLaunch.body).2
      = .failure ⟨some 2,
          "'tf_device.launch' op inner op has conflicting 'device' attribute, got 'GPU:0' but expected 'CPU:0'"⟩ ∧
    (AssignDevicesInRegion exampleContext "tf" conflictLaunch.data conflictBodyB).2
      = .failure ⟨some 2,
          "'tf_device.launch' op inner op has conflicting 'device' attribute, got 'GPU:0' but expected 'CPU:0'"⟩ :=
  ⟨by decide, by decide, by decide, by decide⟩

theorem assignDevice_fst_of_interrupted (ctx : MLIRContext) (tf_dialect : Dialect)
    (launch op : OpData) (h : (assignDevice ctx tf_dialect launch op).2.wasInterrupted = true) :
    (assignDevice ctx tf_dialect launch op).1 = op := by
  rcases assignDevice_fst ctx tf_dialect launch op with h1 | ⟨hf, hd, _⟩
  · exact h1
  · rw [assignDevice_unset ctx tf_dialect launch op hf hd] at h
    simp [WalkResult.wasInterrupted] at h

theorem forall₂_map_right {α β : Type} (R : α → β → Prop) (f : α → β) (l : List α)
    (h : ∀ a ∈ l, R a (f a)) : List.Forall₂ R l (l.map f) := by
  induction l with
  | nil => exact List.Forall₂.nil
  | cons a l ih =>
    exact List.Forall₂.cons (h a (by simp)) (ih (fun b hb => h b (List.mem_cons_of_mem _ hb)))

/-- C16: when `AssignDevicesInRegion` fails, the state of the region follows
the order in which `Region::walk` reaches the operations, the order of `nodes`,
in which an operation comes after the operations of its regions.  The run
fails on the first offending operation in that order; the operations of the
family before it whose device was absent or empty have the launch device; the
offending operation and every operation after it, the operations around it
among them, are unchanged. -/
theorem AssignDevicesInRegion_abort (ctx : MLIRContext) (tf_dialect : Dialect)
    (launch : OpData) (region : Region)
    (h : failed (AssignDevicesInRegion ctx tf_dialect launch region).2 = true) :
    AbortFollows nodes ctx tf_dialect launch region
      (AssignDevicesInRegion ctx tf_dialect launch region).1 := by
  simp only [AssignDevicesInRegion, failed_toLogicalResult] at h ⊢
  have hw := walkBlock_walkList (assignDevice ctx tf_dialect launch) region
  have h' : (walkList (assignDevice ctx tf_dialect launch) (nodes region)).2.wasInterrupted
      = true := by rw [← hw]; exact h
  obtain ⟨pre, X, post, e, hpre, hX⟩ := walkList_stop_exists _ _ h'
  rw [e, walkList_stop _ pre post X hpre hX,
    assignDevice_fst_of_interrupted ctx tf_dialect launch X hX] at hw
  have h1 := congrArg Prod.fst hw
  simp only at h1
  refine ⟨pre, X, post, pre.map (fun n => (assignDevice ctx tf_dialect launch n).1), e, ?_, ?_,
    h1, ?_⟩
  · rw [assignDevice_interrupted] at hX
    simpa using hX
  · intro n hn
    exact (not_interrupted_iff ctx tf_dialect launch n).1 (hpre n hn)
  · apply forall₂_map_right
    intro n hn
    refine ⟨(assignDevice_fst_fields ctx tf_dialect launch n).1, ?_⟩
    intro hf _
    exact assignDevice_device ctx tf_dialect launch n hf (hpre n hn)

/-- C16 on the region with an operation around the offending one: the walk
fails on the inner operation, which comes first in the order of `nodes`. -/
theorem AssignDevicesInRegion_abort_witness :
    failed (AssignDevicesInRegion exampleContext "tf" exampleLaunch.data enclosingRegion).2
      = true ∧
    (nodes enclosingRegion).map OpData.id = [2, 1] ∧
    (nodes (AssignDevicesInRegion exampleContext "tf" exampleLaunch.data enclosingRegion).1).map
        (fun op => op.getAttr kDeviceAttr) = [some (.StringAttr "GPU:0"), none] ∧
    AbortFollows nodes exampleContext "tf" exampleLaunch.data enclosingRegion
      (AssignDevicesInRegion exampleContext "tf" exampleLaunch.data enclosingRegion).1 :=
  ⟨by decide, by decide, by decide,
    AssignDevicesInRegion_abort exampleContext "tf" exampleLaunch.data enclosingRegion
      (by decide)⟩

/-- C16, the claim as stated fails: in pre-order the operation `tf.IfRegion`
(id 1), of the family and without a device, comes before the offending
operation it holds, but the failed run leaves it without a device. -/
theorem AssignDevicesInRegion_abort_counterexample :
    ¬ AbortFollows preOrderBlock exampleContext "tf" exampleLaunch.data enclosingRegion
      (AssignDevicesInRegion exampleContext "tf" exampleLaunch.data enclosingRegion).1 := by
  rintro ⟨pre, X, post, pre', h1, hX, hpre, h2, hall⟩
  have e1 : preOrderBlock enclosingRegion
      = [⟨1, ⟨"tf", "IfRegion"⟩, [], [], 0⟩,
         ⟨2, ⟨"tf", "opX"⟩, [("device", .StringAttr "GPU:0")], [], 1⟩] := by decide
  have e2 : preOrderBlock
      (AssignDevicesInRegion exampleContext "tf" exampleLaunch.data enclosingRegion).1
      = [⟨1, ⟨"tf", "IfRegion"⟩, [], [], 0⟩,
         ⟨2, ⟨"tf", "opX"⟩, [("device", .StringAttr "GPU:0")], [], 1⟩] := by decide
  rw [e1] at h1
  rw [e2] at h2
  cases pre with
  | nil =>
    simp only [List.nil_append, List.cons.injEq] at h1
    obtain ⟨hX1, _⟩ := h1
    rw [← hX1] at hX
    exact absurd hX.2 (by decide)
  | cons a pre =>
    cases pre with
    | nil =>
      simp only [List.cons_append, List.nil_append, List.cons.injEq] at h1
      obtain ⟨ha, hX1, hpost⟩ := h1
      subst ha hX1 hpost
      cases hall with
      | cons hab htl =>
        cases htl
        simp only [List.cons_append, List.nil_append, List.cons.injEq, and_true] at h2
        subst h2
        exact absurd (hab.2 (by decide) (by decide)) (by decide)
    | cons b pre =>
      simp at h1

theorem lookupFuncOp_functionsOf {module : ModuleOp} {name : String} {f : Operation}
    (h : SymbolTable.lookupFuncOp module name = some f) : f ∈ functionsOf module :=
  List.mem_filter.2 ⟨lookupFuncOp_mem h, by simpa using lookupFuncOp_isFuncOp h⟩

theorem LoopState_length {module : ModuleOp} {P T : List Operation}
    (h : LoopState module P T) : P.length + T.length ≤ (functionsOf module).length := by
  have := handles_length_le h.1 h.2
  simpa using this

theorem visitRound_spec (ctx : MLIRContext) (module : ModuleOp) (P T : List Operation)
    (h : LoopState module P T) :
    ∃ added, visitRound ctx module (P ++ T, T) = ((P ++ T) ++ added, added) ∧
      LoopState module (P ++ T) added := by
  obtain ⟨added, e, _, n⟩ := visitFunctions_spec ctx module T (P ++ T, [])
  simp only [List.nil_append] at e n
  refine ⟨added, e, n h.1, ?_⟩
  have := visitFunctions_forall ctx module (fun f => f ∈ functionsOf module)
    (fun _ _ _ _ _ _ _ hl => lookupFuncOp_functionsOf hl) T (P ++ T, [])
    (fun f hf => h.2 f (List.mem_append_right _ hf)) h.2 (by intro f hf; cases hf)
  rw [e] at this
  exact this.1

theorem seed_LoopState (module : ModuleOp) (uses : List String) :
    LoopState module [] (seedFunctions module uses []) := by
  obtain ⟨_, _, s3⟩ := seedFunctions_spec module uses []
  refine ⟨by simpa using s3 (by simp [handleIds]), ?_⟩
  simp only [List.nil_append]
  exact seedFunctions_forall module (fun g => g ∈ functionsOf module) uses []
    (fun _ _ _ hl => lookupFuncOp_functionsOf hl) (by intro g hg; cases hg)

/-- The loop exits: from a sound state with `m` functions of the module not
yet taken from a frontier, the frontier is empty after at most `m` rounds, and
with more fuel than that `visitLoop` returns what is visited then. -/
theorem visitRounds_exit (ctx : MLIRContext) (module : ModuleOp) :
    ∀ (m : Nat) (P T : List Operation), LoopState module P T →
      (functionsOf module).length ≤ m + P.length →
      ∃ n, n ≤ m ∧ (visitRounds ctx module n (P ++ T, T)).2 = [] ∧
        ∀ fuel, n < fuel →
          visitLoop ctx module fuel (P ++ T) T = (visitRounds ctx module n (P ++ T, T)).1 := by
  intro m
  induction m with
  | zero =>
    intro P T hst hm
    have hlen := LoopState_length hst
    have hT : T = [] := List.length_eq_zero.1 (by omega)
    subst hT
    refine ⟨0, le_refl _, rfl, ?_⟩
    intro fuel hf
    obtain ⟨k, rfl⟩ : ∃ k, fuel = k + 1 := ⟨fuel - 1, by omega⟩
    simp [visitLoop, visitRounds]
  | succ m ih =>
    intro P T hst hm
    by_cases hT : T = []
    · subst hT
      refine ⟨0, Nat.zero_le _, rfl, ?_⟩
      intro fuel hf
      obtain ⟨k, rfl⟩ : ∃ k, fuel = k + 1 := ⟨fuel - 1, by omega⟩
      simp [visitLoop, visitRounds]
    · obtain ⟨added, e, hst'⟩ := visitRound_spec ctx module P T hst
      have hTlen : 1 ≤ T.length := by
        cases T with
        | nil => exact absurd rfl hT
        | cons a l => simp
      obtain ⟨n, hn, h1, h2⟩ := ih (P ++ T) added hst' (by simp only [List.length_append]; omega)
      refine ⟨n + 1, by omega, ?_, ?_⟩
      · simp only [visitRounds, e]
        exact h1
      · intro fuel hf
        obtain ⟨k, rfl⟩ : ∃ k, fuel = k + 1 := ⟨fuel - 1, by omega⟩
        have hne : T.isEmpty = false := by
          cases T with
          | nil => exact absurd rfl hT
          | cons a l => rfl
        have e' : visitFunctions ctx module T (P ++ T, []) = ((P ++ T) ++ added, added) := e
        simp only [visitLoop, hne, visitRounds, e, e']
        exact h2 k (by omega)

/-- The frontiers of the rounds, one after the other, are the visited list: a
function enters a frontier when it enters `visited_functions`, and only
then. -/
theorem frontiers_eq_visited (ctx : MLIRContext) (module : ModuleOp) :
    ∀ (k : Nat) (P T : List Operation), LoopState module P T →
      P ++ frontiers ctx module k (P ++ T, T) = (visitRounds ctx module k (P ++ T, T)).1 ∧
      ∃ P' T', visitRounds ctx module k (P ++ T, T) = (P' ++ T', T') ∧
        LoopState module P' T' := by
  intro k
  induction k with
  | zero =>
    intro P T hst
    exact ⟨rfl, P, T, rfl, hst⟩
  | succ k ih =>
    intro P T hst
    obtain ⟨added, e, hst'⟩ := visitRound_spec ctx module P T hst
    obtain ⟨h1, h2⟩ := ih (P ++ T) added hst'
    simp only [frontiers, visitRounds, e]
    exact ⟨by rw [← List.append_assoc]; exact h1, h2⟩

/-- C15: the loop of `GetReachableFunctionsFromRegion` terminates.  The loop
is reached when the symbol uses of the region are known (otherwise the
function has returned before it).  From the functions named in the region, the
frontier is empty after a number of rounds that is at most the number of
functions of the module, and the function returns what is visited then (its
fuel is never used up).  In every round the frontiers so far, one after the
other, are the visited list, in which no function occurs twice and which is no
longer than the list of the functions of the module: a function enters a
frontier at most once, when it enters the visited list. -/
theorem GetReachable_terminates (ctx : MLIRContext) (module : ModuleOp) (region : Region)
    (uses : List String) (hu : SymbolTable.getSymbolUses ctx region = some uses) :
    (∃ n, n ≤ (functionsOf module).length ∧
      (visitRounds ctx module n
        (seedFunctions module uses [], seedFunctions module uses [])).2 = [] ∧
      (∀ fuel, n < fuel →
        visitLoop ctx module fuel (seedFunctions module uses []) (seedFunctions module uses [])
          = (visitRounds ctx module n
              (seedFunctions module uses [], seedFunctions module uses [])).1) ∧
      GetReachableFunctionsFromRegion ctx module region
        = (visitRounds ctx module n
            (seedFunctions module uses [], seedFunctions module uses [])).1) ∧
    ∀ k,
      frontiers ctx module k (seedFunctions module uses [], seedFunctions module uses [])
        = (visitRounds ctx module k
            (seedFunctions module uses [], seedFunctions module uses [])).1 ∧
      (handleIds (visitRounds ctx module k
        (seedFunctions module uses [], seedFunctions module uses [])).1).Nodup ∧
      (visitRounds ctx module k
        (seedFunctions module uses [], seedFunctions module uses [])).1.length
        ≤ (functionsOf module).length := by
  have hst := seed_LoopState module uses
  constructor
  · obtain ⟨n, hn, h1, h2⟩ := visitRounds_exit ctx module (functionsOf module).length []
      (seedFunctions module uses []) hst (by simp)
    simp only [List.nil_append] at h1 h2
    refine ⟨n, hn, h1, h2, ?_⟩
    unfold GetReachableFunctionsFromRegion
    simp only [hu]
    apply h2
    have : (functionsOf module).length ≤ module.length := List.length_filter_le _ _
    omega
  · intro k
    obtain ⟨h1, P', T', e, hst'⟩ := frontiers_eq_visited ctx module k []
      (seedFunctions module uses []) hst
    simp only [List.nil_append] at h1 e
    refine ⟨h1, ?_, ?_⟩
    · rw [e]; exact hst'.1
    · rw [e]
      have := LoopState_length hst'
      simpa using this

/-- C15 on the two functions that call each other: the frontier is empty
after two rounds, the rounds visit `A`, then `B`. -/
theorem GetReachable_terminates_witness :
    (functionsOf cycleModule).length = 2 ∧
    handleIds (frontiers exampleContext cycleModule 2
      (seedFunctions cycleModule ["A", "missing"] [],
        seedFunctions cycleModule ["A", "missing"] [])) = [10, 20] ∧
    ((∃ n, n ≤ (functionsOf cycleModule).length ∧
      (visitRounds exampleContext cycleModule n
        (seedFunctions cycleModule ["A", "missing"] [],
          seedFunctions cycleModule ["A", "missing"] [])).2 = [] ∧
      (∀ fuel, n < fuel →
        visitLoop exampleContext cycleModule fuel (seedFunctions cycleModule ["A", "missing"] [])
            (seedFunctions cycleModule ["A", "missing"] [])
          = (visitRounds exampleContext cycleModule n
              (seedFunctions cycleModule ["A", "missing"] [],
                seedFunctions cycleModule ["A", "missing"] [])).1) ∧
      GetReachableFunctionsFromRegion exampleContext cycleModule cycleRegion
        = (visitRounds exampleContext cycleModule n
            (seedFunctions cycleModule ["A", "missing"] [],
              seedFunctions cycleModule ["A", "missing"] [])).1)) :=
  ⟨by decide, by decide,
    (GetReachable_terminates exampleContext cycleModule cycleRegion ["A", "missing"]
      (by rfl)).1⟩

theorem eraseAttrs_id (d : OpData) : (eraseAttrs d).id = d.id := rfl

theorem eraseAttrs_assignDevice (ctx : MLIRContext) (tf_dialect : Dialect) (launch op : OpData) :
    eraseAttrs (assignDevice ctx tf_dialect launch op).1 = eraseAttrs op := by
  rcases assignDevice_fst ctx tf_dialect launch op with h | ⟨_, _, h⟩
  · rw [h]
  · rw [h]; simp [eraseAttrs, OpData.setAttr]

theorem eraseAttrs_assignInBodyOf (ctx : MLIRContext) (tf_dialect : Dialect) (launch : OpData)
    (owner : Nat) (module : ModuleOp) :
    mapDataBlock eraseAttrs (assignInBodyOf ctx tf_dialect launch owner module).1
      = mapDataBlock eraseAttrs module := by
  unfold assignInBodyOf
  simp only
  rw [rewriteBlock_mapData owner _ (fun o => [o]) eraseAttrs eraseAttrs_id, rewriteBlock_self]
  intro op
  simp only [mapDataBlock]
  rw [mapDataOp_setBody]
  simp only [AssignDevicesInRegion]
  exact walkBlock_mapData _ _ (eraseAttrs_assignDevice ctx tf_dialect launch) _

theorem eraseAttrs_assignInFunctions (ctx : MLIRContext) (tf_dialect : Dialect)
    (launch : OpData) :
    ∀ (funcs : List Operation) (module : ModuleOp),
      mapDataBlock eraseAttrs (assignInFunctions ctx tf_dialect launch funcs module).1
        = mapDataBlock eraseAttrs module := by
  intro funcs
  induction funcs with
  | nil => intro module; rfl
  | cons func rest ih =>
    intro module
    simp only [assignInFunctions]
    split
    · exact eraseAttrs_assignInBodyOf ..
    · rw [ih, eraseAttrs_assignInBodyOf]

/-- A hoist that fails leaves the module as `replaceAllUsesWith` made it, but
for attributes. -/
theorem eraseAttrs_Hoist_failed (ctx : MLIRContext) (tf_dialect : Dialect) (module : ModuleOp)
    (launch : Operation)
    (hfail : failed (HoistOpsAndAnnotateWithDevice ctx tf_dialect module launch).2 = true) :
    mapDataBlock eraseAttrs (HoistOpsAndAnnotateWithDevice ctx tf_dialect module launch).1
      = mapDataBlock eraseAttrs (replaceAllUsesWith launch.data.id launch.data.numResults
          (terminatorOperands launch.body) module) := by
  unfold HoistOpsAndAnnotateWithDevice at hfail ⊢
  simp only at hfail ⊢
  split
  · rw [eraseAttrs_assignInBodyOf]
  · split
    · rw [eraseAttrs_assignInFunctions, eraseAttrs_assignInBodyOf]
    · rename_i h1 h2
      rw [if_neg h1, if_neg h2] at hfail
      cases hfail

theorem forall₂_of_map_eq {α β γ : Type} (f : α → γ) (g : β → γ) :
    ∀ (l1 : List α) (l2 : List β), l1.map f = l2.map g →
      List.Forall₂ (fun a b => f a = g b) l1 l2 := by
  intro l1
  induction l1 with
  | nil =>
    intro l2 h
    cases l2 with
    | nil => exact List.Forall₂.nil
    | cons b l2 => simp at h
  | cons a l1 ih =>
    intro l2 h
    cases l2 with
    | nil => simp at h
    | cons b l2 =>
      simp only [List.map_cons, List.cons.injEq] at h
      exact List.Forall₂.cons h.1 (ih l2 h.2)

/-- C18: a hoist that fails during propagation leaves the redirection of the
uses in place.  The launch is still in the module, with its body; every
operation of the module is at its place with its operands position by
position as before, but that an operand that was result `i` of the launch is
now operand `i` of the terminator of the launch; no operand is a result of the
launch any more.  (The launch has `N` results and its terminator `N` operands,
none of them a result of the launch itself.) -/
theorem Hoist_failure_keeps_redirection (ctx : MLIRContext) (tf_dialect : Dialect)
    (module : ModuleOp) (launch : Operation) (ops : Block) (terminator : Operation)
    (hin : findOp module launch.data.id = some launch)
    (hlaunch : isLaunchOp launch.data = true)
    (hbody : launch.body = ops ++ [terminator])
    (hN : terminator.data.operands.length = launch.data.numResults)
    (hdom : ∀ v ∈ terminator.data.operands, ∀ i, v ≠ .OpResult launch.data.id i)
    (hfail : failed (HoistOpsAndAnnotateWithDevice ctx tf_dialect module launch).2 = true) :
    (∃ launch', findOp (HoistOpsAndAnnotateWithDevice ctx tf_dialect module launch).1
        launch.data.id = some launch' ∧ isLaunchOp launch'.data = true ∧
      skeleton launch'.body = skeleton launch.body) ∧
    List.Forall₂ (fun op op' => op'.id = op.id ∧
        List.Forall₂ (fun v v' =>
          (∀ i, v = .OpResult launch.data.id i → i < launch.data.numResults →
            terminator.data.operands[i]? = some v') ∧
          ((∀ i, i < launch.data.numResults → v ≠ .OpResult launch.data.id i) → v' = v))
          op.operands op'.operands ∧
        (∀ v' ∈ op'.operands, ∀ i, i < launch.data.numResults →
          v' ≠ .OpResult launch.data.id i))
      (nodes module) (nodes (HoistOpsAndAnnotateWithDevice ctx tf_dialect module launch).1) := by
  constructor
  · have hs := skeleton_Hoist ctx tf_dialect module launch
    rw [hfail] at hs
    simp only [if_true] at hs
    have hfind := congrArg (fun b => findOp b launch.data.id) hs
    simp only [skeleton] at hfind
    rw [findOp_mapData _ skeletonData_id, findOp_mapData _ skeletonData_id, hin] at hfind
    cases hres : findOp (HoistOpsAndAnnotateWithDevice ctx tf_dialect module launch).1
        launch.data.id with
    | none => rw [hres] at hfind; cases hfind
    | some launch' =>
      rw [hres] at hfind
      simp only [Option.map_some', Option.some.injEq] at hfind
      refine ⟨launch', rfl, ?_, ?_⟩
      · have hd := congrArg Operation.data hfind
        rw [data_mapDataOp, data_mapDataOp] at hd
        have hname : launch'.data.name = launch.data.name := by
          have := congrArg OpData.name hd
          exact this
        rw [isLaunchOp_congr hname]; exact hlaunch
      · have hb := congrArg Operation.body hfind
        rw [body_mapDataOp, body_mapDataOp] at hb
        exact hb
  · have he := eraseAttrs_Hoist_failed ctx tf_dialect module launch hfail
    have hn := congrArg nodes he
    unfold replaceAllUsesWith at hn
    rw [mapDataBlock_comp, nodes_mapData, nodes_mapData, hbody, terminatorOperands_concat] at hn
    have hall := forall₂_of_map_eq _ _ _ _ hn.symm
    refine hall.imp ?_
    intro n n' e
    have hid : n'.id = n.id := (congrArg OpData.id e).symm
    have hops : n'.operands = n.operands.map (forwardValue launch.data.id
        launch.data.numResults terminator.data.operands) := (congrArg OpData.operands e).symm
    refine ⟨hid, ?_, ?_⟩
    · rw [hops, List.forall₂_map_right_iff, List.forall₂_same]
      intro v _
      refine ⟨fun i hv hi => ?_, fun h => forwardValue_other _ _ _ v h⟩
      subst hv
      exact forwardValue_result _ _ _ i hi hN
    · rw [hops]
      intro v' hv' i hi
      obtain ⟨v, _, rfl⟩ := List.mem_map.1 hv'
      exact forwardValue_fresh _ _ _ hN hdom v i hi

/-- C18 on the module of the file header with `GPU:0` on `opC`: the hoist
fails; the launch (id 2) is still there around `opB`, `opC` and its
terminator, and the `yield`, which used `%launch#0` and `%launch#1`, uses `%c`
and `%b`, defined inside the body of the launch. -/
theorem Hoist_failure_keeps_redirection_witness :
    failed (HoistOpsAndAnnotateWithDevice exampleContext "tf" conflictModule conflictLaunch).2
      = true ∧
    (findOp (HoistOpsAndAnnotateWithDevice exampleContext "tf" conflictModule conflictLaunch).1
      2).map (fun l => ids l.body) = some [3, 4, 5] ∧
    (findOp (HoistOpsAndAnnotateWithDevice exampleContext "tf" conflictModule conflictLaunch).1
      7).map (fun y => y.data.operands)
      = some [.OpResult 1 0, .OpResult 4 0, .OpResult 3 0, .OpResult 6 0] ∧
    ∃ launch', findOp
        (HoistOpsAndAnnotateWithDevice exampleContext "tf" conflictModule conflictLaunch).1
        conflictLaunch.data.id = some launch' ∧ isLaunchOp launch'.data = true ∧
      skeleton launch'.body = skeleton conflictLaunch.body :=
  ⟨by decide, by rfl, by rfl,
    (Hoist_failure_keeps_redirection exampleContext "tf" conflictModule conflictLaunch
      [tfOp 3 "opB" [] [] 1, tfOp 4 "opC" [("device", .StringAttr "GPU:0")] [] 1]
      (.mk ⟨5, ⟨"tf_device", "return"⟩, [], [.OpResult 4 0, .OpResult 3 0], 0⟩ [])
      (by rfl) (by decide) (by rfl) (by decide)
      (by
        intro v hv i
        simp only [Operation.data, List.mem_cons, List.mem_singleton, List.not_mem_nil,
          or_false] at hv
        rcases hv with rfl | rfl <;> simp [conflictLaunch, Operation.data])
      (by decide)).1⟩

/-- C19: when the function `F` that holds the launch is in the reachable set
of the body of the launch, a successful hoist leaves every operation of the
family of `F` outside the body of the launch in the module, with the device
`d` of the launch; and the hoist fails when such an operation has a device
that is not a string, or a non-empty string other than `d`. -/
theorem Hoist_annotates_enclosing_function (ctx : MLIRContext) (module : ModuleOp)
    (launch F : Operation) (d : String) (hnd : NodupIds module)
    (hl : isLaunchOp launch.data = true) (hwf : launchWellFormed launch = true)
    (hd : launch.data.getAttr kDeviceAttr = some (.StringAttr d))
    (hF : F ∈ GetReachableFunctionsFromRegion ctx module launch.body)
    (hSF : findOp F.body launch.data.id = some launch) :
    (failed (HoistOpsAndAnnotateWithDevice ctx "tf" module launch).2 = false →
      ∀ n ∈ nodes F.body, inFamily ctx "tf" n = true → n.id ∉ ids launch.body →
        ∃ op' ∈ nodes (HoistOpsAndAnnotateWithDevice ctx "tf" module launch).1,
          op'.id = n.id ∧ op'.getAttr kDeviceAttr = some (.StringAttr d)) ∧
    ((∃ n ∈ nodes F.body, inFamily ctx "tf" n = true ∧ n.id ∉ ids launch.body ∧
        conflictsWith d n = true) →
      failed (HoistOpsAndAnnotateWithDevice ctx "tf" module launch).2 = true) := by
  have hFm : F ∈ allOpsBlock module :=
    mem_allOpsBlock_of_mem (GetReachable_mem ctx module launch.body F hF)
  have hmem : launch ∈ allOpsBlock module :=
    allOps_trans_block module F hFm launch (allOps_body_sub F launch (findOp_some_mem hSF).1)
  have hS : ∀ n ∈ nodes F.body, n.id ∈ ids launch.body ++
      bodyIds (GetReachableFunctionsFromRegion ctx module launch.body) := fun n hn =>
    List.mem_append_right _ (mem_bodyIds.2 ⟨F, hF, mem_ids_of_mem_nodes hn⟩)
  constructor
  · intro hok n hn hfam _
    obtain ⟨G, hE, e⟩ := Hoist_success ctx "tf" module launch hnd hmem hok
    have hnm : n ∈ nodes module := nodes_body_subset hFm n hn
    have hne : n.id ≠ launch.data.id := by
      intro hid
      have := node_eq_of_id hnd hnm (mem_nodes_of_mem_allOps hmem) hid
      rw [this, inFamily_launch ctx hl] at hfam; cases hfam
    have hname : n.name ≠ ReturnOpName := by
      intro hr
      rw [inFamily_return ctx hr] at hfam; cases hfam
    refine ⟨G n, ?_, (hE.1 n).1, ?_⟩
    · rw [e, nodes_mapData]
      exact List.mem_map_of_mem G (mem_nodes_spliceBody module launch hnd hmem hwf n hnm hne hname)
    · have := hE.2.2 n hnm (hS n hn) hfam
      rw [this, LaunchOp.device_eq hd]
  · rintro ⟨n, hn, hfam, _, hconf⟩
    cases hres : failed (HoistOpsAndAnnotateWithDevice ctx "tf" module launch).2 with
    | true => rfl
    | false =>
      exfalso
      obtain ⟨G, hE, _⟩ := Hoist_success ctx "tf" module launch hnd hmem hres
      have hnm : n ∈ nodes module := nodes_body_subset hFm n hn
      have hdev := hE.2.2 n hnm (hS n hn) hfam
      rw [LaunchOp.device_eq hd] at hdev
      rcases hE.2.1 n with e | ⟨_, hu, _, _⟩
      · simp only [OpData.getAttr, e] at hdev
        simp [conflictsWith, OpData.getAttr, hdev] at hconf
      · rcases hu with hu | hu <;> simp [conflictsWith, hu] at hconf

/-- C19 on the function `main` with a launch on `CPU:0` that calls `main`:
with no device on `opE`, outside the launch, the hoist succeeds and `opE` has
`CPU:0`; with `GPU:0` on `opE` the hoist fails. -/
theorem Hoist_annotates_enclosing_function_witness :
    handleIds (GetReachableFunctionsFromRegion exampleContext [selfMain []] selfLaunch.body)
      = [1] ∧
    failed (HoistOpsAndAnnotateWithDevice exampleContext "tf" [selfMain []] selfLaunch).2
      = false ∧
    (∃ op' ∈ nodes (HoistOpsAndAnnotateWithDevice exampleContext "tf" [selfMain []] selfLaunch).1,
      op'.id = 2 ∧ op'.getAttr kDeviceAttr = some (.StringAttr "CPU:0")) ∧
    failed (HoistOpsAndAnnotateWithDevice exampleContext "tf"
      [selfMain [("device", .StringAttr "GPU:0")]] selfLaunch).2 = true :=
  ⟨by decide, by decide,
    (Hoist_annotates_enclosing_function exampleContext [selfMain []] selfLaunch (selfMain [])
      "CPU:0" (by decide) (by decide) (by decide) (by decide) (List.Mem.head _) (by rfl)).1
      (by decide) ⟨2, ⟨"tf", "opE"⟩, [], [], 1⟩ (by decide) (by decide) (by decide),
    (Hoist_annotates_enclosing_function exampleContext
      [selfMain [("device", .StringAttr "GPU:0")]] selfLaunch
      (selfMain [("device", .StringAttr "GPU:0")])
      "CPU:0" (by decide) (by decide) (by decide) (by decide) (List.Mem.head _) (by rfl)).2
      ⟨⟨2, ⟨"tf", "opE"⟩, [("device", .StringAttr "GPU:0")], [], 1⟩, by decide, by decide,
        by decide, by decide⟩⟩

end mlir
